import Mathlib

/-!
The chunk store of bigfile (`databases/models/chunk.go`)

A shallow embedding of the chunk model of bigfile: the sharded chunk path
(`Chunk.Path`), chunk creation (`CreateChunkFromBytes`,
`CreateEmptyContentChunk`) and the append operation (`Chunk.AppendBytes`),
over an explicit store made of the `chunks` table, the reference counts of the
`object_chunk` relation and a filesystem of directories and files.

Go strings are lists of characters, byte slices are lists of bytes, and the
outcome of a call is a value, an `error` return or a `panic`.
-/

namespace Bigfile

/-- Go `string`. -/
abbrev Str := List Char

/-- Go `[]byte`. -/
abbrev Bytes := List UInt8

/-- `ChunkSize` of chunk.go: the chunk capacity, `1 << 20`. -/
def ChunkSize : Nat := 1 <<< 20

/-- Errors and panic values that the chunk model raises. -/
inductive Err where
  /-- `ErrInvalidChunkID`. -/
  | InvalidChunkID
  /-- `ErrChunkExceedLimit`. -/
  | ChunkExceedLimit
  /-- The error of `CreateChunkFromBytes` for content larger than `ChunkSize`. -/
  | SizeTooLarge
  /-- `gorm.ErrRecordNotFound`. -/
  | RecordNotFound
  /-- The UNIQUE constraint of the `hash` column is violated. -/
  | DuplicateHash
  /-- The index could not run a statement. -/
  | Database
  /-- The file does not exist. -/
  | NotExist
  /-- Any other filesystem failure. -/
  | IOFailure
  deriving DecidableEq, Repr

/-- How a Go call ends: a value, a returned `error`, or a `panic`. -/
inductive Outcome (α : Type) where
  | ok (a : α)
  | error (e : Err)
  | panic (e : Err)
  deriving DecidableEq, Repr

/-- `Chunk` of chunk.go. `Size` is a Go `int`, the timestamps are clock readings. -/
structure Chunk where
  ID : Nat
  Size : Int
  Hash : Str
  CreatedAt : Nat
  UpdatedAt : Nat
  deriving DecidableEq, Repr

/-- The zero value of `Chunk` (`var chunk Chunk`). -/
def Chunk.zero : Chunk := ⟨0, 0, [], 0, 0⟩

/-- The store a call runs against: the `chunks` table in primary-key order, its
AUTO_INCREMENT counter, the number of `object_chunk` rows per chunk id, and the
filesystem (regular files with their bytes, and directories). -/
structure Store where
  rows : List Chunk
  nextID : Nat
  refs : Nat → Nat
  files : Str → Option Bytes
  dirs : Str → Bool

/-- How a failing `ioutil.WriteFile` leaves the file. -/
inductive WriteFileFault where
  /-- The file could not be opened: nothing is written. -/
  | openFails
  /-- The write stopped after `k` bytes. -/
  | shortWrite (k : Nat)
  deriving DecidableEq, Repr

/-- What the environment of one call decides: the configured default root, the
clock of the index, and which of the index and filesystem operations fail for
reasons outside the store. -/
structure Env where
  cfgRoot : Str
  now : Nat
  findErr : Bool
  countErr : Bool
  createErr : Bool
  saveErr : Bool
  mkdirErr : Bool
  readErr : Bool
  openErr : Bool
  /-- `some k`: `file.Write` fails after `k` bytes. -/
  writeErr : Option Nat
  writeFileErr : Option WriteFileFault

/-- An environment in which no operation fails for an outside reason. -/
def Env.calm (cfgRoot : Str) (now : Nat) : Env :=
  ⟨cfgRoot, now, false, false, false, false, false, false, false, none, none⟩

/-! ## Strings -/

/-- `strconv.FormatUint(n, 10)`. -/
def FormatUint (n : Nat) : Str := Nat.toDigits 10 n

/-- Modelled from the spec: `util.SubStrFromToEnd(s, -k)` of internal/util, the
last `k` characters of `s` (the least-significant group of digits). -/
def SubStrFromToEnd (s : Str) (k : Nat) : Str := s.drop (s.length - k)

/-- Modelled from the spec: `util.SubStrFromTo(s, 0, -k)` of internal/util, `s`
without its last `k` characters. -/
def SubStrFromTo (s : Str) (k : Nat) : Str := s.take (s.length - k)

/-- Modelled from the spec: `util.ReverseSlice` of internal/util, which reverses
the order of a slice. -/
def ReverseSlice (parts : List Str) : List Str := parts.reverse

/-- `strings.TrimSuffix(s, "/")`. -/
def TrimSuffix (s : Str) : Str :=
  if s.getLast? = some '/' then s.dropLast else s

/-- `filepath.Join` on components made of digits: empty components are ignored
and the others are joined with the separator. -/
def Join (parts : List Str) : Str :=
  List.intercalate ['/'] (parts.filter (fun p => !p.isEmpty))

/-- The loop of `Chunk.Path`: while `idStr` is longer than three characters its
last three go to `parts[index]`. Returns `idStr`, `parts` and `index` at exit. -/
def pathLoop : Nat → Str → List Str → Nat → Str × List Str × Nat
  | 0, idStr, parts, index => (idStr, parts, index)
  | fuel + 1, idStr, parts, index =>
    if idStr.length > 3 then
      pathLoop fuel (SubStrFromTo idStr 3) (parts.set index (SubStrFromToEnd idStr 3)) (index + 1)
    else (idStr, parts, index)

/-- The directory components `Chunk.Path` computes from the id, after
`parts = parts[1:]` and `util.ReverseSlice(parts)`. -/
def pathParts (id : Nat) : List Str :=
  let idStr := FormatUint id
  let parts := List.replicate (idStr.length / 3 + 1) ([] : Str)
  let (idStr, parts, index) := pathLoop idStr.length idStr parts 0
  let parts := parts.set index idStr
  let parts := parts.drop 1
  ReverseSlice parts

/-- The directory of a chunk: `fmt.Sprintf("%s/%s", TrimSuffix(root, "/"), Join(parts))`. -/
def chunkDir (root : Str) (id : Nat) : Str :=
  TrimSuffix root ++ '/' :: Join (pathParts id)

/-- The string `Chunk.Path` returns: the directory, a separator and the id. -/
def chunkPath (root : Str) (id : Nat) : Str :=
  chunkDir root id ++ '/' :: FormatUint id

/-! ## Filesystem -/

/-- `util.IsDir`. -/
def IsDir (s : Store) (p : Str) : Bool := s.dirs p

/-- `util.IsFile`. -/
def IsFile (s : Store) (p : Str) : Bool := (s.files p).isSome

/-- `os.MkdirAll(dir)`: `dir` and every parent of it are directories afterwards. -/
def MkdirAll (s : Store) (dir : Str) : Store :=
  { s with dirs := fun q => decide (q = dir) || decide ((q ++ ['/']) <+: dir) || s.dirs q }

/-- The file at `p` holds `b` afterwards. -/
def putFile (s : Store) (p : Str) (b : Bytes) : Store :=
  { s with files := fun q => if q = p then some b else s.files q }

/-- The root a call uses: `config.DefaultConfig.Chunk.RootPath` when `rootPath`
is nil. -/
def rootOf (e : Env) (rootPath : Option Str) : Str :=
  match rootPath with
  | none => e.cfgRoot
  | some r => r

/-- `Chunk.Path`: the root defaults to the configured one, ids below 10000 panic,
and the directory is created when it does not exist. -/
def Chunk.Path (e : Env) (rootPath : Option Str) (c : Chunk) (s : Store) : Outcome Str × Store :=
  let root := rootOf e rootPath
  if c.ID < 10000 then (.panic .InvalidChunkID, s)
  else
    let dir := chunkDir root c.ID
    if !IsDir s dir then
      if e.mkdirErr then (.panic .IOFailure, s)
      else (.ok (dir ++ '/' :: FormatUint c.ID), MkdirAll s dir)
    else (.ok (dir ++ '/' :: FormatUint c.ID), s)

/-! ## The index -/

/-- `FindChunkByHash`: `db.Where("hash = ?", h).First(&chunk)`. The chunk is the
zero value when the query fails or finds no row, and it is returned with the
error in every case. -/
def FindChunkByHash (e : Env) (h : Str) (s : Store) : Chunk × Option Err :=
  if e.findErr then (Chunk.zero, some .Database)
  else match s.rows.find? (fun r => decide (r.Hash = h)) with
    | some r => (r, none)
    | none => (Chunk.zero, some .RecordNotFound)

/-- `db.Create(chunk)` for a chunk without id: the row takes the next
AUTO_INCREMENT id and the clock as timestamps; the `hash` column is UNIQUE. -/
def dbCreate (e : Env) (c : Chunk) (s : Store) : Outcome Chunk × Store :=
  if e.createErr then (.error .Database, s)
  else if s.rows.any (fun r => decide (r.Hash = c.Hash)) then (.error .DuplicateHash, s)
  else
    let c1 : Chunk := { c with ID := s.nextID, CreatedAt := e.now, UpdatedAt := e.now }
    (.ok c1, { s with rows := s.rows ++ [c1], nextID := s.nextID + 1 })

/-- `db.Save(c)`: the row of `c.ID` takes the fields of `c` with a new
`UpdatedAt`; when there is no such row it is inserted, and a chunk without id is
created. The `hash` column is UNIQUE. -/
def dbSave (e : Env) (c : Chunk) (s : Store) : Outcome Chunk × Store :=
  if c.ID = 0 then dbCreate e c s
  else if e.saveErr then (.error .Database, s)
  else if s.rows.any (fun r => decide (r.ID ≠ c.ID) && decide (r.Hash = c.Hash)) then
    (.error .DuplicateHash, s)
  else
    let c1 : Chunk := { c with UpdatedAt := e.now }
    if s.rows.any (fun r => decide (r.ID = c.ID)) then
      (.ok c1, { s with rows := s.rows.map (fun r => if r.ID = c.ID then c1 else r) })
    else
      (.ok c1, { s with rows := s.rows ++ [c1], nextID := max s.nextID (c.ID + 1) })

/-- Modelled from the spec: `CountObjectChunkByChunkID` of the models package
(`count_references`), the number of objects pointing at the chunk. -/
def CountObjectChunkByChunkID (e : Env) (id : Nat) (s : Store) : Outcome Nat :=
  if e.countErr then .error .Database else .ok (s.refs id)

/-! ## Files -/

/-- `ioutil.ReadFile`. -/
def ReadFile (e : Env) (path : Str) (s : Store) : Outcome Bytes :=
  if e.readErr then .error .IOFailure
  else match s.files path with
    | some b => .ok b
    | none => .error .NotExist

/-- `ioutil.WriteFile(path, p, 0644)`: the file is created or truncated and
holds `p`; a failing call leaves no file or a prefix of `p`. -/
def WriteFile (e : Env) (path : Str) (p : Bytes) (s : Store) : Option Err × Store :=
  match e.writeFileErr with
  | none => (none, putFile s path p)
  | some .openFails => (some .IOFailure, s)
  | some (.shortWrite k) => (some .IOFailure, putFile s path (p.take k))

/-- `os.OpenFile(path, O_APPEND|O_WRONLY)` followed by `file.Write(p)`: the
result is the byte count, or the error of the step that failed. -/
def appendFile (e : Env) (path : Str) (p : Bytes) (s : Store) : Outcome Nat × Store :=
  if e.openErr then (.error .IOFailure, s)
  else match s.files path with
    | none => (.error .NotExist, s)
    | some old =>
      match e.writeErr with
      | some k => (.error .IOFailure, putFile s path (old ++ p.take k))
      | none => (.ok p.length, putFile s path (old ++ p))

/-! ## The chunk operations -/

/-- The test `err == nil && chunk.ID > 0 && util.IsFile(chunk.Path(rootPath))`
on the result of `FindChunkByHash`, evaluated left to right: the chunk when the
test holds. -/
def findStored (e : Env) (rootPath : Option Str) (h : Str) (s : Store) :
    Outcome (Option Chunk) × Store :=
  let (chunk, err) := FindChunkByHash e h s
  if err = none ∧ chunk.ID > 0 then
    match chunk.Path e rootPath s with
    | (.ok path, s1) => if IsFile s1 path then (.ok (some chunk), s1) else (.ok none, s1)
    | (.error x, s1) => (.error x, s1)
    | (.panic x, s1) => (.panic x, s1)
  else (.ok none, s)

/-- The end of `CreateChunkFromBytes` and `CreateEmptyContentChunk`:
`db.Create(chunk)` and then `ioutil.WriteFile(chunk.Path(rootPath), p, 0644)`. -/
def createAndWrite (e : Env) (rootPath : Option Str) (chunk : Chunk) (p : Bytes) (s : Store) :
    Outcome Chunk × Store :=
  match dbCreate e chunk s with
  | (.ok chunk, s1) =>
    match chunk.Path e rootPath s1 with
    | (.ok path, s2) =>
      match WriteFile e path p s2 with
      | (none, s3) => (.ok chunk, s3)
      | (some x, s3) => (.error x, s3)
    | (.error x, s2) => (.error x, s2)
    | (.panic x, s2) => (.panic x, s2)
  | (.error x, s1) => (.error x, s1)
  | (.panic x, s1) => (.panic x, s1)

/-- `CreateChunkFromBytes`, with `H` for `util.Sha256Hash2String`. -/
def CreateChunkFromBytes (H : Bytes → Str) (e : Env) (p : Bytes) (rootPath : Option Str)
    (s : Store) : Outcome Chunk × Store :=
  let size := p.length
  if size > ChunkSize then (.error .SizeTooLarge, s)
  else
    let hashStr := H p
    match findStored e rootPath hashStr s with
    | (.ok (some chunk), s1) => (.ok chunk, s1)
    | (.ok none, s1) =>
      createAndWrite e rootPath { Chunk.zero with Size := size, Hash := hashStr } p s1
    | (.error x, s1) => (.error x, s1)
    | (.panic x, s1) => (.panic x, s1)

/-- `CreateEmptyContentChunk`. -/
def CreateEmptyContentChunk (H : Bytes → Str) (e : Env) (rootPath : Option Str) (s : Store) :
    Outcome Chunk × Store :=
  let emptyContentHash := H []
  match findStored e rootPath emptyContentHash s with
  | (.ok (some chunk), s1) => (.ok chunk, s1)
  | (.ok none, s1) =>
    createAndWrite e rootPath { Chunk.zero with Size := 0, Hash := emptyContentHash } [] s1
  | (.error x, s1) => (.error x, s1)
  | (.panic x, s1) => (.panic x, s1)

/-- Arithmetic of the Go type `int` (64 bits, two's complement). -/
def wrapInt (x : Int) : Int := (x + 2 ^ 63) % 2 ^ 64 - 2 ^ 63

/-- What a call of `AppendBytes` leaves: its outcome (the chunk and the byte
count), the caller's chunk record `c`, and the store. -/
structure Appended where
  out : Outcome (Chunk × Nat)
  record : Chunk
  store : Store

/-- The environment of a nested call: its failures are those of `e2`, the
configured root is the one of the process. -/
def Env.nested (e e2 : Env) : Env := { e2 with cfgRoot := e.cfgRoot }

/-- `Chunk.AppendBytes`, with `H` for `util.Sha256Hash2String`; `e` decides the
steps of the call itself and `e2` those of the nested `CreateChunkFromBytes`. -/
def Chunk.AppendBytes (H : Bytes → Str) (e e2 : Env) (c : Chunk) (p : Bytes)
    (rootPath : Option Str) (s : Store) : Appended :=
  if (p.length : Int) > wrapInt ((ChunkSize : Int) - c.Size) then ⟨.panic .ChunkExceedLimit, c, s⟩
  else
    match c.Path e rootPath s with
    | (.error x, s1) => ⟨.error x, c, s1⟩
    | (.panic x, s1) => ⟨.panic x, c, s1⟩
    | (.ok path, s1) =>
      match ReadFile e path s1 with
      | .error x => ⟨.error x, c, s1⟩
      | .panic x => ⟨.panic x, c, s1⟩
      | .ok oldContent =>
        let buf := oldContent ++ p
        let hash := H buf
        match findStored e rootPath hash s1 with
        | (.error x, s2) => ⟨.error x, c, s2⟩
        | (.panic x, s2) => ⟨.panic x, c, s2⟩
        | (.ok (some chunk), s2) => ⟨.ok (chunk, p.length), c, s2⟩
        | (.ok none, s2) =>
          match CountObjectChunkByChunkID e c.ID s2 with
          | .error x => ⟨.error x, c, s2⟩
          | .panic x => ⟨.panic x, c, s2⟩
          | .ok count =>
            if count > 1 then
              match CreateChunkFromBytes H (e.nested e2) buf rootPath s2 with
              | (.error x, s3) => ⟨.error x, c, s3⟩
              | (.panic x, s3) => ⟨.panic x, c, s3⟩
              | (.ok newChunk, s3) => ⟨.ok (newChunk, p.length), c, s3⟩
            else
              let c1 : Chunk := { c with Size := buf.length, Hash := hash }
              match c1.Path e rootPath s2 with
              | (.error x, s3) => ⟨.error x, c1, s3⟩
              | (.panic x, s3) => ⟨.panic x, c1, s3⟩
              | (.ok path, s3) =>
                match appendFile e path p s3 with
                | (.error x, s4) => ⟨.error x, c1, s4⟩
                | (.panic x, s4) => ⟨.panic x, c1, s4⟩
                | (.ok writeCount, s4) =>
                  match dbSave e c1 s4 with
                  | (.error x, s5) => ⟨.error x, c1, s5⟩
                  | (.panic x, s5) => ⟨.panic x, c1, s5⟩
                  | (.ok c2, s5) => ⟨.ok (c2, writeCount), c2, s5⟩

/-! ## Concrete stores used as examples -/

/-- A digest for examples: the bytes written as characters, which never collides. -/
def plainDigest (b : Bytes) : Str := b.map (fun x => Char.ofNat x.toNat)

/-- An empty store whose index hands out ids from 10000. -/
def emptyStore : Store := ⟨[], 10000, fun _ => 0, fun _ => none, fun _ => false⟩

/-- The root of the examples. -/
def exRoot : Str := "root".toList

/-- A calm environment for the examples. -/
def exEnv : Env := Env.calm exRoot 7

/-- The environment of the examples in which `db.Save` fails. -/
def exEnvSaveFails : Env := { exEnv with saveErr := true }

/-- The chunk of the examples: id 10000 holding the bytes 1, 2. -/
def exChunk : Chunk := ⟨10000, 2, plainDigest [1, 2], 7, 7⟩

/-- A store with the single chunk `exChunk`, referenced by `n` objects. -/
def exStore (n : Nat) : Store :=
  ⟨[exChunk], 10001, fun _ => n,
    fun q => if q = chunkPath exRoot 10000 then some [1, 2] else none,
    fun q => decide (q = chunkDir exRoot 10000)⟩

/-- The second chunk of the examples: id 10001 holding the bytes 1, 2, 3. -/
def exChunk2 : Chunk := ⟨10001, 3, plainDigest [1, 2, 3], 7, 7⟩

/-- A store with the chunks `exChunk` and `exChunk2`, each referenced by `n`
objects. -/
def exStore2 (n : Nat) : Store :=
  ⟨[exChunk, exChunk2], 10002, fun _ => n,
    fun q => if q = chunkPath exRoot 10000 then some [1, 2]
      else if q = chunkPath exRoot 10001 then some [1, 2, 3] else none,
    fun q => decide (q = chunkDir exRoot 10000)⟩

/-! ## The sharding rule in the words of the specification -/

/-- Cuts a string into pieces of three characters from its head; the last piece
may be shorter. -/
def threes : Str → List Str
  | a :: b :: c :: d :: rest => [a, b, c] :: threes (d :: rest)
  | l => [l]

/-- The groups of three digits of a digit string taken from its
least-significant end, the least-significant group first. -/
def lsfGroups (s : Str) : List Str := (threes s.reverse).map List.reverse

/-- The shard groups of an id: its decimal digits in groups of three from the
least-significant end, read most-significant first (only the first group may be
shorter than three digits). -/
def shardGroups (id : Nat) : List Str := (lsfGroups (FormatUint id)).reverse

/-! ## Properties of a store -/

/-- The row `r` agrees with the disk: the file at its path holds exactly
`r.Size` bytes whose digest is `r.Hash`. -/
def rowOK (H : Bytes → Str) (root : Str) (s : Store) (r : Chunk) : Bool :=
  match s.files (chunkPath root r.ID) with
  | some b => decide ((b.length : Int) = r.Size) && decide (H b = r.Hash)
  | none => false

/-- Invariant I1: every row of the index agrees with the disk. -/
def Consistent (H : Bytes → Str) (root : Str) (s : Store) : Prop :=
  ∀ r ∈ s.rows, rowOK H root s r = true

/-- The AUTO_INCREMENT counter lies above every id of the index. -/
def IdsFresh (s : Store) : Prop := ∀ r ∈ s.rows, r.ID < s.nextID

/-- The digest does not collide between `x` and the content of a stored file. -/
def NoCollision (H : Bytes → Str) (s : Store) (x : Bytes) : Prop :=
  ∀ q b, s.files q = some b → H b = H x → b = x

instance (H : Bytes → Str) (root : Str) (s : Store) : Decidable (Consistent H root s) :=
  inferInstanceAs (Decidable (∀ r ∈ s.rows, rowOK H root s r = true))

instance (s : Store) : Decidable (IdsFresh s) :=
  inferInstanceAs (Decidable (∀ r ∈ s.rows, r.ID < s.nextID))

/-- The number a string of decimal digits stands for. -/
def digitsVal (ds : Str) : Nat := ds.foldl (fun a c => 10 * a + (c.toNat - 48)) 0

/-- The store `t` differs from `s` in its directories at most. -/
def SameData (s t : Store) : Prop :=
  t.rows = s.rows ∧ t.nextID = s.nextID ∧ t.refs = s.refs ∧ t.files = s.files ∧
    ∀ q, s.dirs q = true → t.dirs q = true

/-- The row `db.Create` inserts for `chunk`. -/
def createdRow (e : Env) (chunk : Chunk) (s : Store) : Chunk :=
  { chunk with ID := s.nextID, CreatedAt := e.now, UpdatedAt := e.now }

/-- The index after `db.Create` inserted the row for `chunk`. -/
def withCreated (e : Env) (chunk : Chunk) (s : Store) : Store :=
  { s with rows := s.rows ++ [createdRow e chunk s], nextID := s.nextID + 1 }

/-- The caller's record after the in-place path set `c.Size` and `c.Hash`. -/
def grown (H : Bytes → Str) (c : Chunk) (old p : Bytes) : Chunk :=
  { c with Size := ((old ++ p).length : Nat), Hash := H (old ++ p) }

/-- Every way the in-place end of `AppendBytes` can go, from a store `s2` in
which the chunk file holds `old` and its directory exists. -/
def InPlaceRun (H : Bytes → Str) (e : Env) (c : Chunk) (p old : Bytes) (root : Str) (s2 : Store)
    (R : Appended) : Prop :=
  (e.openErr = true ∧ R = ⟨.error .IOFailure, grown H c old p, s2⟩) ∨
  (e.openErr = false ∧ ∃ k, e.writeErr = some k ∧
    R = ⟨.error .IOFailure, grown H c old p,
          putFile s2 (chunkPath root c.ID) (old ++ p.take k)⟩) ∨
  (e.openErr = false ∧ e.writeErr = none ∧
    ((∃ x, dbSave e (grown H c old p) (putFile s2 (chunkPath root c.ID) (old ++ p))
          = (.error x, putFile s2 (chunkPath root c.ID) (old ++ p)) ∧
        R = ⟨.error x, grown H c old p, putFile s2 (chunkPath root c.ID) (old ++ p)⟩) ∨
     (∃ c2 s5, dbSave e (grown H c old p) (putFile s2 (chunkPath root c.ID) (old ++ p))
          = (.ok c2, s5) ∧ R = ⟨.ok (c2, p.length), c2, s5⟩)))

/-- Every way `AppendBytes` can go once the dedup lookup found nothing, from the
store `s2` that the lookup left. -/
def AfterLookup (H : Bytes → Str) (e e2 : Env) (c : Chunk) (p old : Bytes) (rp : Option Str)
    (s2 : Store) (R : Appended) : Prop :=
  (e.countErr = true ∧ R = ⟨.error .Database, c, s2⟩) ∨
  (e.countErr = false ∧ s2.refs c.ID > 1 ∧
    ((∃ x s3, CreateChunkFromBytes H (e.nested e2) (old ++ p) rp s2 = (.error x, s3) ∧ R = ⟨.error x, c, s3⟩) ∨
     (∃ x s3, CreateChunkFromBytes H (e.nested e2) (old ++ p) rp s2 = (.panic x, s3) ∧ R = ⟨.panic x, c, s3⟩) ∨
     (∃ n s3, CreateChunkFromBytes H (e.nested e2) (old ++ p) rp s2 = (.ok n, s3) ∧
        R = ⟨.ok (n, p.length), c, s3⟩))) ∨
  (e.countErr = false ∧ s2.refs c.ID ≤ 1 ∧ InPlaceRun H e c p old (rootOf e rp) s2 R)

/-- Every way `AppendBytes` can go once the chunk file was read, from the store
`s1` that `Path` left. -/
def AfterRead (H : Bytes → Str) (e e2 : Env) (c : Chunk) (p old : Bytes) (rp : Option Str)
    (s1 : Store) (R : Appended) : Prop :=
  (∃ x, x ≠ .ChunkExceedLimit ∧ findStored e rp (H (old ++ p)) s1 = (.panic x, s1) ∧
    R = ⟨.panic x, c, s1⟩) ∨
  (∃ ch s2, findStored e rp (H (old ++ p)) s1 = (.ok (some ch), s2) ∧
    R = ⟨.ok (ch, p.length), c, s2⟩) ∨
  (∃ s2, findStored e rp (H (old ++ p)) s1 = (.ok none, s2) ∧ SameData s1 s2 ∧
    AfterLookup H e e2 c p old rp s2 R)

/-- The size bound of the data model: every row has a size from 0 to `ChunkSize`. -/
def SizesOK (s : Store) : Prop := ∀ r ∈ s.rows, 0 ≤ r.Size ∧ r.Size ≤ (ChunkSize : Int)

/-- The environment of the examples in which `ioutil.WriteFile` cannot open the
file. -/
def exEnvWriteFails : Env := { exEnv with writeFileErr := some .openFails }

/-- The three digits of a number below 1000, with leading zeros. -/
def pad3 (r : Nat) : Str :=
  [Nat.digitChar (r / 100), Nat.digitChar (r / 10 % 10), Nat.digitChar (r % 10)]

/-- The directory components of the path of a chunk: the components that
`filepath.Join` keeps of the parts `Chunk.Path` computes. -/
def pathDirs (id : Nat) : List Str := (pathParts id).filter (fun p => !p.isEmpty)

/-- The components of the path of a chunk below the root: its directories, then
its file name. -/
def pathComponents (id : Nat) : List Str := pathDirs id ++ [FormatUint id]

/-- The name `n` is a chunk file in the directory reached from the root through
the directories `pre`: it is the file of some chunk id from 10000 on. -/
def FileBelow (pre : List Str) (n : Str) : Prop :=
  ∃ id, 10000 ≤ id ∧ pathComponents id = pre ++ [n]

/-- The name `n` is a shard directory in the directory reached from the root
through the directories `pre`: it lies on the path of some chunk id from 10000
on. -/
def DirBelow (pre : List Str) (n : Str) : Prop :=
  ∃ id, 10000 ≤ id ∧ (pre ++ [n]) <+: pathDirs id

/-- The name `n` occurs immediately below the directory reached from the root
through `pre`, as shard sub-directory or as chunk file. -/
def EntryBelow (pre : List Str) (n : Str) : Prop := DirBelow pre n ∨ FileBelow pre n

/-- The names of the chunk files 10000 to 10999 and of the shard directories
000 to 999. -/
def exNames : List Str :=
  (List.range 1000).map (fun i => FormatUint (10000 + i)) ++ (List.range 1000).map pad3

/-- The index keeps its constraints: no two rows share an id (the primary key)
or a hash (the UNIQUE column), and the id counter lies above every id. -/
def IndexOK (s : Store) : Prop :=
  s.rows.Pairwise (fun a b => a.ID ≠ b.ID ∧ a.Hash ≠ b.Hash) ∧ IdsFresh s

/-- The index of `u` is the one of `s`, or the one of `s` with one row inserted
by `db.Create`. -/
def RowsGrow (s u : Store) : Prop :=
  (u.rows = s.rows ∧ u.nextID = s.nextID) ∨
  (∃ r : Chunk, r.ID = s.nextID ∧ (∀ x ∈ s.rows, x.Hash ≠ r.Hash) ∧ u.rows = s.rows ++ [r] ∧
    u.nextID = s.nextID + 1)

/-- The stores reachable from an empty store (no row, no file) under the root
`root`: through calls of `CreateChunkFromBytes`, `CreateEmptyContentChunk` and
`AppendBytes` on any arguments in any environment, and through changes of the
reference counts by the owner of the `object_chunk` relation. With
`okOnly = true` every call has returned without error. -/
inductive Reachable (H : Bytes → Str) (root : Str) (okOnly : Bool) : Store → Prop
  | empty (nextID : Nat) (refs : Nat → Nat) (dirs : Str → Bool) :
      Reachable H root okOnly ⟨[], nextID, refs, fun _ => none, dirs⟩
  | refs (s : Store) (refs : Nat → Nat) :
      Reachable H root okOnly s → Reachable H root okOnly { s with refs := refs }
  | create (s : Store) (e : Env) (p : Bytes) (rp : Option Str) :
      Reachable H root okOnly s → rootOf e rp = root →
      (okOnly = true → ∃ ch, (CreateChunkFromBytes H e p rp s).1 = .ok ch) →
      Reachable H root okOnly (CreateChunkFromBytes H e p rp s).2
  | createEmpty (s : Store) (e : Env) (rp : Option Str) :
      Reachable H root okOnly s → rootOf e rp = root →
      (okOnly = true → ∃ ch, (CreateEmptyContentChunk H e rp s).1 = .ok ch) →
      Reachable H root okOnly (CreateEmptyContentChunk H e rp s).2
  | append (s : Store) (e e2 : Env) (c : Chunk) (p : Bytes) (rp : Option Str) :
      Reachable H root okOnly s → rootOf e rp = root →
      (okOnly = true → ∃ r, (c.AppendBytes H e e2 p rp s).out = .ok r) →
      Reachable H root okOnly (c.AppendBytes H e e2 p rp s).store

/-- The store after three calls from the empty store: a chunk is created from
the bytes 1, 2; the byte 3 is appended to it in place while `db.Save` fails; a
chunk is created from the bytes 1, 2, 3. -/
def exStoreDrift : Store :=
  (CreateChunkFromBytes plainDigest exEnv [1, 2, 3] (some exRoot)
    (exChunk.AppendBytes plainDigest exEnvSaveFails exEnv [3] (some exRoot)
      (CreateChunkFromBytes plainDigest exEnv [1, 2] (some exRoot) emptyStore).2).store).2

/-- The store after two successful calls from the empty store: chunks are
created from the bytes 1, 2 and from the bytes 1, 2, 3. -/
def exStoreTwo : Store :=
  (CreateChunkFromBytes plainDigest exEnv [1, 2, 3] (some exRoot)
    (CreateChunkFromBytes plainDigest exEnv [1, 2] (some exRoot) emptyStore).2).2

/-! ## The database connection (`databases/connection.go`) -/

/-- The errors of `NewConnection`. -/
inductive ConnErr where
  /-- The error of `dbConfig.DSN()`. -/
  | DSNFailed
  /-- The error of `gorm.Open`. -/
  | OpenFailed
  deriving DecidableEq, Repr

/-- What `NewConnection` reads of a `config.Database`: the driver and the answer
of `DSN()`. -/
structure DbConfig where
  Driver : Str
  DSN : Except ConnErr Str

/-- The package variables of connection.go: whether `once` has run, and
`connection` (`none` for nil). -/
structure ConnState where
  done : Bool
  connection : Option Nat
  deriving DecidableEq, Repr

/-- `NewConnection`, with `gormOpen` for `gorm.Open` and `dflt` for
`config.DefaultConfig.Database`. The function given to `once.Do` runs on the
first call only; `err` is a variable of the call. -/
def NewConnection (gormOpen : Str → Str → Option Nat × Option ConnErr) (dflt : DbConfig)
    (dbConfig : Option DbConfig) (st : ConnState) : (Option Nat × Option ConnErr) × ConnState :=
  let dbConfig := match dbConfig with
    | none => dflt
    | some cfg => cfg
  if st.done then ((st.connection, none), st)
  else
    match dbConfig.DSN with
    | .error err => ((st.connection, some err), { st with done := true })
    | .ok dsn =>
      let (connection, err) := gormOpen dbConfig.Driver dsn
      ((connection, err), { done := true, connection := connection })

/-- How `MustNewConnection` ends: it returns the connection or panics. -/
inductive MustConn where
  | conn (c : Option Nat)
  | panic (e : ConnErr)
  deriving DecidableEq, Repr

/-- `MustNewConnection`. -/
def MustNewConnection (gormOpen : Str → Str → Option Nat × Option ConnErr) (dflt : DbConfig)
    (dbConfig : Option DbConfig) (st : ConnState) : MustConn × ConnState :=
  match NewConnection gormOpen dflt dbConfig st with
  | ((_, some err), st1) => (.panic err, st1)
  | ((conn, none), st1) => (.conn conn, st1)

/-- The state of a process that has not asked for a connection yet. -/
def connInit : ConnState := ⟨false, none⟩

/-- A configuration with a driver that `DSN()` does not support. -/
def exBadConfig : DbConfig := ⟨"unknown driver".toList, .error .DSNFailed⟩

/-- A `gorm.Open` that connects. -/
def exOpen : Str → Str → Option Nat × Option ConnErr := fun _ _ => (some 1, none)

/-- No step of the environment fails for a reason outside the store. -/
def Calm (e : Env) : Prop :=
  e.findErr = false ∧ e.countErr = false ∧ e.createErr = false ∧ e.saveErr = false ∧
    e.mkdirErr = false ∧ e.readErr = false ∧ e.openErr = false ∧ e.writeErr = none ∧
    e.writeFileErr = none

/-- One call of a serialized run of `AppendBytes`: its environments and its
payload. -/
structure AppendCall where
  e : Env
  e2 : Env
  p : Bytes

/-- The `AppendBytes` calls of a run executed one at a time, each on the chunk
that the call before returned; `none` when a call does not return a chunk. -/
def appendAll (H : Bytes → Str) (rp : Option Str) : List AppendCall → Chunk → Store →
    Option (Chunk × Store)
  | [], c, s => some (c, s)
  | call :: rest, c, s =>
    match (c.AppendBytes H call.e call.e2 call.p rp s).out with
    | .ok (ch, _) => appendAll H rp rest ch (c.AppendBytes H call.e call.e2 call.p rp s).store
    | .error _ => none
    | .panic _ => none

/-- The payloads of a run, in the order of the calls. -/
def payloads (calls : List AppendCall) : List Bytes := calls.map (fun call => call.p)

/-- The total length of the payloads of a run. -/
def totalLength (calls : List AppendCall) : Nat := (calls.map (fun call => call.p.length)).sum

/-- A run of two calls in the calm environment of the examples, with the
payloads 3 and 4, 5. -/
def exCalls : List AppendCall := [⟨exEnv, exEnv, [3]⟩, ⟨exEnv, exEnv, [4, 5]⟩]

/-! ## The validation errors of the service layer -/

/-- The outcome of a Go expression that may dereference a nil pointer: the
value it returns, or the nil-pointer panic of the runtime. -/
inductive Run (α : Type) where
  | ret (a : α)
  | nilPanic
  deriving DecidableEq

/-- Sequencing of Go statements: a panic ends the function. -/
def Run.bind {α β : Type} (r : Run α) (f : α → Run β) : Run β :=
  match r with
  | .ret a => f a
  | .nilPanic => .nilPanic

/-- The value a run returned, if it returned. -/
def Run.value {α : Type} (r : Run α) : Option α :=
  match r with
  | .ret a => some a
  | .nilPanic => none

/-- The decimal rendering of a Go `int` by the verb `%d`. -/
def FormatInt (n : Int) : Str :=
  match n with
  | .ofNat m => FormatUint m
  | .negSucc m => '-' :: FormatUint (m + 1)

/-- `ValidateError` of service/errors.go. The wrapped `Exception` is known by
the message its `Error()` returns; `none` is the nil error. -/
structure ValidateError where
  Msg : Str
  Field : Str
  Code : Int
  Exception : Option Str
  deriving DecidableEq

/-- `(*ValidateError).Error` of service/errors.go: the message of the wrapped
error when there is one, otherwise
`Sprintf("code: %d, field: %s, validate error: %s", Code, Field, Msg)`. -/
def ValidateError.Error (v : ValidateError) : Str :=
  match v.Exception with
  | some msg => msg
  | none =>
    "code: ".toList ++ FormatInt v.Code ++ ", field: ".toList ++ v.Field ++
      ", validate error: ".toList ++ v.Msg

/-- `ValidateErrors` of service/errors.go, a slice of pointers: `none` is a nil
pointer. -/
abbrev ValidateErrors := List (Option ValidateError)

/-- Go `map[string][]string`: the list stored under each key, `none` for a key
that is absent. -/
abbrev ErrMap := Str → Option (List Str)

/-- The map `make(map[string][]string, n)`: no key. -/
def ErrMap.empty : ErrMap := fun _ => none

/-- The assignment `m[k] = l`. -/
def ErrMap.set (m : ErrMap) (k : Str) (l : List Str) : ErrMap :=
  fun k2 => if k2 = k then some l else m k2

/-- The loop of `MapFieldErrors` from the index of the head of `v` onwards:
`m[v[i].Field] = []string{v[i].Error()}`, which dereferences `v[i]`. -/
def mapFieldLoop : ValidateErrors → ErrMap → Run ErrMap
  | [], m => .ret m
  | none :: _, _ => .nilPanic
  | some x :: rest, m => mapFieldLoop rest (m.set x.Field [x.Error])

/-- `ValidateErrors.MapFieldErrors` of service/errors.go. -/
def ValidateErrors.MapFieldErrors (v : ValidateErrors) : Run ErrMap :=
  mapFieldLoop v ErrMap.empty

/-- A non-nil Go `error` as `generateErrors` sees it: a `ValidateErrors` value,
or any other error, known by the message its `Error()` returns. -/
inductive GoError where
  | validateErrors (v : ValidateErrors)
  | other (msg : Str)

/-- `generateErrors` of http/response.go; `none` is the nil error, respectively
the nil map. -/
def generateErrors (err : Option GoError) (key : Str) : Run (Option ErrMap) :=
  match err with
  | none => .ret none
  | some ge =>
    let key := if key = [] then "system".toList else key
    match ge with
    | .validateErrors vErr => (ValidateErrors.MapFieldErrors vErr).bind (fun m => .ret (some m))
    | .other msg => .ret (some (ErrMap.empty.set key [msg]))

/-- `PreDefinedValidateErrors` of service/errors.go, entry by entry in the order
of the source. `opMsg` is the message of `ErrOnlyOneRenameAppendOverWrite`, an
error declared in another file of the package. -/
def PreDefinedValidateErrors (opMsg : Str) : List (Str × ValidateError) :=
  [
    ("TokenCreate.App".toList,
      { Code := 10002, Field := "TokenCreate.App".toList,
        Msg := "can\x27t find specific application by input params".toList,
        Exception := none }),
    ("TokenCreate.Path".toList,
      { Code := 10003, Field := "TokenCreate.Path".toList,
        Msg := "path of token can\x27t be empty, max of length is 1000, and must be a legal unix path".toList,
        Exception := none }),
    ("TokenCreate.IP".toList,
      { Code := 10004, Field := "TokenCreate.Ip".toList,
        Msg := "max length of ip is 1500".toList,
        Exception := none }),
    ("TokenCreate.Secret".toList,
      { Code := 10005, Field := "TokenCreate.Secret".toList,
        Msg := "secret of token is 32".toList,
        Exception := none }),
    ("TokenCreate.AvailableTimes".toList,
      { Code := 10006, Field := "TokenCreate.AvailableTimes".toList,
        Msg := "availableTimes of token is greater than -1".toList,
        Exception := none }),
    ("TokenCreate.ReadOnly".toList,
      { Code := 10007, Field := "TokenCreate.ReadOnly".toList,
        Msg := "readOnly of token is 0 or 1".toList,
        Exception := none }),
    ("TokenUpdate.Token".toList,
      { Code := 10008, Field := "TokenUpdate.Token".toList,
        Msg := "token is required".toList,
        Exception := none }),
    ("TokenUpdate.IP".toList,
      { Code := 10009, Field := "TokenUpdate.IP".toList,
        Msg := "max length of ip is 1500, it\x27s optional".toList,
        Exception := none }),
    ("TokenUpdate.Path".toList,
      { Code := 10010, Field := "TokenUpdate.Path".toList,
        Msg := "max length of ip is 1000, and must be a legal unix path, is\x27s optional".toList,
        Exception := none }),
    ("TokenUpdate.Secret".toList,
      { Code := 10011, Field := "TokenUpdate.Secret".toList,
        Msg := "the length of secret is 32, it\x27s optional".toList,
        Exception := none }),
    ("TokenUpdate.ReadOnly".toList,
      { Code := 10012, Field := "TokenUpdate.ReadOnly".toList,
        Msg := "readOnly is 1 or 0, it\x27s optional".toList,
        Exception := none }),
    ("TokenUpdate.ExpiredAt".toList,
      { Code := 10013, Field := "TokenUpdate.ExpiredAt".toList,
        Msg := "expiredAt must be greater than now, it\x27s optional".toList,
        Exception := none }),
    ("TokenUpdate.AvailableTimes".toList,
      { Code := 10014, Field := "TokenUpdate.AvailableTimes".toList,
        Msg := "availableTimes must be a integer, and must be greater than -1, it\x27s optional".toList,
        Exception := none }),
    ("FileCreate.App".toList,
      { Code := 10015, Field := "FileCreate.App".toList,
        Msg := "can\x27t find specific application by input params".toList,
        Exception := none }),
    ("FileCreate.Token".toList,
      { Code := 10016, Field := "FileCreate.Token".toList,
        Msg := "can\x27t find specific token by input params".toList,
        Exception := none }),
    ("FileCreate.Path".toList,
      { Code := 10017, Field := "FileCreate.Path".toList,
        Msg := "path of file or directory can\x27t be empty, max of length is 1000, and must be a legal unix path".toList,
        Exception := none }),
    ("FileCreate.Hidden".toList,
      { Code := 10018, Field := "FileCreate.Hidden".toList,
        Msg := "hidden must be 0 or 1".toList,
        Exception := none }),
    ("FileCreate.Overwrite".toList,
      { Code := 10019, Field := "FileCreate.Overwrite".toList,
        Msg := "overwrite must be 0 or 1".toList,
        Exception := none }),
    ("FileCreate.Rename".toList,
      { Code := 10020, Field := "FileCreate.Rename".toList,
        Msg := "rename must be 0 or 1".toList,
        Exception := none }),
    ("FileCreate.Append".toList,
      { Code := 10021, Field := "FileCreate.Append".toList,
        Msg := "append must be 0 or 1".toList,
        Exception := none }),
    ("FileCreate.Operate".toList,
      { Code := 10022, Field := "FileCreate.Operate".toList,
        Msg := opMsg,
        Exception := none }),
    ("FileRead.Token".toList,
      { Code := 10023, Field := "FileRead.Token".toList,
        Msg := "token is required".toList,
        Exception := none }),
    ("FileRead.File".toList,
      { Code := 10024, Field := "FileRead.Token".toList,
        Msg := "file is required".toList,
        Exception := none }),
    ("FileUpdate.Token".toList,
      { Code := 10025, Field := "FileUpdate.Token".toList,
        Msg := "token is required".toList,
        Exception := none }),
    ("FileUpdate.File".toList,
      { Code := 10026, Field := "FileUpdate.Token".toList,
        Msg := "file is required".toList,
        Exception := none }),
    ("FileUpdate.Hidden".toList,
      { Code := 10027, Field := "FileUpdate.Hidden".toList,
        Msg := "file is required".toList,
        Exception := none }),
    ("FileUpdate.Path".toList,
      { Code := 10028, Field := "FileUpdate.Path".toList,
        Msg := "file is required".toList,
        Exception := none })
  ]

/-- The index expression `PreDefinedValidateErrors[field]`: `none` is the nil
pointer a Go map yields for a missing key. -/
def preDefined (opMsg : Str) (field : Str) : Option ValidateError :=
  List.lookup field (PreDefinedValidateErrors opMsg)

/-- `generateErrorByField` of service/errors.go: it reads the `Code` through the
pointer found in the table, so a missing key is a nil-pointer panic. -/
def generateErrorByField (opMsg : Str) (field : Str) (err : Option Str) : Run ValidateError :=
  match preDefined opMsg field with
  | some entry => .ret { Msg := [], Field := field, Code := entry.Code, Exception := err }
  | none => .nilPanic

/-- The message of `ErrInvalidPath` of service/errors.go. -/
def ErrInvalidPath : Str := "path is not a legal unix path".toList

/-- What the collaborators of `FileUpdate.Validate` answer for one request:
the namespaces of the errors of `Validate.Struct(fu)` (empty when it returns
nil), the errors of `ValidateToken`, `ValidateFile` and
`File.CanBeAccessedByToken` by their messages, the field `fu.Path` and the
predicate `ValidatePath`. -/
structure FileUpdate where
  structErrs : List Str
  tokenErr : Option Str
  fileErr : Option Str
  accessErr : Option Str
  Path : Option Str
  ValidatePath : Str → Bool

/-- The statement `validateErrors = append(validateErrors,
generateErrorByField(field, err))`. -/
def appendGenerated (opMsg : Str) (v : ValidateErrors) (field : Str) (err : Str) :
    Run ValidateErrors :=
  (generateErrorByField opMsg field (some err)).bind (fun x => .ret (v ++ [some x]))

/-- `FileUpdate.Validate` of service/file_update.go. The errors of the struct
validation are appended as the table has them, nil pointers included; the
three checks that follow go through `generateErrorByField`. -/
def FileUpdate.Validate (opMsg : Str) (fu : FileUpdate) : Run ValidateErrors :=
  let v0 : ValidateErrors := fu.structErrs.map (fun ns => preDefined opMsg ns)
  (match fu.tokenErr with
    | some err => appendGenerated opMsg v0 "FileUpdate.Token".toList err
    | none => .ret v0).bind (fun v1 =>
  (match fu.fileErr with
    | some err => appendGenerated opMsg v1 "FileUpdate.File".toList err
    | none =>
      match fu.accessErr with
      | some err => appendGenerated opMsg v1 "FileUpdate.Token".toList err
      | none => .ret v1).bind (fun v2 =>
  match fu.Path with
  | some p =>
    if !fu.ValidatePath p then appendGenerated opMsg v2 "FileUpdate.Path".toList ErrInvalidPath
    else .ret v2
  | none => .ret v2))

/-- An update request whose token check and whose access check both fail. -/
def exUpdate : FileUpdate :=
  { structErrs := [], tokenErr := some "token is expired".toList, fileErr := none,
    accessErr := some "file can not be accessed by the token".toList,
    Path := none, ValidatePath := fun _ => true }

/-- The two errors `FileUpdate.Validate` reports for `exUpdate`: both carry the
field `FileUpdate.Token`. -/
def exErrors : List ValidateError :=
  [ { Msg := [], Field := "FileUpdate.Token".toList, Code := 10025,
      Exception := some "token is expired".toList },
    { Msg := [], Field := "FileUpdate.Token".toList, Code := 10025,
      Exception := some "file can not be accessed by the token".toList } ]

/-- Two errors of different fields, the second without a wrapped error. -/
def exDistinct : List ValidateError :=
  [ { Msg := [], Field := "FileUpdate.Token".toList, Code := 10025,
      Exception := some "token is expired".toList },
    { Msg := "file is required".toList, Field := "FileUpdate.Path".toList, Code := 10028,
      Exception := none } ]

/-! ## The theorems -/

/-! ### Decimal rendering -/

theorem digitChar_val (k : Nat) (h : k < 10) : (Nat.digitChar k).toNat - 48 = k := by
  interval_cases k <;> rfl

theorem digitChar_isDigit (k : Nat) (h : k < 10) : (Nat.digitChar k).isDigit = true := by
  interval_cases k <;> rfl

theorem toDigitsCore_foldl (fuel : Nat) : ∀ (n : Nat) (ds : Str), n < fuel →
    (Nat.toDigitsCore 10 fuel n ds).foldl (fun a c => 10 * a + (c.toNat - 48)) 0
      = ds.foldl (fun a c => 10 * a + (c.toNat - 48)) n := by
  induction fuel with
  | zero => intro n ds h; omega
  | succ fuel ih =>
    intro n ds h
    simp only [Nat.toDigitsCore]
    split
    · rename_i h0
      have hn : n < 10 := by omega
      simp only [List.foldl_cons]
      rw [digitChar_val _ (Nat.mod_lt _ (by decide)), Nat.mod_eq_of_lt hn]
      simp
    · rename_i h0
      rw [ih (n / 10) _ (by omega)]
      simp only [List.foldl_cons]
      rw [digitChar_val _ (Nat.mod_lt _ (by decide)), Nat.div_add_mod]

theorem digitsVal_FormatUint (n : Nat) : digitsVal (FormatUint n) = n := by
  unfold digitsVal FormatUint Nat.toDigits
  rw [toDigitsCore_foldl _ _ _ (Nat.lt_succ_self n)]
  rfl

theorem FormatUint_injective : Function.Injective FormatUint := by
  intro a b h
  have := congrArg digitsVal h
  rwa [digitsVal_FormatUint, digitsVal_FormatUint] at this

theorem toDigitsCore_isDigit (fuel : Nat) : ∀ (n : Nat) (ds : Str),
    (∀ c ∈ ds, c.isDigit = true) → ∀ c ∈ Nat.toDigitsCore 10 fuel n ds, c.isDigit = true := by
  induction fuel with
  | zero => intro n ds h; simpa [Nat.toDigitsCore] using h
  | succ fuel ih =>
    intro n ds h
    have hd : ∀ c ∈ Nat.digitChar (n % 10) :: ds, c.isDigit = true := by
      intro c hc
      rcases List.mem_cons.1 hc with rfl | hc
      · exact digitChar_isDigit _ (Nat.mod_lt _ (by decide))
      · exact h c hc
    simp only [Nat.toDigitsCore]
    split
    · exact hd
    · exact ih _ _ hd

theorem FormatUint_isDigit (n : Nat) : ∀ c ∈ FormatUint n, c.isDigit = true :=
  toDigitsCore_isDigit _ _ _ (by simp)

theorem FormatUint_no_slash (n : Nat) : '/' ∉ FormatUint n := by
  intro h
  have := FormatUint_isDigit n _ h
  exact absurd this (by decide)

/-- The part after the last separator determines itself. -/
theorem suffix_after_sep {a : Char} : ∀ (l₁ l₂ s₁ s₂ : Str),
    l₁ ++ a :: s₁ = l₂ ++ a :: s₂ → a ∉ s₁ → a ∉ s₂ → s₁ = s₂
  | [], [], s₁, s₂, h, _, _ => by simpa using h
  | [], y :: l₂, s₁, s₂, h, h1, _ => by
    simp only [List.nil_append, List.cons_append, List.cons.injEq] at h
    exact absurd (h.2 ▸ (by simp : a ∈ l₂ ++ a :: s₂)) h1
  | x :: l₁, [], s₁, s₂, h, _, h2 => by
    simp only [List.nil_append, List.cons_append, List.cons.injEq] at h
    exact absurd (h.2 ▸ (by simp : a ∈ l₁ ++ a :: s₁)) h2
  | x :: l₁, y :: l₂, s₁, s₂, h, h1, h2 => by
    simp only [List.cons_append, List.cons.injEq] at h
    exact suffix_after_sep l₁ l₂ s₁ s₂ h.2 h1 h2

theorem chunkPath_injective (root : Str) : Function.Injective (chunkPath root) := by
  intro a b h
  unfold chunkPath at h
  exact FormatUint_injective
    (suffix_after_sep _ _ _ _ h (FormatUint_no_slash a) (FormatUint_no_slash b))

/-! ### The shard groups -/

theorem threes_short {l : Str} (h : l.length ≤ 3) : threes l = [l] := by
  match l, h with
  | [], _ => rfl
  | [_], _ => rfl
  | [_, _], _ => rfl
  | [_, _, _], _ => rfl
  | _ :: _ :: _ :: _ :: _, h => simp at h

theorem threes_length : ∀ l : Str, (threes l).length ≤ l.length / 3 + 1
  | [] => by simp [threes]
  | [_] => by simp [threes]
  | [_, _] => by simp [threes]
  | [_, _, _] => by simp [threes]
  | a :: b :: c :: d :: rest => by
    have := threes_length (d :: rest)
    simp only [threes, List.length_cons] at this ⊢
    omega

theorem threes_tail_nonempty : ∀ l : Str, ∀ g ∈ (threes l).tail, g ≠ []
  | [] => by simp [threes]
  | [_] => by simp [threes]
  | [_, _] => by simp [threes]
  | [_, _, _] => by simp [threes]
  | a :: b :: c :: d :: rest => by
    intro g hg
    simp only [threes, List.tail_cons] at hg
    have ih := threes_tail_nonempty (d :: rest)
    cases hthr : threes (d :: rest) with
    | nil => rw [hthr] at hg; cases hg
    | cons x xs =>
      rw [hthr] at hg ih
      rcases List.mem_cons.1 hg with rfl | hg
      · intro hx
        subst hx
        cases rest with
        | nil => simp [threes] at hthr
        | cons r rest =>
          cases rest with
          | nil => simp [threes] at hthr
          | cons r2 rest =>
            cases rest with
            | nil => simp [threes] at hthr
            | cons r3 rest => simp [threes] at hthr
      · exact ih g (by simpa using hg)

theorem lsfGroups_short {s : Str} (h : s.length ≤ 3) : lsfGroups s = [s] := by
  unfold lsfGroups
  rw [threes_short (by simpa using h)]
  simp

theorem lsfGroups_long {s : Str} (h : s.length > 3) :
    lsfGroups s = SubStrFromToEnd s 3 :: lsfGroups (SubStrFromTo s 3) := by
  unfold lsfGroups SubStrFromToEnd SubStrFromTo
  have hs : s = s.take (s.length - 3) ++ s.drop (s.length - 3) := (List.take_append_drop _ _).symm
  have hl : (s.drop (s.length - 3)).length = 3 := by simp; omega
  have ht : (s.take (s.length - 3)).length = s.length - 3 := by simp
  generalize s.take (s.length - 3) = t at hs ht
  generalize s.drop (s.length - 3) = g at hs hl
  match g, hl with
  | [x, y, z], _ =>
    cases hrev : t.reverse with
    | nil =>
      have : t = [] := by simpa using hrev
      subst this
      simp at ht; omega
    | cons d rest =>
      rw [hs]
      simp [hrev, threes]

theorem set_at_length {α : Type} (done : List α) (x : α) (rest : List α) (g : α) :
    (done ++ x :: rest).set done.length g = done ++ g :: rest := by
  induction done with
  | nil => rfl
  | cons a done ih => simp [ih]

theorem pathLoop_spec (fuel : Nat) : ∀ (s : Str) (done : List Str) (m : Nat),
    s.length ≤ fuel → (lsfGroups s).length ≤ m →
    ((pathLoop fuel s (done ++ List.replicate m []) done.length).2.1.set
        (pathLoop fuel s (done ++ List.replicate m []) done.length).2.2
        (pathLoop fuel s (done ++ List.replicate m []) done.length).1)
      = done ++ lsfGroups s ++ List.replicate (m - (lsfGroups s).length) [] := by
  induction fuel with
  | zero =>
    intro s done m hs hm
    have hs0 : s.length ≤ 3 := by omega
    rw [lsfGroups_short hs0] at hm ⊢
    simp only [pathLoop]
    obtain ⟨m, rfl⟩ : ∃ k, m = k + 1 := ⟨m - 1, by simp at hm; omega⟩
    simp [List.replicate_succ, set_at_length]
  | succ fuel ih =>
    intro s done m hs hm
    by_cases hlen : s.length > 3
    · rw [lsfGroups_long hlen] at hm ⊢
      simp only [pathLoop, hlen, if_true]
      obtain ⟨m, rfl⟩ : ∃ k, m = k + 1 := ⟨m - 1, by simp at hm; omega⟩
      have hset : (done ++ List.replicate (m + 1) ([] : Str)).set done.length (SubStrFromToEnd s 3)
          = (done ++ [SubStrFromToEnd s 3]) ++ List.replicate m [] := by
        simp [List.replicate_succ, set_at_length]
      have hidx : done.length + 1 = (done ++ [SubStrFromToEnd s 3]).length := by simp
      rw [hset, hidx]
      rw [ih (SubStrFromTo s 3) (done ++ [SubStrFromToEnd s 3]) m
        (by simp [SubStrFromTo]; omega) (by simp at hm; omega)]
      simp
    · have hs0 : s.length ≤ 3 := by omega
      rw [lsfGroups_short hs0] at hm ⊢
      simp only [pathLoop, hlen, if_false]
      obtain ⟨m, rfl⟩ : ∃ k, m = k + 1 := ⟨m - 1, by simp at hm; omega⟩
      simp [List.replicate_succ, set_at_length]

theorem lsfGroups_length (s : Str) : (lsfGroups s).length ≤ s.length / 3 + 1 := by
  unfold lsfGroups
  have := threes_length s.reverse
  simpa using this

theorem lsfGroups_tail_nonempty (s : Str) : ∀ g ∈ (lsfGroups s).tail, g ≠ [] := by
  intro g hg
  unfold lsfGroups at hg
  rw [← List.map_tail] at hg
  obtain ⟨g', hg', rfl⟩ := List.mem_map.1 hg
  have := threes_tail_nonempty _ g' hg'
  simpa using this

theorem lsfGroups_ne_nil (s : Str) : lsfGroups s ≠ [] := by
  by_cases h : s.length > 3
  · rw [lsfGroups_long h]; simp
  · rw [lsfGroups_short (by omega)]; simp

theorem Join_pathParts (id : Nat) :
    Join (pathParts id) = List.intercalate ['/'] (shardGroups id).dropLast := by
  have hspec := pathLoop_spec (FormatUint id).length (FormatUint id) []
    ((FormatUint id).length / 3 + 1) (le_refl _) (lsfGroups_length _)
  simp only [List.nil_append, List.length_nil] at hspec
  have hpp : pathParts id = ReverseSlice
      (((pathLoop (FormatUint id).length (FormatUint id)
          (List.replicate ((FormatUint id).length / 3 + 1) []) 0).2.1.set
        (pathLoop (FormatUint id).length (FormatUint id)
          (List.replicate ((FormatUint id).length / 3 + 1) []) 0).2.2
        (pathLoop (FormatUint id).length (FormatUint id)
          (List.replicate ((FormatUint id).length / 3 + 1) []) 0).1).drop 1) := rfl
  rw [hpp, hspec]
  unfold shardGroups
  have htail := lsfGroups_tail_nonempty (FormatUint id)
  cases hg : lsfGroups (FormatUint id) with
  | nil => exact absurd hg (lsfGroups_ne_nil _)
  | cons g0 gs =>
    rw [hg] at htail
    simp only [List.tail_cons] at htail
    have hfil : List.filter (fun p : Str => !p.isEmpty) gs.reverse = gs.reverse := by
      rw [List.filter_eq_self]
      intro a ha
      have := htail a (List.mem_reverse.1 ha)
      cases a with
      | nil => exact absurd rfl this
      | cons _ _ => rfl
    simp [ReverseSlice, Join, List.filter_append, hfil]

/-! ### Frames of the steps -/

theorem sameData_refl (s : Store) : SameData s s := ⟨rfl, rfl, rfl, rfl, fun _ h => h⟩

theorem sameData_trans {s t u : Store} (h1 : SameData s t) (h2 : SameData t u) : SameData s u :=
  ⟨h2.1.trans h1.1, h2.2.1.trans h1.2.1, h2.2.2.1.trans h1.2.2.1, h2.2.2.2.1.trans h1.2.2.2.1,
    fun q h => h2.2.2.2.2 q (h1.2.2.2.2 q h)⟩

/-- Every way `Chunk.Path` can end. -/
theorem Path_cases (e : Env) (rp : Option Str) (c : Chunk) (s : Store) :
    (c.ID < 10000 ∧ c.Path e rp s = (.panic .InvalidChunkID, s)) ∨
    (10000 ≤ c.ID ∧ e.mkdirErr = true ∧ s.dirs (chunkDir (rootOf e rp) c.ID) = false ∧
      c.Path e rp s = (.panic .IOFailure, s)) ∨
    (10000 ≤ c.ID ∧ ∃ s1, c.Path e rp s = (.ok (chunkPath (rootOf e rp) c.ID), s1) ∧
      SameData s s1 ∧ s1.dirs (chunkDir (rootOf e rp) c.ID) = true ∧
      (s.dirs (chunkDir (rootOf e rp) c.ID) = true → s1 = s)) := by
  unfold Chunk.Path
  by_cases h : c.ID < 10000
  · left; simp [h]
  · right
    have h' : 10000 ≤ c.ID := by omega
    by_cases hd : s.dirs (chunkDir (rootOf e rp) c.ID) = true
    · right
      refine ⟨h', s, ?_, sameData_refl s, hd, fun _ => rfl⟩
      simp [h, IsDir, hd, chunkPath]
    · have hd' : s.dirs (chunkDir (rootOf e rp) c.ID) = false := by simpa using hd
      by_cases hm : e.mkdirErr = true
      · left
        refine ⟨h', hm, hd', ?_⟩
        simp [h, IsDir, hd', hm]
      · right
        refine ⟨h', MkdirAll s (chunkDir (rootOf e rp) c.ID), ?_,
          ⟨rfl, rfl, rfl, rfl, fun q hq => by simp [MkdirAll, hq]⟩, ?_, ?_⟩
        · simp [h, IsDir, hd', hm, chunkPath]
        · simp [MkdirAll]
        · intro hc; rw [hd'] at hc; cases hc

/-- Every way the lookup of a stored chunk by hash can end. -/
theorem findStored_cases (e : Env) (rp : Option Str) (h : Str) (s : Store) :
    (∃ x, x ≠ .ChunkExceedLimit ∧ findStored e rp h s = (.panic x, s)) ∨
    (∃ s1, findStored e rp h s = (.ok none, s1) ∧ SameData s s1 ∧
      (e.findErr = true ∨ s.rows.find? (fun r => decide (r.Hash = h)) = none ∨
        ∃ ch, s.rows.find? (fun r => decide (r.Hash = h)) = some ch ∧
          (ch.ID = 0 ∨ IsFile s (chunkPath (rootOf e rp) ch.ID) = false))) ∨
    (∃ ch s1, findStored e rp h s = (.ok (some ch), s1) ∧ SameData s s1 ∧
      e.findErr = false ∧ s.rows.find? (fun r => decide (r.Hash = h)) = some ch ∧
      10000 ≤ ch.ID ∧ IsFile s (chunkPath (rootOf e rp) ch.ID) = true ∧
      s1.dirs (chunkDir (rootOf e rp) ch.ID) = true ∧
      (s.dirs (chunkDir (rootOf e rp) ch.ID) = true → s1 = s)) := by
  unfold findStored FindChunkByHash
  by_cases hf : e.findErr = true
  · right; left
    exact ⟨s, by simp [hf], sameData_refl s, Or.inl hf⟩
  · have hf' : e.findErr = false := by simpa using hf
    cases hfind : s.rows.find? (fun r => decide (r.Hash = h)) with
    | none =>
      right; left
      exact ⟨s, by simp [hf'], sameData_refl s, Or.inr (Or.inl rfl)⟩
    | some ch =>
      by_cases h0 : ch.ID = 0
      · right; left
        exact ⟨s, by simp [hf', h0], sameData_refl s, Or.inr (Or.inr ⟨ch, rfl, Or.inl h0⟩)⟩
      · have hpos : ch.ID > 0 := Nat.pos_of_ne_zero h0
        rcases Path_cases e rp ch s with ⟨_, hp⟩ | ⟨_, _, _, hp⟩ | ⟨hid, s1, hp, hsd, hdir, hsame⟩
        · left; exact ⟨.InvalidChunkID, by decide, by simp [hf', hpos, hp]⟩
        · left; exact ⟨.IOFailure, by decide, by simp [hf', hpos, hp]⟩
        · have hfiles : IsFile s1 (chunkPath (rootOf e rp) ch.ID)
              = IsFile s (chunkPath (rootOf e rp) ch.ID) := by
            simp [IsFile, hsd.2.2.2.1]
          by_cases hfile : IsFile s (chunkPath (rootOf e rp) ch.ID) = true
          · right; right
            refine ⟨ch, s1, ?_, hsd, hf', rfl, hid, hfile, hdir, hsame⟩
            simp [hf', hpos, hp, hfiles, hfile]
          · right; left
            have hfile' : IsFile s (chunkPath (rootOf e rp) ch.ID) = false := by simpa using hfile
            refine ⟨s1, ?_, hsd, Or.inr (Or.inr ⟨ch, rfl, Or.inr hfile'⟩)⟩
            simp [hf', hpos, hp, hfiles, hfile']

/-- Every way `createAndWrite` can end. -/
theorem createAndWrite_cases (e : Env) (rp : Option Str) (chunk : Chunk) (p : Bytes) (s : Store) :
    (∃ x, createAndWrite e rp chunk p s = (.error x, s) ∧
      (e.createErr = true ∨ ∃ r ∈ s.rows, r.Hash = chunk.Hash)) ∨
    ((e.createErr = false ∧ ∀ r ∈ s.rows, r.Hash ≠ chunk.Hash) ∧
      ((∃ x, x ≠ .ChunkExceedLimit ∧
          createAndWrite e rp chunk p s = (.panic x, withCreated e chunk s) ∧
          (s.nextID < 10000 ∨ e.mkdirErr = true)) ∨
       (10000 ≤ s.nextID ∧ ∃ s2, SameData (withCreated e chunk s) s2 ∧
          s2.dirs (chunkDir (rootOf e rp) s.nextID) = true ∧
          ((e.writeFileErr = some .openFails ∧
              createAndWrite e rp chunk p s = (.error .IOFailure, s2)) ∨
           (∃ k, e.writeFileErr = some (.shortWrite k) ∧
              createAndWrite e rp chunk p s
                = (.error .IOFailure, putFile s2 (chunkPath (rootOf e rp) s.nextID) (p.take k))) ∨
           (e.writeFileErr = none ∧
              createAndWrite e rp chunk p s
                = (.ok (createdRow e chunk s),
                    putFile s2 (chunkPath (rootOf e rp) s.nextID) p)))))) := by
  unfold createAndWrite dbCreate
  by_cases hc : e.createErr = true
  · left; exact ⟨.Database, by simp [hc], Or.inl hc⟩
  · have hc' : e.createErr = false := by simpa using hc
    by_cases hdup : ∃ r ∈ s.rows, r.Hash = chunk.Hash
    · left
      refine ⟨.DuplicateHash, ?_, Or.inr hdup⟩
      have : (s.rows.any fun r => decide (r.Hash = chunk.Hash)) = true := by
        simpa [List.any_eq_true] using hdup
      simp [hc', this]
    · right
      have hnd : ∀ r ∈ s.rows, r.Hash ≠ chunk.Hash := fun r hr he => hdup ⟨r, hr, he⟩
      have hany : (s.rows.any fun r => decide (r.Hash = chunk.Hash)) = false := by
        rw [List.any_eq_false]; intro r hr; simpa using hnd r hr
      refine ⟨⟨hc', hnd⟩, ?_⟩
      simp only [hc', hany, Bool.false_eq_true, if_false]
      rcases Path_cases e rp (createdRow e chunk s) (withCreated e chunk s) with
        ⟨hlt, hp⟩ | ⟨_, hm, _, hp⟩ | ⟨hid, s2, hp, hsd, hdir, _⟩
      · left
        refine ⟨.InvalidChunkID, by decide, ?_, Or.inl hlt⟩
        simp only [createdRow, withCreated] at hp
        simp [hp, withCreated, createdRow]
      · left
        refine ⟨.IOFailure, by decide, ?_, Or.inr hm⟩
        simp only [createdRow, withCreated] at hp
        simp [hp, withCreated, createdRow]
      · right
        refine ⟨hid, s2, hsd, hdir, ?_⟩
        simp only [createdRow, withCreated] at hp
        simp only [hp, WriteFile]
        cases hw : e.writeFileErr with
        | none => right; right; simp [createdRow]
        | some f =>
          cases f with
          | openFails => left; simp
          | shortWrite k => right; left; exact ⟨k, rfl, by simp⟩

/-- Every way `db.Save` of a chunk with an id can end. -/
theorem dbSave_cases (e : Env) (c : Chunk) (s : Store) (hid : c.ID ≠ 0) :
    (∃ x, dbSave e c s = (.error x, s)) ∨
    (e.saveErr = false ∧ (∀ r ∈ s.rows, r.ID ≠ c.ID → r.Hash ≠ c.Hash) ∧
      (((∃ r ∈ s.rows, r.ID = c.ID) ∧
        dbSave e c s = (.ok { c with UpdatedAt := e.now },
          { s with rows := s.rows.map (fun r => if r.ID = c.ID then { c with UpdatedAt := e.now } else r) })) ∨
       ((∀ r ∈ s.rows, r.ID ≠ c.ID) ∧
        dbSave e c s = (.ok { c with UpdatedAt := e.now },
          { s with rows := s.rows ++ [{ c with UpdatedAt := e.now }],
                   nextID := max s.nextID (c.ID + 1) })))) := by
  unfold dbSave
  simp only [hid, if_false]
  by_cases hs : e.saveErr = true
  · left; exact ⟨.Database, by simp [hs]⟩
  · have hs' : e.saveErr = false := by simpa using hs
    by_cases hdup : (s.rows.any fun r => decide (r.ID ≠ c.ID) && decide (r.Hash = c.Hash)) = true
    · left; exact ⟨.DuplicateHash, by simp only [hs', hdup, Bool.false_eq_true, if_false, if_true]⟩
    · right
      have hdup' : (s.rows.any fun r => decide (r.ID ≠ c.ID) && decide (r.Hash = c.Hash)) = false := by
        simpa using hdup
      have hnd : ∀ r ∈ s.rows, r.ID ≠ c.ID → r.Hash ≠ c.Hash := by
        intro r hr h1 h2
        rw [List.any_eq_false] at hdup'
        exact hdup' r hr (by simp [h1, h2])
      refine ⟨hs', hnd, ?_⟩
      by_cases hex : ∃ r ∈ s.rows, r.ID = c.ID
      · left
        have : (s.rows.any fun r => decide (r.ID = c.ID)) = true := by
          simpa [List.any_eq_true] using hex
        exact ⟨hex, by simp only [hs', hdup', this, Bool.false_eq_true, if_false, if_true]⟩
      · right
        have hne : ∀ r ∈ s.rows, r.ID ≠ c.ID := fun r hr he => hex ⟨r, hr, he⟩
        have : (s.rows.any fun r => decide (r.ID = c.ID)) = false := by
          rw [List.any_eq_false]; intro r hr; simpa using hne r hr
        exact ⟨hne, by simp only [hs', hdup', this, Bool.false_eq_true, if_false, if_true]⟩

theorem inPlace_run (H : Bytes → Str) (e : Env) (c : Chunk) (p old : Bytes) (rp : Option Str)
    (s2 : Store) (hid : 10000 ≤ c.ID) (hdir : s2.dirs (chunkDir (rootOf e rp) c.ID) = true)
    (hold : s2.files (chunkPath (rootOf e rp) c.ID) = some old) :
    InPlaceRun H e c p old (rootOf e rp) s2
      (match (grown H c old p).Path e rp s2 with
        | (.error x, s3) => ⟨.error x, grown H c old p, s3⟩
        | (.panic x, s3) => ⟨.panic x, grown H c old p, s3⟩
        | (.ok path, s3) =>
          match appendFile e path p s3 with
          | (.error x, s4) => ⟨.error x, grown H c old p, s4⟩
          | (.panic x, s4) => ⟨.panic x, grown H c old p, s4⟩
          | (.ok writeCount, s4) =>
            match dbSave e (grown H c old p) s4 with
            | (.error x, s5) => ⟨.error x, grown H c old p, s5⟩
            | (.panic x, s5) => ⟨.panic x, grown H c old p, s5⟩
            | (.ok c2, s5) => ⟨.ok (c2, writeCount), c2, s5⟩) := by
  have hgid : (grown H c old p).ID = c.ID := rfl
  rcases Path_cases e rp (grown H c old p) s2 with
    ⟨hlt, _⟩ | ⟨_, _, hd, _⟩ | ⟨_, s3, hp, _, _, hsame⟩
  · rw [hgid] at hlt; omega
  · rw [hgid, hdir] at hd; cases hd
  · rw [hgid] at hp hsame
    rw [hsame hdir] at hp
    rw [hp]
    simp only [appendFile]
    by_cases ho : e.openErr = true
    · left; exact ⟨ho, by simp [ho]⟩
    · have ho' : e.openErr = false := by simpa using ho
      right
      simp only [ho', Bool.false_eq_true, if_false, hold]
      cases hw : e.writeErr with
      | some k => left; exact ⟨trivial, k, rfl, rfl⟩
      | none =>
        right
        refine ⟨trivial, rfl, ?_⟩
        have hne : (grown H c old p).ID ≠ 0 := by rw [hgid]; omega
        rcases dbSave_cases e (grown H c old p)
            (putFile s2 (chunkPath (rootOf e rp) c.ID) (old ++ p)) hne with
          ⟨x, hx⟩ | ⟨_, _, ⟨_, hx⟩ | ⟨_, hx⟩⟩
        · left; exact ⟨x, hx, by simp only [hx]⟩
        · right; exact ⟨_, _, hx, by simp only [hx]⟩
        · right; exact ⟨_, _, hx, by simp only [hx]⟩

/-- Every way `AppendBytes` can go. -/
theorem AppendBytes_cases (H : Bytes → Str) (e e2 : Env) (c : Chunk) (p : Bytes)
    (rp : Option Str) (s : Store) :
    ((p.length : Int) > wrapInt ((ChunkSize : Int) - c.Size) ∧
      c.AppendBytes H e e2 p rp s = ⟨.panic .ChunkExceedLimit, c, s⟩) ∨
    (¬ (p.length : Int) > wrapInt ((ChunkSize : Int) - c.Size) ∧
      ((∃ x, x ≠ .ChunkExceedLimit ∧ c.AppendBytes H e e2 p rp s = ⟨.panic x, c, s⟩) ∨
       (10000 ≤ c.ID ∧ ∃ s1, SameData s s1 ∧ s1.dirs (chunkDir (rootOf e rp) c.ID) = true ∧
          (s.dirs (chunkDir (rootOf e rp) c.ID) = true → s1 = s) ∧
          ((∃ x, (e.readErr = true ∨ s.files (chunkPath (rootOf e rp) c.ID) = none) ∧
              c.AppendBytes H e e2 p rp s = ⟨.error x, c, s1⟩) ∨
           (∃ old, e.readErr = false ∧ s.files (chunkPath (rootOf e rp) c.ID) = some old ∧
              AfterRead H e e2 c p old rp s1 (c.AppendBytes H e e2 p rp s)))))) := by
  unfold Chunk.AppendBytes
  by_cases hcap : (p.length : Int) > wrapInt ((ChunkSize : Int) - c.Size)
  · left; exact ⟨hcap, by simp only [hcap, if_true]⟩
  · right
    refine ⟨hcap, ?_⟩
    simp only [hcap, if_false]
    rcases Path_cases e rp c s with ⟨_, hp⟩ | ⟨_, _, _, hp⟩ | ⟨hid, s1, hp, hsd, hdir, hsame⟩
    · left; exact ⟨.InvalidChunkID, by decide, by simp only [hp]⟩
    · left; exact ⟨.IOFailure, by decide, by simp only [hp]⟩
    · right
      refine ⟨hid, s1, hsd, hdir, hsame, ?_⟩
      simp only [hp, ReadFile]
      by_cases hr : e.readErr = true
      · left; exact ⟨.IOFailure, Or.inl hr, by simp only [hr, if_true]⟩
      · have hr' : e.readErr = false := by simpa using hr
        simp only [hr', Bool.false_eq_true, if_false, hsd.2.2.2.1]
        cases hfile : s.files (chunkPath (rootOf e rp) c.ID) with
        | none => left; exact ⟨.NotExist, Or.inr rfl, rfl⟩
        | some old =>
          right
          refine ⟨old, trivial, rfl, ?_⟩
          have hold1 : s1.files (chunkPath (rootOf e rp) c.ID) = some old := by
            rw [hsd.2.2.2.1]; exact hfile
          simp only []
          rcases findStored_cases e rp (H (old ++ p)) s1 with
            ⟨x, hx, hf⟩ | ⟨s2, hf, hsd2, _⟩ | ⟨ch, s2, hf, _⟩
          · left; exact ⟨x, hx, hf, by simp only [hf]⟩
          · right; right
            refine ⟨s2, hf, hsd2, ?_⟩
            simp only [hf, CountObjectChunkByChunkID]
            by_cases hc : e.countErr = true
            · left; exact ⟨hc, by simp only [hc, if_true]⟩
            · have hc' : e.countErr = false := by simpa using hc
              right
              simp only [hc', Bool.false_eq_true, if_false]
              by_cases hcount : s2.refs c.ID > 1
              · left
                refine ⟨trivial, hcount, ?_⟩
                simp only [hcount, if_true]
                rcases hcr : CreateChunkFromBytes H (e.nested e2) (old ++ p) rp s2 with ⟨o, s3⟩
                cases o with
                | ok n => right; right; exact ⟨n, s3, rfl, rfl⟩
                | error x => left; exact ⟨x, s3, rfl, rfl⟩
                | panic x => right; left; exact ⟨x, s3, rfl, rfl⟩
              · right
                refine ⟨trivial, by omega, ?_⟩
                simp only [hcount, if_false]
                exact inPlace_run H e c p old rp s2 hid (hsd2.2.2.2.2 _ hdir)
                  (by rw [hsd2.2.2.2.1]; exact hold1)
          · right; left
            exact ⟨ch, s2, hf, by simp only [hf]⟩

theorem rootOf_nested (e e2 : Env) (rp : Option Str) : rootOf (e.nested e2) rp = rootOf e rp := by
  cases rp <;> rfl

/-- Every way `CreateChunkFromBytes` can go. -/
theorem Create_cases (H : Bytes → Str) (e : Env) (p : Bytes) (rp : Option Str) (s : Store) :
    (p.length > ChunkSize ∧ CreateChunkFromBytes H e p rp s = (.error .SizeTooLarge, s)) ∨
    (p.length ≤ ChunkSize ∧
      ((∃ x, x ≠ .ChunkExceedLimit ∧ findStored e rp (H p) s = (.panic x, s) ∧
          CreateChunkFromBytes H e p rp s = (.panic x, s)) ∨
       (∃ ch s1, findStored e rp (H p) s = (.ok (some ch), s1) ∧
          CreateChunkFromBytes H e p rp s = (.ok ch, s1)) ∨
       (∃ s1, findStored e rp (H p) s = (.ok none, s1) ∧ SameData s s1 ∧
          CreateChunkFromBytes H e p rp s
            = createAndWrite e rp { Chunk.zero with Size := (p.length : Nat), Hash := H p } p s1))) := by
  unfold CreateChunkFromBytes
  by_cases hlen : p.length > ChunkSize
  · left; exact ⟨hlen, by simp only [hlen, if_true]⟩
  · right
    refine ⟨by omega, ?_⟩
    simp only [hlen, if_false]
    rcases findStored_cases e rp (H p) s with ⟨x, hx, hf⟩ | ⟨s1, hf, hsd, _⟩ | ⟨ch, s1, hf, _⟩
    · left; exact ⟨x, hx, hf, by simp only [hf]⟩
    · right; right; exact ⟨s1, hf, hsd, by simp only [hf]⟩
    · right; left; exact ⟨ch, s1, hf, by simp only [hf]⟩

/-- Every way `CreateEmptyContentChunk` can go. -/
theorem CreateEmpty_cases (H : Bytes → Str) (e : Env) (rp : Option Str) (s : Store) :
    (∃ x, x ≠ .ChunkExceedLimit ∧ findStored e rp (H []) s = (.panic x, s) ∧
        CreateEmptyContentChunk H e rp s = (.panic x, s)) ∨
    (∃ ch s1, findStored e rp (H []) s = (.ok (some ch), s1) ∧
        CreateEmptyContentChunk H e rp s = (.ok ch, s1)) ∨
    (∃ s1, findStored e rp (H []) s = (.ok none, s1) ∧ SameData s s1 ∧
        CreateEmptyContentChunk H e rp s
          = createAndWrite e rp { Chunk.zero with Size := 0, Hash := H [] } [] s1) := by
  unfold CreateEmptyContentChunk
  rcases findStored_cases e rp (H []) s with ⟨x, hx, hf⟩ | ⟨s1, hf, hsd, _⟩ | ⟨ch, s1, hf, _⟩
  · left; exact ⟨x, hx, hf, by simp only [hf]⟩
  · right; right; exact ⟨s1, hf, hsd, by simp only [hf]⟩
  · right; left; exact ⟨ch, s1, hf, by simp only [hf]⟩

/-- What a successful lookup returns: a row of the index with the hash looked
for, an id of 10000 or more and its file on disk. -/
theorem findStored_some {e : Env} {rp : Option Str} {h : Str} {s s1 : Store} {ch : Chunk}
    (hf : findStored e rp h s = (.ok (some ch), s1)) :
    SameData s s1 ∧ e.findErr = false ∧
      s.rows.find? (fun r => decide (r.Hash = h)) = some ch ∧ ch ∈ s.rows ∧ ch.Hash = h ∧
      10000 ≤ ch.ID ∧ IsFile s (chunkPath (rootOf e rp) ch.ID) = true ∧
      s1.dirs (chunkDir (rootOf e rp) ch.ID) = true ∧
      (s.dirs (chunkDir (rootOf e rp) ch.ID) = true → s1 = s) := by
  rcases findStored_cases e rp h s with ⟨x, _, hx⟩ | ⟨t, hx, _⟩ | ⟨ch', t, hx, hsd, hfe, hfind, hid, hfile, hdir, hsame⟩
  · rw [hx] at hf; cases hf
  · rw [hx] at hf; cases hf
  · rw [hx] at hf
    cases hf
    refine ⟨hsd, hfe, hfind, List.mem_of_find?_eq_some hfind, ?_, hid, hfile, hdir, hsame⟩
    simpa using List.find?_some hfind

/-- The lookup finds nothing when no row with that hash has its file on disk. -/
theorem findStored_fresh {e : Env} {rp : Option Str} {h : Str} {s : Store}
    (hfresh : ∀ r ∈ s.rows, r.Hash = h → IsFile s (chunkPath (rootOf e rp) r.ID) = false)
    {o : Outcome (Option Chunk)} {s1 : Store} (hf : findStored e rp h s = (o, s1)) :
    ∀ ch, o ≠ .ok (some ch) := by
  intro ch ho
  rw [ho] at hf
  have := findStored_some hf
  rw [hfresh ch this.2.2.2.1 this.2.2.2.2.1] at this
  exact absurd this.2.2.2.2.2.2.1 (by decide)

/-! ### Consistency with the disk -/

theorem consistent_of_sameData {H : Bytes → Str} {root : Str} {s t : Store}
    (h : Consistent H root s) (hsd : SameData s t) : Consistent H root t := by
  intro r hr
  rw [hsd.1] at hr
  have := h r hr
  simpa [rowOK, hsd.2.2.2.1] using this

theorem noCollision_of_sameData {H : Bytes → Str} {x : Bytes} {s t : Store}
    (h : NoCollision H s x) (hsd : SameData s t) : NoCollision H t x := by
  intro q b hq
  rw [hsd.2.2.2.1] at hq
  exact h q b hq

theorem rowOK_iff {H : Bytes → Str} {root : Str} {s : Store} {r : Chunk} :
    rowOK H root s r = true ↔
      ∃ b, s.files (chunkPath root r.ID) = some b ∧ (b.length : Int) = r.Size ∧ H b = r.Hash := by
  unfold rowOK
  cases s.files (chunkPath root r.ID) with
  | none => simp
  | some b => simp

/-- A consistent row whose hash is the digest of `x` has `x` in its file. -/
theorem stored_content {H : Bytes → Str} {root : Str} {s : Store} {x : Bytes} {ch : Chunk}
    (hcons : Consistent H root s) (hnc : NoCollision H s x) (hch : ch ∈ s.rows)
    (hh : ch.Hash = H x) : s.files (chunkPath root ch.ID) = some x := by
  obtain ⟨b, hb, _, hHb⟩ := rowOK_iff.1 (hcons ch hch)
  rw [hb, hnc _ b hb (hHb.trans hh)]

/-- A chunk that `CreateChunkFromBytes` returns has the content in its file, in a
consistent store without collisions on the content. -/
theorem Create_stores_content {H : Bytes → Str} {e : Env} {p : Bytes} {rp : Option Str}
    {s s1 : Store} {ch : Chunk} (hcons : Consistent H (rootOf e rp) s) (hnc : NoCollision H s p)
    (hok : CreateChunkFromBytes H e p rp s = (.ok ch, s1)) :
    s1.files (chunkPath (rootOf e rp) ch.ID) = some p := by
  rcases Create_cases H e p rp s with ⟨_, h⟩ | ⟨_, ⟨x, _, _, h⟩ | ⟨ch', t, hf, h⟩ | ⟨t, _, hsd, h⟩⟩
  · rw [h] at hok; cases hok
  · rw [h] at hok; cases hok
  · rw [h] at hok; cases hok
    obtain ⟨hsd, _, _, hmem, hh, _⟩ := findStored_some hf
    rw [hsd.2.2.2.1]
    exact stored_content hcons hnc hmem hh
  · rw [h] at hok
    rcases createAndWrite_cases e rp { Chunk.zero with Size := (p.length : Nat), Hash := H p } p t with
      ⟨x, hx, _⟩ | ⟨_, ⟨x, _, hx, _⟩ | ⟨_, t2, _, _, ⟨_, hx⟩ | ⟨k, _, hx⟩ | ⟨_, hx⟩⟩⟩
    · rw [hx] at hok; cases hok
    · rw [hx] at hok; cases hok
    · rw [hx] at hok; cases hok
    · rw [hx] at hok; cases hok
    · rw [hx] at hok; cases hok
      simp [putFile, createdRow]

/-- C1: in a consistent store without digest collisions on the new content, a
successful `AppendBytes` (dedup, fork or in-place) returns `len(data)` as byte
count, and the file of the returned chunk holds the old content followed by
the data. -/
theorem AppendBytes_returns_appended (H : Bytes → Str) (e e2 : Env) (c : Chunk) (p old : Bytes)
    (rp : Option Str) (s : Store) (ch : Chunk) (n : Nat)
    (hcons : Consistent H (rootOf e rp) s) (hnc : NoCollision H s (old ++ p))
    (hold : s.files (chunkPath (rootOf e rp) c.ID) = some old)
    (hok : (c.AppendBytes H e e2 p rp s).out = .ok (ch, n)) :
    n = p.length ∧
      (c.AppendBytes H e e2 p rp s).store.files (chunkPath (rootOf e rp) ch.ID)
        = some (old ++ p) := by
  rcases AppendBytes_cases H e e2 c p rp s with ⟨_, h⟩ | ⟨_, ⟨x, _, h⟩ | ⟨hid, s1, hsd, _, _, hrest⟩⟩
  · rw [h] at hok; cases hok
  · rw [h] at hok; cases hok
  · rcases hrest with ⟨x, _, h⟩ | ⟨old', _, hold', hrun⟩
    · rw [h] at hok; cases hok
    · rw [hold] at hold'
      cases hold'
      have hcons1 := consistent_of_sameData hcons hsd
      have hnc1 := noCollision_of_sameData hnc hsd
      rcases hrun with ⟨x, _, _, h⟩ | ⟨ch', s2, hf, h⟩ | ⟨s2, _, hsd2, hrun⟩
      · rw [h] at hok; cases hok
      · rw [h] at hok ⊢
        cases hok
        obtain ⟨hsd2, _, _, hmem, hh, _⟩ := findStored_some hf
        refine ⟨rfl, ?_⟩
        show s2.files _ = _
        rw [hsd2.2.2.2.1]
        exact stored_content hcons1 hnc1 hmem hh
      · have hcons2 := consistent_of_sameData hcons1 hsd2
        have hnc2 := noCollision_of_sameData hnc1 hsd2
        rcases hrun with ⟨_, h⟩ | ⟨_, _, hfork⟩ | ⟨_, _, hin⟩
        · rw [h] at hok; cases hok
        · rcases hfork with ⟨x, s3, _, h⟩ | ⟨x, s3, _, h⟩ | ⟨m, s3, hcr, h⟩
          · rw [h] at hok; cases hok
          · rw [h] at hok; cases hok
          · rw [h] at hok ⊢
            cases hok
            refine ⟨rfl, ?_⟩
            have := @Create_stores_content H (e.nested e2) (old ++ p) rp s2 _ _
              (by rw [rootOf_nested]; exact hcons2) hnc2 hcr
            rw [rootOf_nested] at this
            exact this
        · rcases hin with ⟨_, h⟩ | ⟨_, k, _, h⟩ | ⟨_, _, ⟨x, _, h⟩ | ⟨c2, s5, hsave, h⟩⟩
          · rw [h] at hok; cases hok
          · rw [h] at hok; cases hok
          · rw [h] at hok; cases hok
          · rw [h] at hok ⊢
            cases hok
            refine ⟨rfl, ?_⟩
            show s5.files _ = _
            have hne : (grown H c old p).ID ≠ 0 := by show c.ID ≠ 0; omega
            rcases dbSave_cases e (grown H c old p)
                (putFile s2 (chunkPath (rootOf e rp) c.ID) (old ++ p)) hne with
              ⟨x, hx⟩ | ⟨_, _, ⟨_, hx⟩ | ⟨_, hx⟩⟩
            · rw [hx] at hsave; cases hsave
            · rw [hx] at hsave; cases hsave
              simp [putFile, grown]
            · rw [hx] at hsave; cases hsave
              simp [putFile, grown]

/-! ### Successful calls -/

/-- What a successful `db.Save` of a chunk with an id leaves. -/
theorem dbSave_ok {e : Env} {c c2 : Chunk} {s s5 : Store} (hid : c.ID ≠ 0)
    (h : dbSave e c s = (.ok c2, s5)) :
    c2 = { c with UpdatedAt := e.now } ∧ s5.files = s.files ∧ s5.refs = s.refs ∧
      s5.dirs = s.dirs ∧ s.nextID ≤ s5.nextID ∧
      ((∃ r ∈ s.rows, r.ID = c.ID) ∨ c.ID < s5.nextID) ∧ c2 ∈ s5.rows ∧
      (∀ r ∈ s5.rows, r = c2 ∨ (r ∈ s.rows ∧ r.ID ≠ c.ID)) ∧
      (∀ r ∈ s.rows, r.ID ≠ c.ID → r ∈ s5.rows) ∧
      (s5.nextID = s.nextID ∨ s5.nextID = max s.nextID (c.ID + 1)) ∧
      (∀ r ∈ s.rows, r.ID ≠ c.ID → r.Hash ≠ c.Hash) := by
  rcases dbSave_cases e c s hid with ⟨x, hx⟩ | ⟨_, hnd, ⟨⟨r0, hr0, hr0id⟩, hx⟩ | ⟨hne, hx⟩⟩
  · rw [hx] at h; cases h
  · rw [hx] at h; cases h
    refine ⟨rfl, rfl, rfl, rfl, le_refl _, Or.inl ⟨r0, hr0, hr0id⟩, ?_, ?_, ?_, Or.inl rfl, hnd⟩
    · exact List.mem_map.2 ⟨r0, hr0, by simp [hr0id]⟩
    · intro r hr
      obtain ⟨r', hr', rfl⟩ := List.mem_map.1 hr
      by_cases hc : r'.ID = c.ID
      · left; simp [hc]
      · right; simp [hc, hr']
    · intro r hr hc
      exact List.mem_map.2 ⟨r, hr, by simp [hc]⟩
  · rw [hx] at h; cases h
    refine ⟨rfl, rfl, rfl, rfl, le_max_left _ _, Or.inr (by simp), by simp, ?_, ?_,
      Or.inr rfl, hnd⟩
    · intro r hr
      rcases List.mem_append.1 hr with hr | hr
      · right; exact ⟨hr, hne r hr⟩
      · left; simpa using hr
    · intro r hr _
      exact List.mem_append.2 (Or.inl hr)

/-- What a successful `CreateChunkFromBytes` did: it returned a stored chunk of
the index, or it inserted a row and wrote its file. -/
theorem Create_ok {H : Bytes → Str} {e : Env} {p : Bytes} {rp : Option Str} {s s1 : Store}
    {ch : Chunk} (hok : CreateChunkFromBytes H e p rp s = (.ok ch, s1)) :
    p.length ≤ ChunkSize ∧
    ((SameData s s1 ∧ e.findErr = false ∧
        s.rows.find? (fun r => decide (r.Hash = H p)) = some ch ∧ ch ∈ s.rows ∧ ch.Hash = H p ∧
        10000 ≤ ch.ID ∧ IsFile s (chunkPath (rootOf e rp) ch.ID) = true ∧
        (s.dirs (chunkDir (rootOf e rp) ch.ID) = true → s1 = s)) ∨
     (ch = ⟨s.nextID, (p.length : Nat), H p, e.now, e.now⟩ ∧ 10000 ≤ s.nextID ∧
        (∀ r ∈ s.rows, r.Hash ≠ H p) ∧ s1.rows = s.rows ++ [ch] ∧ s1.nextID = s.nextID + 1 ∧
        s1.refs = s.refs ∧
        s1.files = (fun q => if q = chunkPath (rootOf e rp) s.nextID then some p else s.files q) ∧
        (∀ q, s.dirs q = true → s1.dirs q = true) ∧
        s1.dirs (chunkDir (rootOf e rp) s.nextID) = true)) := by
  rcases Create_cases H e p rp s with ⟨_, h⟩ | ⟨hlen, ⟨x, _, _, h⟩ | ⟨ch', t, hf, h⟩ | ⟨t, _, hsd, h⟩⟩
  · rw [h] at hok; cases hok
  · rw [h] at hok; cases hok
  · rw [h] at hok; cases hok
    obtain ⟨h1, h2, h3, h4, h5, h6, h7, _, h9⟩ := findStored_some hf
    exact ⟨hlen, Or.inl ⟨h1, h2, h3, h4, h5, h6, h7, h9⟩⟩
  · rw [h] at hok
    refine ⟨hlen, Or.inr ?_⟩
    rcases createAndWrite_cases e rp { Chunk.zero with Size := (p.length : Nat), Hash := H p } p t with
      ⟨x, hx, _⟩ | ⟨⟨_, hnd⟩, ⟨x, _, hx, _⟩ | ⟨hid, t2, hsd2, hdir, ⟨_, hx⟩ | ⟨k, _, hx⟩ | ⟨_, hx⟩⟩⟩
    · rw [hx] at hok; cases hok
    · rw [hx] at hok; cases hok
    · rw [hx] at hok; cases hok
    · rw [hx] at hok; cases hok
    · rw [hx] at hok; cases hok
      rw [hsd.2.1] at hid hdir
      rw [hsd.1] at hnd
      refine ⟨?_, hid, hnd, ?_, ?_, ?_, ?_, ?_, ?_⟩
      · simp [createdRow, Chunk.zero, hsd.2.1]
      · simp [putFile, hsd2.1, withCreated, createdRow, hsd.1, hsd.2.1]
      · simp [putFile, hsd2.2.1, withCreated, hsd.2.1]
      · simp [putFile, hsd2.2.2.1, withCreated, hsd.2.2.1]
      · funext q
        simp [putFile, hsd2.2.2.2.1, withCreated, hsd.2.2.2.1, hsd.2.1]
      · intro q hq
        exact hsd2.2.2.2.2 q (hsd.2.2.2.2 q hq)
      · simpa [putFile] using hdir

/-- What a successful `AppendBytes` did: the dedup path, the fork path or the
in-place path, each with the facts that led there. -/
theorem AppendBytes_ok {H : Bytes → Str} {e e2 : Env} {c : Chunk} {p : Bytes} {rp : Option Str}
    {s : Store} {ch : Chunk} {n : Nat}
    (hok : (c.AppendBytes H e e2 p rp s).out = .ok (ch, n)) :
    n = p.length ∧ 10000 ≤ c.ID ∧ ¬ (p.length : Int) > wrapInt ((ChunkSize : Int) - c.Size) ∧
    ∃ old, s.files (chunkPath (rootOf e rp) c.ID) = some old ∧
      ((∃ s1, SameData s s1 ∧ findStored e rp (H (old ++ p)) s1
            = (.ok (some ch), (c.AppendBytes H e e2 p rp s).store) ∧
          (c.AppendBytes H e e2 p rp s).record = c) ∨
       (∃ s2, SameData s s2 ∧ 1 < s.refs c.ID ∧
          CreateChunkFromBytes H (e.nested e2) (old ++ p) rp s2
            = (.ok ch, (c.AppendBytes H e e2 p rp s).store) ∧
          (c.AppendBytes H e e2 p rp s).record = c) ∨
       (∃ s2, SameData s s2 ∧ s.refs c.ID ≤ 1 ∧
          dbSave e (grown H c old p) (putFile s2 (chunkPath (rootOf e rp) c.ID) (old ++ p))
            = (.ok ch, (c.AppendBytes H e e2 p rp s).store) ∧
          (c.AppendBytes H e e2 p rp s).record = ch)) := by
  rcases AppendBytes_cases H e e2 c p rp s with ⟨_, h⟩ | ⟨hcap, ⟨x, _, h⟩ | ⟨hid, s1, hsd, _, _, hrest⟩⟩
  · rw [h] at hok; cases hok
  · rw [h] at hok; cases hok
  · rcases hrest with ⟨x, _, h⟩ | ⟨old, _, hold, hrun⟩
    · rw [h] at hok; cases hok
    · rcases hrun with ⟨x, _, _, h⟩ | ⟨ch', s2, hf, h⟩ | ⟨s2, _, hsd2, hrun⟩
      · rw [h] at hok; cases hok
      · rw [h] at hok ⊢
        cases hok
        exact ⟨rfl, hid, hcap, old, hold, Or.inl ⟨s1, hsd, hf, rfl⟩⟩
      · have hsd12 := sameData_trans hsd hsd2
        have hrefs : s2.refs c.ID = s.refs c.ID := by rw [hsd12.2.2.1]
        rcases hrun with ⟨_, h⟩ | ⟨_, hgt, hfork⟩ | ⟨_, hle, hin⟩
        · rw [h] at hok; cases hok
        · rcases hfork with ⟨x, s3, _, h⟩ | ⟨x, s3, _, h⟩ | ⟨m, s3, hcr, h⟩
          · rw [h] at hok; cases hok
          · rw [h] at hok; cases hok
          · rw [h] at hok ⊢
            cases hok
            exact ⟨rfl, hid, hcap, old, hold, Or.inr (Or.inl ⟨s2, hsd12, by omega, hcr, rfl⟩)⟩
        · rcases hin with ⟨_, h⟩ | ⟨_, k, _, h⟩ | ⟨_, _, ⟨x, _, h⟩ | ⟨c2, s5, hsave, h⟩⟩
          · rw [h] at hok; cases hok
          · rw [h] at hok; cases hok
          · rw [h] at hok; cases hok
          · rw [h] at hok ⊢
            cases hok
            exact ⟨rfl, hid, hcap, old, hold,
              Or.inr (Or.inr ⟨s2, hsd12, by omega, hsave, rfl⟩)⟩

/-- The lookup returns no chunk when no row with that hash has its file on disk,
also after directories were created. -/
theorem lookup_fresh {e : Env} {rp : Option Str} {h : Str} {s s1 t : Store} {ch : Chunk}
    (hfresh : ∀ r ∈ s.rows, r.Hash = h → IsFile s (chunkPath (rootOf e rp) r.ID) = false)
    (hsd : SameData s s1) : findStored e rp h s1 ≠ (.ok (some ch), t) := by
  intro hf
  refine findStored_fresh ?_ hf ch rfl
  intro r hr hh
  rw [hsd.1] at hr
  have := hfresh r hr hh
  simpa [IsFile, hsd.2.2.2.1] using this

/-- `Path` changes nothing when the id is valid and the directory exists. -/
theorem Path_of_dir {e : Env} {rp : Option Str} {c : Chunk} {s : Store} (hid : 10000 ≤ c.ID)
    (hdir : s.dirs (chunkDir (rootOf e rp) c.ID) = true) :
    c.Path e rp s = (.ok (chunkPath (rootOf e rp) c.ID), s) := by
  rcases Path_cases e rp c s with ⟨hlt, _⟩ | ⟨_, _, hd, _⟩ | ⟨_, s1, hp, _, _, hsame⟩
  · omega
  · rw [hdir] at hd; cases hd
  · rw [hsame hdir] at hp; exact hp

/-- The lookup by a hash that is unique in the index returns its row. -/
theorem find_unique {rows : List Chunk} {Y : Chunk} (hY : Y ∈ rows)
    (huniq : ∀ r ∈ rows, r.Hash = Y.Hash → r = Y) :
    rows.find? (fun r => decide (r.Hash = Y.Hash)) = some Y := by
  cases hfind : rows.find? (fun r => decide (r.Hash = Y.Hash)) with
  | none =>
    have := List.find?_eq_none.1 hfind Y hY
    simp at this
  | some r =>
    have h1 := List.mem_of_find?_eq_some hfind
    have h2 : r.Hash = Y.Hash := by simpa using List.find?_some hfind
    rw [huniq r h1 h2]

/-- The lookup returns the row it finds when its id is valid, its directory
exists and its file is on disk. -/
theorem findStored_found {e : Env} {rp : Option Str} {h : Str} {s : Store} {Y : Chunk}
    (hfe : e.findErr = false) (hfind : s.rows.find? (fun r => decide (r.Hash = h)) = some Y)
    (hid : 10000 ≤ Y.ID) (hdir : s.dirs (chunkDir (rootOf e rp) Y.ID) = true)
    (hfile : IsFile s (chunkPath (rootOf e rp) Y.ID) = true) :
    findStored e rp h s = (.ok (some Y), s) := by
  unfold findStored FindChunkByHash
  have hpos : Y.ID > 0 := by omega
  simp [hfe, hfind, hpos, Path_of_dir hid hdir, hfile]

theorem wrapInt_of_range {x : Int} (h1 : -(2 ^ 63) ≤ x) (h2 : x < 2 ^ 63) : wrapInt x = x := by
  unfold wrapInt
  rw [Int.emod_eq_of_lt (by omega) (by omega)]
  omega

theorem CreateEmpty_eq_Create (H : Bytes → Str) (e : Env) (rp : Option Str) (s : Store) :
    CreateEmptyContentChunk H e rp s = CreateChunkFromBytes H e [] rp s := by
  unfold CreateEmptyContentChunk CreateChunkFromBytes
  simp [ChunkSize]

/-- A created chunk leaves the store consistent. -/
theorem Create_preserves {H : Bytes → Str} {e : Env} {p : Bytes} {rp : Option Str}
    {s s1 : Store} {ch : Chunk} (hcons : Consistent H (rootOf e rp) s) (hids : IdsFresh s)
    (hok : CreateChunkFromBytes H e p rp s = (.ok ch, s1)) :
    Consistent H (rootOf e rp) s1 ∧ IdsFresh s1 ∧ ch ∈ s1.rows := by
  obtain ⟨_, hded | hnew⟩ := Create_ok hok
  · obtain ⟨hsd, _, _, hch, _⟩ := hded
    refine ⟨consistent_of_sameData hcons hsd, ?_, by rw [hsd.1]; exact hch⟩
    intro r hr
    rw [hsd.1] at hr
    rw [hsd.2.1]
    exact hids r hr
  · obtain ⟨hch, _, _, hrows, hnext, _, hfiles, _⟩ := hnew
    have hchid : ch.ID = s.nextID := by rw [hch]
    refine ⟨?_, ?_, by rw [hrows]; simp⟩
    · intro r hr
      rw [hrows] at hr
      rcases List.mem_append.1 hr with hr | hr
      · have hne : chunkPath (rootOf e rp) r.ID ≠ chunkPath (rootOf e rp) s.nextID := by
          intro h
          have := chunkPath_injective _ h
          have := hids r hr
          omega
        have := hcons r hr
        simpa [rowOK, hfiles, hne] using this
      · have hr' : r = ch := by simpa using hr
        rw [hr']
        simp [rowOK, hfiles, hchid]
        rw [hch]
        exact ⟨rfl, rfl⟩
    · intro r hr
      rw [hrows] at hr
      rw [hnext]
      rcases List.mem_append.1 hr with hr | hr
      · have := hids r hr; omega
      · have hr' : r = ch := by simpa using hr
        rw [hr', hchid]; omega

/-- The in-place write followed by `db.Save` leaves the store consistent. -/
theorem inPlace_preserves {H : Bytes → Str} {e : Env} {root : Str} {c ch : Chunk}
    {p old : Bytes} {s s2 s5 : Store} (hcons : Consistent H root s) (hids : IdsFresh s)
    (hsd : SameData s s2) (hid : 10000 ≤ c.ID)
    (hsave : dbSave e (grown H c old p) (putFile s2 (chunkPath root c.ID) (old ++ p))
      = (.ok ch, s5)) :
    Consistent H root s5 ∧ IdsFresh s5 ∧ ch ∈ s5.rows := by
  have hne : (grown H c old p).ID ≠ 0 := by show c.ID ≠ 0; omega
  obtain ⟨hc2, hfiles, _, _, hnext, hex, hmem, hrows, _⟩ := dbSave_ok hne hsave
  have hgid : (grown H c old p).ID = c.ID := rfl
  have hrows2 : (putFile s2 (chunkPath root c.ID) (old ++ p)).rows = s.rows := hsd.1
  have hnext2 : (putFile s2 (chunkPath root c.ID) (old ++ p)).nextID = s.nextID := hsd.2.1
  rw [hnext2] at hnext
  refine ⟨?_, ?_, hmem⟩
  · intro r hr
    rcases hrows r hr with h | ⟨hr0, hrid⟩
    · rw [h, hc2]
      simp [rowOK, hfiles, putFile, grown]
    · rw [hrows2] at hr0
      rw [hgid] at hrid
      have hne : chunkPath root r.ID ≠ chunkPath root c.ID :=
        fun h => hrid (chunkPath_injective _ h)
      have := hcons r hr0
      simpa [rowOK, hfiles, putFile, hne, hsd.2.2.2.1] using this
  · intro r hr
    rcases hrows r hr with h | ⟨hr0, _⟩
    · rw [h, hc2]
      show c.ID < s5.nextID
      rcases hex with ⟨r0, hr0, hr0id⟩ | hlt
      · rw [hrows2] at hr0
        have := hids r0 hr0
        rw [hgid] at hr0id
        omega
      · exact hlt
    · rw [hrows2] at hr0
      have := hids r hr0
      omega

/-- `CreateChunkFromBytes` never panics with `ErrChunkExceedLimit`. -/
theorem Create_panic_ne {H : Bytes → Str} {e : Env} {p : Bytes} {rp : Option Str} {s t : Store}
    {x : Err} (h : CreateChunkFromBytes H e p rp s = (.panic x, t)) : x ≠ .ChunkExceedLimit := by
  rcases Create_cases H e p rp s with ⟨_, h1⟩ | ⟨_, ⟨y, hy, _, h1⟩ | ⟨ch', t1, _, h1⟩ | ⟨t1, _, _, h1⟩⟩
  · rw [h1] at h; cases h
  · rw [h1] at h; cases h; exact hy
  · rw [h1] at h; cases h
  · rw [h1] at h
    rcases createAndWrite_cases e rp { Chunk.zero with Size := (p.length : Nat), Hash := H p } p t1 with
      ⟨y, hy, _⟩ | ⟨_, ⟨y, hne, hy, _⟩ | ⟨_, t2, _, _, ⟨_, hy⟩ | ⟨k, _, hy⟩ | ⟨_, hy⟩⟩⟩
    · rw [hy] at h; cases h
    · rw [hy] at h; cases h; exact hne
    · rw [hy] at h; cases h
    · rw [hy] at h; cases h
    · rw [hy] at h; cases h

/-- The lookup when neither the query nor the creation of a directory fails and
every row with the hash has a valid id: it returns the row it finds if its file
is on disk, and nothing otherwise. -/
theorem findStored_calm {e : Env} {rp : Option Str} {h : Str} {s : Store}
    (hfe : e.findErr = false) (hmk : e.mkdirErr = false)
    (hids : ∀ r ∈ s.rows, r.Hash = h → 10000 ≤ r.ID) :
    (s.rows.find? (fun r => decide (r.Hash = h)) = none ∧ findStored e rp h s = (.ok none, s)) ∨
    (∃ ch s1, s.rows.find? (fun r => decide (r.Hash = h)) = some ch ∧ SameData s s1 ∧
      ((IsFile s (chunkPath (rootOf e rp) ch.ID) = true ∧
          findStored e rp h s = (.ok (some ch), s1)) ∨
       (IsFile s (chunkPath (rootOf e rp) ch.ID) = false ∧
          findStored e rp h s = (.ok none, s1)))) := by
  cases hfind : s.rows.find? (fun r => decide (r.Hash = h)) with
  | none =>
    left
    refine ⟨rfl, ?_⟩
    unfold findStored FindChunkByHash
    simp [hfe, hfind]
  | some ch =>
    right
    have hmem := List.mem_of_find?_eq_some hfind
    have hh : ch.Hash = h := by simpa using List.find?_some hfind
    have hid := hids ch hmem hh
    have hpos : ch.ID > 0 := by omega
    rcases Path_cases e rp ch s with ⟨hlt, _⟩ | ⟨_, hm, _, _⟩ | ⟨_, s1, hp, hsd, _, _⟩
    · omega
    · rw [hmk] at hm; cases hm
    · refine ⟨ch, s1, rfl, hsd, ?_⟩
      have hfiles : IsFile s1 (chunkPath (rootOf e rp) ch.ID)
          = IsFile s (chunkPath (rootOf e rp) ch.ID) := by
        simp [IsFile, hsd.2.2.2.1]
      cases hfile : IsFile s (chunkPath (rootOf e rp) ch.ID) with
      | true =>
        left
        refine ⟨rfl, ?_⟩
        unfold findStored FindChunkByHash
        simp [hfe, hfind, hpos, hp, hfiles, hfile]
      | false =>
        right
        refine ⟨rfl, ?_⟩
        unfold findStored FindChunkByHash
        simp [hfe, hfind, hpos, hp, hfiles, hfile]

/-- What a failed `CreateChunkFromBytes` leaves: the rows of the index, with at
most one new row, and every file but the one of the new id. -/
theorem Create_error {H : Bytes → Str} {e : Env} {p : Bytes} {rp : Option Str} {s t : Store}
    {x : Err} (h : CreateChunkFromBytes H e p rp s = (.error x, t)) :
    (t.rows = s.rows ∨ ∃ r, t.rows = s.rows ++ [r]) ∧
      ∀ q, q ≠ chunkPath (rootOf e rp) s.nextID → t.files q = s.files q := by
  rcases Create_cases H e p rp s with ⟨_, h1⟩ | ⟨_, ⟨y, _, _, h1⟩ | ⟨ch', t1, _, h1⟩ | ⟨t1, _, hsd, h1⟩⟩
  · rw [h1] at h; cases h
    exact ⟨Or.inl rfl, fun _ _ => rfl⟩
  · rw [h1] at h; cases h
  · rw [h1] at h; cases h
  · rw [h1] at h
    rcases createAndWrite_cases e rp { Chunk.zero with Size := (p.length : Nat), Hash := H p } p t1 with
      ⟨y, hy, _⟩ | ⟨_, ⟨y, _, hy, _⟩ | ⟨_, t2, hsd2, _, ⟨_, hy⟩ | ⟨k, _, hy⟩ | ⟨_, hy⟩⟩⟩
    · rw [hy] at h; cases h
      exact ⟨Or.inl hsd.1, fun q _ => by rw [hsd.2.2.2.1]⟩
    · rw [hy] at h; cases h
    · rw [hy] at h; cases h
      refine ⟨Or.inr
        ⟨createdRow e { Chunk.zero with Size := (p.length : Nat), Hash := H p } t1, ?_⟩,
        fun q _ => ?_⟩
      · rw [hsd2.1]; simp only [withCreated]; rw [hsd.1]
      · rw [hsd2.2.2.2.1]; simp only [withCreated]; rw [hsd.2.2.2.1]
    · rw [hy] at h; cases h
      refine ⟨Or.inr
        ⟨createdRow e { Chunk.zero with Size := (p.length : Nat), Hash := H p } t1, ?_⟩,
        fun q hq => ?_⟩
      · simp only [putFile]; rw [hsd2.1]; simp only [withCreated]; rw [hsd.1]
      · rw [hsd.2.1]
        simp only [putFile, hq, if_false]
        rw [hsd2.2.2.2.1]; simp only [withCreated]; rw [hsd.2.2.2.1]
    · rw [hy] at h; cases h

/-! ### The digits of an id in groups -/

theorem toDigitsCore_acc (fuel : Nat) : ∀ (n : Nat) (ds : Str), n < fuel →
    Nat.toDigitsCore 10 fuel n ds = Nat.toDigitsCore 10 (n + 1) n [] ++ ds := by
  induction fuel using Nat.strong_induction_on with
  | _ fuel ih =>
    intro n ds h
    cases fuel with
    | zero => omega
    | succ fuel =>
      simp only [Nat.toDigitsCore]
      by_cases h0 : n / 10 = 0
      · simp [h0]
      · simp only [h0, if_false]
        have hn : n / 10 < n := by omega
        rw [ih fuel (by omega) (n / 10) _ (by omega)]
        cases n with
        | zero => omega
        | succ m =>
          rw [ih (m + 1) (by omega) ((m + 1) / 10) [Nat.digitChar ((m + 1) % 10)] (by omega)]
          simp

theorem FormatUint_small {n : Nat} (h : n < 10) : FormatUint n = [Nat.digitChar n] := by
  unfold FormatUint Nat.toDigits
  simp only [Nat.toDigitsCore]
  have : n / 10 = 0 := by omega
  simp [this, Nat.mod_eq_of_lt h]

theorem FormatUint_step {n : Nat} (h : 10 ≤ n) :
    FormatUint n = FormatUint (n / 10) ++ [Nat.digitChar (n % 10)] := by
  unfold FormatUint Nat.toDigits
  have h0 : ¬ n / 10 = 0 := by omega
  rw [Nat.toDigitsCore]
  simp only [h0, if_false]
  rw [toDigitsCore_acc n (n / 10) _ (by omega)]

theorem FormatUint_thousand {n : Nat} (h : 1000 ≤ n) :
    FormatUint n = FormatUint (n / 1000) ++ pad3 (n % 1000) := by
  rw [FormatUint_step (by omega : 10 ≤ n), FormatUint_step (by omega : 10 ≤ n / 10),
    FormatUint_step (by omega : 10 ≤ n / 10 / 10)]
  have e1 : n / 10 / 10 / 10 = n / 1000 := by omega
  have e2 : n / 10 / 10 % 10 = n % 1000 / 100 := by omega
  have e3 : n / 10 % 10 = n % 1000 / 10 % 10 := by omega
  have e4 : n % 10 = n % 1000 % 10 := by omega
  rw [e1, e2, e3, e4]
  simp [pad3]

theorem FormatUint_length_le {n : Nat} (h : n < 1000) : (FormatUint n).length ≤ 3 := by
  by_cases h1 : n < 10
  · rw [FormatUint_small h1]; simp
  · rw [FormatUint_step (by omega)]
    by_cases h2 : n / 10 < 10
    · rw [FormatUint_small h2]; simp
    · rw [FormatUint_step (by omega), FormatUint_small (by omega : n / 10 / 10 < 10)]; simp

theorem FormatUint_ne_nil (n : Nat) : FormatUint n ≠ [] := by
  by_cases h1 : n < 10
  · rw [FormatUint_small h1]; simp
  · rw [FormatUint_step (by omega)]; simp

theorem shardGroups_small {n : Nat} (h : n < 1000) : shardGroups n = [FormatUint n] := by
  unfold shardGroups
  rw [lsfGroups_short (FormatUint_length_le h)]
  rfl

theorem shardGroups_step {n : Nat} (h : 1000 ≤ n) :
    shardGroups n = shardGroups (n / 1000) ++ [pad3 (n % 1000)] := by
  unfold shardGroups
  have hne := FormatUint_ne_nil (n / 1000)
  have hlen : (FormatUint n).length > 3 := by
    rw [FormatUint_thousand h]
    have : 0 < (FormatUint (n / 1000)).length := List.length_pos.2 hne
    simp [pad3]
    omega
  rw [lsfGroups_long hlen]
  have h1 : SubStrFromToEnd (FormatUint n) 3 = pad3 (n % 1000) := by
    unfold SubStrFromToEnd
    rw [FormatUint_thousand h]
    simp [pad3]
  have h2 : SubStrFromTo (FormatUint n) 3 = FormatUint (n / 1000) := by
    unfold SubStrFromTo
    rw [FormatUint_thousand h]
    simp [pad3]
  rw [h1, h2]
  simp

theorem pathDirs_eq (id : Nat) : pathDirs id = (shardGroups id).dropLast := by
  have hspec := pathLoop_spec (FormatUint id).length (FormatUint id) []
    ((FormatUint id).length / 3 + 1) (le_refl _) (lsfGroups_length _)
  simp only [List.nil_append, List.length_nil] at hspec
  have hpp : pathParts id = ReverseSlice
      (((pathLoop (FormatUint id).length (FormatUint id)
          (List.replicate ((FormatUint id).length / 3 + 1) []) 0).2.1.set
        (pathLoop (FormatUint id).length (FormatUint id)
          (List.replicate ((FormatUint id).length / 3 + 1) []) 0).2.2
        (pathLoop (FormatUint id).length (FormatUint id)
          (List.replicate ((FormatUint id).length / 3 + 1) []) 0).1).drop 1) := rfl
  unfold pathDirs
  rw [hpp, hspec]
  unfold shardGroups
  have htail := lsfGroups_tail_nonempty (FormatUint id)
  cases hg : lsfGroups (FormatUint id) with
  | nil => exact absurd hg (lsfGroups_ne_nil _)
  | cons g0 gs =>
    rw [hg] at htail
    simp only [List.tail_cons] at htail
    have hfil : List.filter (fun p : Str => !p.isEmpty) gs.reverse = gs.reverse := by
      rw [List.filter_eq_self]
      intro a ha
      have := htail a (List.mem_reverse.1 ha)
      cases a with
      | nil => exact absurd rfl this
      | cons _ _ => rfl
    simp [ReverseSlice, List.filter_append, hfil]

theorem pathDirs_large {id : Nat} (h : 1000 ≤ id) : pathDirs id = shardGroups (id / 1000) := by
  rw [pathDirs_eq, shardGroups_step h]
  simp

/-- The shard groups of a number: the decimal rendering of a number below 1000
(not 0 unless `n` is 0), followed by three-digit groups. -/
theorem shardGroups_shape (n : Nat) :
    ∃ (r0 : Nat) (rs : List Nat), r0 < 1000 ∧ (0 < n → 0 < r0) ∧ (∀ r ∈ rs, r < 1000) ∧
      shardGroups n = FormatUint r0 :: rs.map pad3 := by
  induction n using Nat.strong_induction_on with
  | _ n ih =>
    by_cases h : n < 1000
    · exact ⟨n, [], h, fun h0 => h0, by simp, by rw [shardGroups_small h]; rfl⟩
    · obtain ⟨r0, rs, h0, hpos, hrs, heq⟩ := ih (n / 1000) (by omega)
      refine ⟨r0, rs ++ [n % 1000], h0, fun _ => hpos (by omega), ?_, ?_⟩
      · intro r hr
        rcases List.mem_append.1 hr with hr | hr
        · exact hrs r hr
        · have : r = n % 1000 := by simpa using hr
          omega
      · rw [shardGroups_step (by omega), heq]
        simp

theorem shardGroups_join (n : Nat) : (shardGroups n).flatten = FormatUint n := by
  induction n using Nat.strong_induction_on with
  | _ n ih =>
    by_cases h : n < 1000
    · rw [shardGroups_small h]; simp
    · rw [shardGroups_step (by omega), FormatUint_thousand (by omega)]
      simp [ih (n / 1000) (by omega)]

theorem shardGroups_injective : Function.Injective shardGroups := by
  intro a b h
  have := congrArg List.flatten h
  rw [shardGroups_join, shardGroups_join] at this
  exact FormatUint_injective this

theorem pad3_length (r : Nat) : (pad3 r).length = 3 := rfl

theorem pad3_isDigit {r : Nat} (h : r < 1000) : ∀ c ∈ pad3 r, c.isDigit = true := by
  intro c hc
  simp only [pad3, List.mem_cons, List.mem_singleton, List.not_mem_nil, or_false] at hc
  rcases hc with rfl | rfl | rfl
  · exact digitChar_isDigit _ (by omega)
  · exact digitChar_isDigit _ (by omega)
  · exact digitChar_isDigit _ (by omega)

theorem digitsVal_pad3 {r : Nat} (h : r < 1000) : digitsVal (pad3 r) = r := by
  unfold digitsVal pad3
  simp only [List.foldl_cons, List.foldl_nil]
  rw [digitChar_val _ (by omega), digitChar_val _ (by omega), digitChar_val _ (by omega)]
  omega

/-- The value of `Path` for a valid id whose directory exists or can be created. -/
theorem Path_value {e : Env} {rp : Option Str} {c : Chunk} {s : Store} (hid : 10000 ≤ c.ID)
    (hmk : e.mkdirErr = false ∨ s.dirs (chunkDir (rootOf e rp) c.ID) = true) :
    (c.Path e rp s).1 = .ok (chunkPath (rootOf e rp) c.ID) := by
  rcases Path_cases e rp c s with ⟨hlt, _⟩ | ⟨_, hm, hd, _⟩ | ⟨_, s1, hp, _⟩
  · omega
  · rcases hmk with hmk | hmk
    · rw [hmk] at hm; cases hm
    · rw [hmk] at hd; cases hd
  · rw [hp]

theorem chunkPath_dirs (root : Str) (id : Nat) :
    chunkPath root id
      = TrimSuffix root ++ '/' :: List.intercalate ['/'] (pathDirs id) ++ '/' :: FormatUint id :=
  rfl

/-- Every shard group is a non-empty string of at most three decimal digits. -/
theorem shardGroups_group (n : Nat) :
    ∀ g ∈ shardGroups n, g ≠ [] ∧ g.length ≤ 3 ∧ ∀ ch ∈ g, ch.isDigit = true := by
  obtain ⟨r0, rs, h0, _, hrs, heq⟩ := shardGroups_shape n
  intro g hg
  rw [heq] at hg
  rcases List.mem_cons.1 hg with rfl | hg
  · exact ⟨FormatUint_ne_nil _, FormatUint_length_le h0, FormatUint_isDigit _⟩
  · obtain ⟨r, hr, rfl⟩ := List.mem_map.1 hg
    exact ⟨by simp [pad3], by simp [pad3], pad3_isDigit (hrs r hr)⟩

/-- A list without duplicates inside a list of 1000 names has at most 1000
names. -/
theorem length_le_of_subset_map {names : List Str} (f : Nat → Str) (hnd : names.Nodup)
    (hsub : ∀ n ∈ names, n ∈ (List.range 1000).map f) : names.length ≤ 1000 := by
  have := (List.subperm_of_subset hnd hsub).length_le
  simpa using this

theorem dirs_below_bound {pre : List Str} {names : List Str} (hnd : names.Nodup)
    (h : ∀ n ∈ names, DirBelow pre n) : names.length ≤ 1000 := by
  cases pre with
  | nil =>
    apply length_le_of_subset_map FormatUint hnd
    intro n hn
    obtain ⟨id, hid, hpre⟩ := h n hn
    rw [pathDirs_large (by omega)] at hpre
    obtain ⟨r0, rs, h0, _, _, heq⟩ := shardGroups_shape (id / 1000)
    rw [heq] at hpre
    simp only [List.nil_append, List.cons_prefix_cons] at hpre
    rw [hpre.1]
    exact List.mem_map.2 ⟨r0, List.mem_range.2 h0, rfl⟩
  | cons a pre =>
    apply length_le_of_subset_map pad3 hnd
    intro n hn
    obtain ⟨id, hid, hpre⟩ := h n hn
    rw [pathDirs_large (by omega)] at hpre
    obtain ⟨r0, rs, _, _, hrs, heq⟩ := shardGroups_shape (id / 1000)
    rw [heq] at hpre
    simp only [List.cons_append, List.cons_prefix_cons] at hpre
    have hmem : n ∈ rs.map pad3 := hpre.2.subset (by simp)
    obtain ⟨r, hr, rfl⟩ := List.mem_map.1 hmem
    exact List.mem_map.2 ⟨r, List.mem_range.2 (hrs r hr), rfl⟩

theorem files_below_bound {pre : List Str} {names : List Str} (hnd : names.Nodup)
    (h : ∀ n ∈ names, FileBelow pre n) : names.length ≤ 1000 := by
  cases hnames : names with
  | nil => simp
  | cons n0 rest =>
    rw [← hnames]
    obtain ⟨id0, hid0, hc0⟩ := h n0 (by rw [hnames]; simp)
    have hd0 : pathDirs id0 = pre := (List.append_inj' hc0 rfl).1
    apply length_le_of_subset_map (fun r => FormatUint (1000 * (id0 / 1000) + r)) hnd
    intro n hn
    obtain ⟨id, hid, hc⟩ := h n hn
    obtain ⟨hd, hf⟩ := List.append_inj' hc rfl
    have hq : id / 1000 = id0 / 1000 := by
      apply shardGroups_injective
      rw [← pathDirs_large (by omega), ← pathDirs_large (by omega), hd, hd0]
    have hn' : n = FormatUint id := by simpa using hf.symm
    refine List.mem_map.2 ⟨id % 1000, List.mem_range.2 (Nat.mod_lt _ (by decide)), ?_⟩
    rw [hn']
    show FormatUint (1000 * (id0 / 1000) + id % 1000) = FormatUint id
    rw [← hq, Nat.div_add_mod]

/-! ### The constraints of the index -/

theorem rowsGrow_of_sameData {s t : Store} (h : SameData s t) : RowsGrow s t :=
  Or.inl ⟨h.1, h.2.1⟩

theorem rowsGrow_trans_left {s t u : Store} (h : SameData s t) (hg : RowsGrow t u) :
    RowsGrow s u := by
  rcases hg with ⟨h1, h2⟩ | ⟨r, h1, h2, h3, h4⟩
  · exact Or.inl ⟨h1.trans h.1, h2.trans h.2.1⟩
  · refine Or.inr ⟨r, by rw [h1, h.2.1], ?_, by rw [h3, h.1], by rw [h4, h.2.1]⟩
    intro x hx
    rw [← h.1] at hx
    exact h2 x hx

theorem createAndWrite_step (e : Env) (rp : Option Str) (chunk : Chunk) (p : Bytes) (t : Store) :
    RowsGrow t (createAndWrite e rp chunk p t).2 := by
  have hcreated : ∀ u : Store, (∀ r ∈ t.rows, r.Hash ≠ chunk.Hash) →
      u.rows = (withCreated e chunk t).rows → u.nextID = (withCreated e chunk t).nextID →
      RowsGrow t u := by
    intro u hnd h1 h2
    exact Or.inr ⟨createdRow e chunk t, rfl, hnd, h1, h2⟩
  rcases createAndWrite_cases e rp chunk p t with
    ⟨y, hy, _⟩ | ⟨⟨_, hnd⟩, ⟨y, _, hy, _⟩ | ⟨_, t2, hsd, _, ⟨_, hy⟩ | ⟨k, _, hy⟩ | ⟨_, hy⟩⟩⟩
  · rw [hy]; exact Or.inl ⟨rfl, rfl⟩
  · rw [hy]; exact hcreated _ hnd rfl rfl
  · rw [hy]; exact hcreated _ hnd hsd.1 hsd.2.1
  · rw [hy]; exact hcreated _ hnd hsd.1 hsd.2.1
  · rw [hy]; exact hcreated _ hnd hsd.1 hsd.2.1

theorem Create_step (H : Bytes → Str) (e : Env) (p : Bytes) (rp : Option Str) (s : Store) :
    RowsGrow s (CreateChunkFromBytes H e p rp s).2 := by
  rcases Create_cases H e p rp s with ⟨_, h⟩ | ⟨_, ⟨x, _, _, h⟩ | ⟨ch', t, hf, h⟩ | ⟨t, _, hsd, h⟩⟩
  · rw [h]; exact Or.inl ⟨rfl, rfl⟩
  · rw [h]; exact Or.inl ⟨rfl, rfl⟩
  · rw [h]; exact rowsGrow_of_sameData (findStored_some hf).1
  · rw [h]; exact rowsGrow_trans_left hsd (createAndWrite_step _ _ _ _ _)

/-- The index after `AppendBytes`: the one before, possibly with one row
inserted, or the index that `db.Save` left on the in-place path. -/
theorem Append_step (H : Bytes → Str) (e e2 : Env) (c : Chunk) (p : Bytes) (rp : Option Str)
    (s : Store) :
    RowsGrow s (c.AppendBytes H e e2 p rp s).store ∨
    (10000 ≤ c.ID ∧ ∃ old s2 ch, SameData s s2 ∧
      dbSave e (grown H c old p) (putFile s2 (chunkPath (rootOf e rp) c.ID) (old ++ p))
        = (.ok ch, (c.AppendBytes H e e2 p rp s).store)) := by
  rcases AppendBytes_cases H e e2 c p rp s with ⟨_, h⟩ | ⟨_, ⟨x, _, h⟩ | ⟨hid, s1, hsd, _, _, hrest⟩⟩
  · rw [h]; exact Or.inl (Or.inl ⟨rfl, rfl⟩)
  · rw [h]; exact Or.inl (Or.inl ⟨rfl, rfl⟩)
  · rcases hrest with ⟨x, _, h⟩ | ⟨old, _, hold, hrun⟩
    · rw [h]; exact Or.inl (rowsGrow_of_sameData hsd)
    · rcases hrun with ⟨x, _, _, h⟩ | ⟨ch', s2, hf, h⟩ | ⟨s2, _, hsd2, hrun⟩
      · rw [h]; exact Or.inl (rowsGrow_of_sameData hsd)
      · rw [h]
        exact Or.inl (rowsGrow_of_sameData (sameData_trans hsd (findStored_some hf).1))
      · have hsd12 := sameData_trans hsd hsd2
        rcases hrun with ⟨_, h⟩ | ⟨_, _, hfork⟩ | ⟨_, _, hin⟩
        · rw [h]; exact Or.inl (rowsGrow_of_sameData hsd12)
        · have hstep := Create_step H (e.nested e2) (old ++ p) rp s2
          rcases hfork with ⟨x, s3, hcr, h⟩ | ⟨x, s3, hcr, h⟩ | ⟨m, s3, hcr, h⟩
          · rw [h]; rw [hcr] at hstep; exact Or.inl (rowsGrow_trans_left hsd12 hstep)
          · rw [h]; rw [hcr] at hstep; exact Or.inl (rowsGrow_trans_left hsd12 hstep)
          · rw [h]; rw [hcr] at hstep; exact Or.inl (rowsGrow_trans_left hsd12 hstep)
        · rcases hin with ⟨_, h⟩ | ⟨_, k, _, h⟩ | ⟨_, _, ⟨x, _, h⟩ | ⟨c2, s5, hsave, h⟩⟩
          · rw [h]; exact Or.inl (rowsGrow_of_sameData hsd12)
          · rw [h]; exact Or.inl (Or.inl ⟨hsd12.1, hsd12.2.1⟩)
          · rw [h]; exact Or.inl (Or.inl ⟨hsd12.1, hsd12.2.1⟩)
          · rw [h]; exact Or.inr ⟨hid, old, s2, c2, hsd12, hsave⟩

theorem indexOK_grow {s u : Store} (h : IndexOK s) (hg : RowsGrow s u) : IndexOK u := by
  rcases hg with ⟨h1, h2⟩ | ⟨r, hr, hnd, h1, h2⟩
  · refine ⟨by rw [h1]; exact h.1, ?_⟩
    intro x hx
    rw [h1] at hx
    rw [h2]
    exact h.2 x hx
  · refine ⟨?_, ?_⟩
    · rw [h1, List.pairwise_append]
      refine ⟨h.1, by simp, ?_⟩
      intro a ha b hb
      have hb' : b = r := by simpa using hb
      rw [hb']
      have := h.2 a ha
      exact ⟨by omega, hnd a ha⟩
    · intro x hx
      rw [h1] at hx
      rw [h2]
      rcases List.mem_append.1 hx with hx | hx
      · have := h.2 x hx; omega
      · have hx' : x = r := by simpa using hx
        rw [hx', hr]; omega

theorem indexOK_save {e : Env} {c ch : Chunk} {s u : Store} (h : IndexOK s) (hid : c.ID ≠ 0)
    (hsave : dbSave e c s = (.ok ch, u)) : IndexOK u := by
  rcases dbSave_cases e c s hid with ⟨x, hx⟩ | ⟨_, hnd, ⟨⟨r0, hr0, hr0id⟩, hx⟩ | ⟨hne, hx⟩⟩
  · rw [hx] at hsave; cases hsave
  · rw [hx] at hsave; cases hsave
    refine ⟨?_, ?_⟩
    · show (s.rows.map _).Pairwise _
      rw [List.pairwise_map]
      refine List.Pairwise.imp_of_mem ?_ h.1
      intro a b ha hb hab
      by_cases h1 : a.ID = c.ID
      · by_cases h2 : b.ID = c.ID
        · exact absurd (h1.trans h2.symm) hab.1
        · simp only [h1, h2, if_true, if_false]
          exact ⟨fun hh => h2 hh.symm, fun hh => hnd b hb h2 hh.symm⟩
      · by_cases h2 : b.ID = c.ID
        · simp only [h1, h2, if_true, if_false]
          exact ⟨h1, hnd a ha h1⟩
        · simp only [h1, h2, if_false]
          exact hab
    · intro x hx'
      obtain ⟨x0, hx0, rfl⟩ := List.mem_map.1 hx'
      show (if x0.ID = c.ID then _ else x0).ID < s.nextID
      by_cases h1 : x0.ID = c.ID
      · simp only [h1, if_true]
        have := h.2 r0 hr0
        omega
      · simp only [h1, if_false]
        exact h.2 x0 hx0
  · rw [hx] at hsave; cases hsave
    refine ⟨?_, ?_⟩
    · show (s.rows ++ [_]).Pairwise _
      rw [List.pairwise_append]
      refine ⟨h.1, by simp, ?_⟩
      intro a ha b hb
      have hb' : b = { c with UpdatedAt := e.now } := by simpa using hb
      rw [hb']
      exact ⟨hne a ha, hnd a ha (hne a ha)⟩
    · intro x hx'
      show x.ID < max s.nextID (c.ID + 1)
      rcases List.mem_append.1 hx' with hx' | hx'
      · have := h.2 x hx'
        omega
      · have hx'' : x = { c with UpdatedAt := e.now } := by simpa using hx'
        rw [hx'']
        show c.ID < max s.nextID (c.ID + 1)
        omega

theorem indexOK_append {H : Bytes → Str} {e e2 : Env} {c : Chunk} {p : Bytes} {rp : Option Str}
    {s : Store} (h : IndexOK s) : IndexOK (c.AppendBytes H e e2 p rp s).store := by
  rcases Append_step H e e2 c p rp s with hg | ⟨hid, old, s2, ch, hsd, hsave⟩
  · exact indexOK_grow h hg
  · have h0 : IndexOK (putFile s2 (chunkPath (rootOf e rp) c.ID) (old ++ p)) :=
      indexOK_grow h (Or.inl ⟨hsd.1, hsd.2.1⟩)
    have hne : (grown H c old p).ID ≠ 0 := by show c.ID ≠ 0; omega
    exact indexOK_save h0 hne hsave

/-- A successful `AppendBytes` leaves a consistent store consistent. -/
theorem Append_preserves {H : Bytes → Str} {e e2 : Env} {c : Chunk} {p : Bytes}
    {rp : Option Str} {s : Store} {ch : Chunk} {n : Nat}
    (hcons : Consistent H (rootOf e rp) s) (hids : IdsFresh s)
    (hok : (c.AppendBytes H e e2 p rp s).out = .ok (ch, n)) :
    Consistent H (rootOf e rp) (c.AppendBytes H e e2 p rp s).store := by
  obtain ⟨_, hid, _, old, hold, hpath⟩ := AppendBytes_ok hok
  have hfresh_of : ∀ {t : Store}, SameData s t → IdsFresh t := by
    intro t hsd r hr
    rw [hsd.1] at hr
    rw [hsd.2.1]
    exact hids r hr
  rcases hpath with ⟨s1, hsd, hf, _⟩ | ⟨s2, hsd, _, hcr, _⟩ | ⟨s2, hsd, _, hsave, _⟩
  · exact consistent_of_sameData hcons (sameData_trans hsd (findStored_some hf).1)
  · have := @Create_preserves H (e.nested e2) (old ++ p) rp s2 _ ch
      (by rw [rootOf_nested]; exact consistent_of_sameData hcons hsd) (hfresh_of hsd) hcr
    rw [rootOf_nested] at this
    exact this.1
  · exact (inPlace_preserves hcons hids hsd hid hsave).1

/-- Every reachable store keeps the constraints of the index. -/
theorem reachable_indexOK {H : Bytes → Str} {root : Str} {okOnly : Bool} {s : Store}
    (hr : Reachable H root okOnly s) : IndexOK s := by
  induction hr with
  | empty nextID refs dirs =>
    exact ⟨List.Pairwise.nil, fun r hr => by cases hr⟩
  | refs s refs _ ih => exact ih
  | create s e p rp _ _ _ ih => exact indexOK_grow ih (Create_step H e p rp s)
  | createEmpty s e rp _ _ _ ih =>
    rw [CreateEmpty_eq_Create]
    exact indexOK_grow ih (Create_step H e [] rp s)
  | append s e e2 c p rp _ _ _ ih => exact indexOK_append ih

/-- Every store reached through successful calls only is consistent. -/
theorem reachable_consistent {H : Bytes → Str} {root : Str} {s : Store}
    (hr : Reachable H root true s) : Consistent H root s := by
  induction hr with
  | empty nextID refs dirs => intro r hr; cases hr
  | refs s refs _ ih => exact ih
  | create s e p rp hs hroot hok ih =>
    obtain ⟨ch, hch⟩ := hok rfl
    rw [← hroot] at ih ⊢
    exact (Create_preserves ih (reachable_indexOK hs).2 (Prod.ext hch rfl)).1
  | createEmpty s e rp hs hroot hok ih =>
    obtain ⟨ch, hch⟩ := hok rfl
    rw [CreateEmpty_eq_Create] at hch ⊢
    rw [← hroot] at ih ⊢
    exact (Create_preserves ih (reachable_indexOK hs).2 (Prod.ext hch rfl)).1
  | append s e e2 c p rp hs hroot hok ih =>
    obtain ⟨⟨ch, n⟩, hch⟩ := hok rfl
    rw [← hroot] at ih ⊢
    exact Append_preserves ih (reachable_indexOK hs).2 hch

/-! ### Serialized appends -/

/-- `db.Save` of a chunk with an id succeeds when the statement does not fail
and no row of another id carries the hash. -/
theorem dbSave_succeeds {e : Env} {c : Chunk} {s : Store} (hid : c.ID ≠ 0)
    (hse : e.saveErr = false) (hnd : ∀ r ∈ s.rows, r.ID ≠ c.ID → r.Hash ≠ c.Hash) :
    ∀ x u, dbSave e c s ≠ (.error x, u) := by
  intro x u h
  have hany : (s.rows.any fun r => decide (r.ID ≠ c.ID) && decide (r.Hash = c.Hash)) = false := by
    rw [List.any_eq_false]
    intro r hr hh
    simp only [Bool.and_eq_true, decide_eq_true_eq] at hh
    exact hnd r hr hh.1 hh.2
  unfold dbSave at h
  simp only [hid, if_false, hse, Bool.false_eq_true, hany] at h
  split at h <;> cases h

/-- One append to an unshared chunk of the index whose record agrees with the
disk, when no other row carries the digest of the new content. -/
theorem append_unshared {H : Bytes → Str} {e e2 : Env} {c : Chunk} {p old : Bytes}
    {rp : Option Str} {s : Store} {ch : Chunk} {n : Nat}
    (hmem : c ∈ s.rows) (hidx : IndexOK s) (hrefs : s.refs c.ID ≤ 1)
    (hold : s.files (chunkPath (rootOf e rp) c.ID) = some old)
    (hsize : c.Size = (old.length : Nat)) (hhash : c.Hash = H old)
    (hother : ∀ r ∈ s.rows, r.ID ≠ c.ID → r.Hash ≠ H (old ++ p))
    (hcoll : H old = H (old ++ p) → p = [])
    (hok : (c.AppendBytes H e e2 p rp s).out = .ok (ch, n)) :
    ch.ID = c.ID ∧ ch.Size = c.Size + (p.length : Nat) ∧ ch.Hash = H (old ++ p) ∧
      (c.AppendBytes H e e2 p rp s).store.files (chunkPath (rootOf e rp) c.ID)
        = some (old ++ p) ∧
      ch ∈ (c.AppendBytes H e e2 p rp s).store.rows ∧
      IndexOK (c.AppendBytes H e e2 p rp s).store ∧
      (c.AppendBytes H e e2 p rp s).store.refs = s.refs ∧
      (∀ r ∈ (c.AppendBytes H e e2 p rp s).store.rows, r.ID ≠ c.ID → r ∈ s.rows) := by
  have hidx' : IndexOK (c.AppendBytes H e e2 p rp s).store := indexOK_append hidx
  obtain ⟨_, hid, _, old', hold', hpath⟩ := AppendBytes_ok hok
  rw [hold] at hold'
  cases hold'
  rcases hpath with ⟨s1, hsd, hf, _⟩ | ⟨s2, _, hgt, _, _⟩ | ⟨s2, hsd, _, hsave, _⟩
  · obtain ⟨hsd1, _, _, hch, hh, _⟩ := findStored_some hf
    rw [hsd.1] at hch
    have hsd2 := sameData_trans hsd hsd1
    have hchid : ch.ID = c.ID := by
      by_contra hne
      exact hother ch hch hne hh
    have hsym : Symmetric (fun a b : Chunk => a.ID ≠ b.ID ∧ a.Hash ≠ b.Hash) :=
      fun a b h => ⟨fun hh => h.1 hh.symm, fun hh => h.2 hh.symm⟩
    have hchc : ch = c := by
      by_contra hne
      exact (hidx.1.forall hsym hch hmem hne).1 hchid
    have hp : p = [] := hcoll (by rw [← hhash, ← hchc, hh])
    subst hp
    subst hchc
    refine ⟨rfl, by simp, by simpa using hhash, ?_, by rw [hsd2.1]; exact hch, hidx',
      hsd2.2.2.1, ?_⟩
    · rw [hsd2.2.2.2.1, hold]; simp
    · intro r hr _
      rw [hsd2.1] at hr
      exact hr
  · omega
  · have hne : (grown H c old p).ID ≠ 0 := by show c.ID ≠ 0; omega
    obtain ⟨hc2, hfiles, hrefs', _, _, _, hmem', hrows, _⟩ := dbSave_ok hne hsave
    refine ⟨by rw [hc2]; rfl, ?_, by rw [hc2]; rfl, ?_, hmem', hidx', ?_, ?_⟩
    · rw [hc2, hsize]; simp [grown]
    · rw [hfiles]; simp [putFile]
    · rw [hrefs']; exact hsd.2.2.1
    · intro r hr hrid
      rcases hrows r hr with h | ⟨h, _⟩
      · rw [h, hc2] at hrid
        exact absurd rfl hrid
      · have : r ∈ s2.rows := h
        rw [hsd.1] at this
        exact this

/-- The run of `AppendBytes` once the id is valid, the directory can be created
and the chunk file is read. -/
theorem AppendBytes_read {H : Bytes → Str} {e e2 : Env} {c : Chunk} {p old : Bytes}
    {rp : Option Str} {s : Store}
    (hcap : ¬ (p.length : Int) > wrapInt ((ChunkSize : Int) - c.Size)) (hid : 10000 ≤ c.ID)
    (hmk : e.mkdirErr = false) (hre : e.readErr = false)
    (hold : s.files (chunkPath (rootOf e rp) c.ID) = some old) :
    ∃ s1, SameData s s1 ∧ AfterRead H e e2 c p old rp s1 (c.AppendBytes H e e2 p rp s) := by
  rcases Path_cases e rp c s with ⟨hlt, _⟩ | ⟨_, hm, _, _⟩ | ⟨_, s1, hp, hsd, hdir, _⟩
  · omega
  · rw [hmk] at hm; cases hm
  · refine ⟨s1, hsd, ?_⟩
    have hold1 : s1.files (chunkPath (rootOf e rp) c.ID) = some old := by
      rw [hsd.2.2.2.1]; exact hold
    unfold Chunk.AppendBytes
    simp only [hcap, if_false, hp, ReadFile, hre, Bool.false_eq_true, hold1]
    rcases findStored_cases e rp (H (old ++ p)) s1 with
      ⟨x, hx, hf⟩ | ⟨s2, hf, hsd2, _⟩ | ⟨ch, s2, hf, _⟩
    · left; exact ⟨x, hx, hf, by simp only [hf]⟩
    · right; right
      refine ⟨s2, hf, hsd2, ?_⟩
      simp only [hf, CountObjectChunkByChunkID]
      by_cases hc : e.countErr = true
      · left; exact ⟨hc, by simp only [hc, if_true]⟩
      · have hc' : e.countErr = false := by simpa using hc
        right
        simp only [hc', Bool.false_eq_true, if_false]
        by_cases hcount : s2.refs c.ID > 1
        · left
          refine ⟨trivial, hcount, ?_⟩
          simp only [hcount, if_true]
          rcases hcr : CreateChunkFromBytes H (e.nested e2) (old ++ p) rp s2 with ⟨o, s3⟩
          cases o with
          | ok n => right; right; exact ⟨n, s3, rfl, rfl⟩
          | error x => left; exact ⟨x, s3, rfl, rfl⟩
          | panic x => right; left; exact ⟨x, s3, rfl, rfl⟩
        · right
          refine ⟨trivial, by omega, ?_⟩
          simp only [hcount, if_false]
          exact inPlace_run H e c p old rp s2 hid (hsd2.2.2.2.2 _ hdir)
            (by rw [hsd2.2.2.2.1]; exact hold1)
    · right; left
      exact ⟨ch, s2, hf, by simp only [hf]⟩

/-- One append to an unshared chunk returns a chunk when the environment is
calm, the data fits and no other row carries the digest of the new content. -/
theorem append_runs {H : Bytes → Str} {e e2 : Env} {c : Chunk} {p old : Bytes}
    {rp : Option Str} {s : Store}
    (hcalm : Calm e) (hid : 10000 ≤ c.ID) (hrefs : s.refs c.ID ≤ 1)
    (hold : s.files (chunkPath (rootOf e rp) c.ID) = some old)
    (hsize : c.Size = (old.length : Nat)) (hfit : old.length + p.length ≤ ChunkSize)
    (hother : ∀ r ∈ s.rows, r.ID ≠ c.ID → r.Hash ≠ H (old ++ p)) :
    ∃ ch n, (c.AppendBytes H e e2 p rp s).out = .ok (ch, n) := by
  obtain ⟨hfe, hce, _, hse, hmk, hre, hoe, hwe, _⟩ := hcalm
  have hcap : ¬ (p.length : Int) > wrapInt ((ChunkSize : Int) - c.Size) := by
    have hw : wrapInt ((ChunkSize : Int) - c.Size) = (ChunkSize : Int) - c.Size := by
      apply wrapInt_of_range
      · have : ((ChunkSize : Nat) : Int) = 1048576 := by decide
        omega
      · have : ((ChunkSize : Nat) : Int) = 1048576 := by decide
        omega
    rw [hw, hsize]
    omega
  obtain ⟨s1, hsd, hrun⟩ := @AppendBytes_read H e e2 c p old rp s hcap hid hmk hre hold
  have hids1 : ∀ r ∈ s1.rows, r.Hash = H (old ++ p) → 10000 ≤ r.ID := by
    intro r hr hh
    rw [hsd.1] at hr
    by_cases hrid : r.ID = c.ID
    · omega
    · exact absurd hh (hother r hr hrid)
  have hfs := @findStored_calm e rp (H (old ++ p)) s1 hfe hmk hids1
  rcases hrun with ⟨x, _, hf, _⟩ | ⟨ch, s2, _, h⟩ | ⟨s2, _, hsd2, hrun⟩
  · rcases hfs with ⟨_, hf'⟩ | ⟨ch, t, _, _, ⟨_, hf'⟩ | ⟨_, hf'⟩⟩
    · rw [hf'] at hf; cases hf
    · rw [hf'] at hf; cases hf
    · rw [hf'] at hf; cases hf
  · exact ⟨ch, p.length, by rw [h]⟩
  · have hsd12 := sameData_trans hsd hsd2
    rcases hrun with ⟨hc, _⟩ | ⟨_, hgt, _⟩ | ⟨_, _, hin⟩
    · rw [hce] at hc; cases hc
    · rw [hsd12.2.2.1] at hgt; omega
    · rcases hin with ⟨ho, _⟩ | ⟨_, k, hw, _⟩ | ⟨_, _, ⟨x, hx, _⟩ | ⟨c2, s5, _, h⟩⟩
      · rw [hoe] at ho; cases ho
      · rw [hwe] at hw; cases hw
      · exfalso
        have hne : (grown H c old p).ID ≠ 0 := by show c.ID ≠ 0; omega
        refine dbSave_succeeds hne hse ?_ _ _ hx
        intro r hr hrid
        have hr' : r ∈ s.rows := by
          have : r ∈ s2.rows := hr
          rw [hsd12.1] at this
          exact this
        exact hother r hr' hrid
      · exact ⟨c2, p.length, by rw [h]⟩

/-- A serialized run on an unshared chunk, by induction on the calls: what a run
that returns leaves, and that a run in calm environments returns. -/
theorem appendAll_spec {H : Bytes → Str} {rp : Option Str} {root : Str} :
    ∀ (calls : List AppendCall) (c : Chunk) (s : Store) (old : Bytes),
    (∀ call ∈ calls, rootOf call.e rp = root) → c ∈ s.rows → IndexOK s → s.refs c.ID ≤ 1 →
    s.files (chunkPath root c.ID) = some old → c.Size = (old.length : Nat) → c.Hash = H old →
    (∀ r ∈ s.rows, r.ID ≠ c.ID → ∀ pre, pre <+: payloads calls → pre ≠ [] →
      r.Hash ≠ H (old ++ pre.flatten)) →
    (∀ pre q, (pre ++ [q]) <+: payloads calls →
      H (old ++ pre.flatten) = H (old ++ pre.flatten ++ q) → q = []) →
    (∀ c' s', appendAll H rp calls c s = some (c', s') →
      c'.ID = c.ID ∧ c'.Size = c.Size + (totalLength calls : Nat) ∧
      c'.Hash = H (old ++ (payloads calls).flatten) ∧
      s'.files (chunkPath root c.ID) = some (old ++ (payloads calls).flatten)) ∧
    ((∀ call ∈ calls, Calm call.e) → 10000 ≤ c.ID → old.length + totalLength calls ≤ ChunkSize →
      ∃ c' s', appendAll H rp calls c s = some (c', s')) := by
  intro calls
  induction calls with
  | nil =>
    intro c s old _ _ _ _ hold _ hhash _ _
    refine ⟨?_, fun _ _ _ => ⟨c, s, rfl⟩⟩
    intro c' s' h
    simp only [appendAll, Option.some.injEq, Prod.mk.injEq] at h
    obtain ⟨rfl, rfl⟩ := h
    simp [totalLength, payloads, hhash, hold]
  | cons call rest ih =>
    intro c s old hroot hmem hidx hrefs hold hsize hhash hother hcoll
    have hr0 : rootOf call.e rp = root := hroot call (List.mem_cons_self _ _)
    have hpay : payloads (call :: rest) = call.p :: payloads rest := rfl
    have htot : totalLength (call :: rest) = call.p.length + totalLength rest := by
      simp [totalLength]
    have hother0 : ∀ r ∈ s.rows, r.ID ≠ c.ID → r.Hash ≠ H (old ++ call.p) := by
      intro r hr hrid
      have := hother r hr hrid [call.p] (by rw [hpay]; simp) (by simp)
      simpa using this
    have hcoll0 : H old = H (old ++ call.p) → call.p = [] := by
      intro hh
      exact hcoll [] call.p (by rw [hpay]; simp) (by simpa using hh)
    have hold0 : s.files (chunkPath (rootOf call.e rp) c.ID) = some old := by rw [hr0]; exact hold
    have hnext : ∀ ch n, (c.AppendBytes H call.e call.e2 call.p rp s).out = .ok (ch, n) →
        ch.ID = c.ID ∧ ch.Size = c.Size + (call.p.length : Nat) ∧
        ((∀ c' s', appendAll H rp rest ch (c.AppendBytes H call.e call.e2 call.p rp s).store
            = some (c', s') →
          c'.ID = ch.ID ∧ c'.Size = ch.Size + (totalLength rest : Nat) ∧
          c'.Hash = H (old ++ call.p ++ (payloads rest).flatten) ∧
          s'.files (chunkPath root ch.ID) = some (old ++ call.p ++ (payloads rest).flatten)) ∧
        ((∀ call ∈ rest, Calm call.e) → 10000 ≤ ch.ID →
          (old ++ call.p).length + totalLength rest ≤ ChunkSize →
          ∃ c' s', appendAll H rp rest ch (c.AppendBytes H call.e call.e2 call.p rp s).store
            = some (c', s'))) := by
      intro ch n hok
      obtain ⟨h1, h2, h3, h4, h5, h6, h7, h8⟩ :=
        append_unshared hmem hidx hrefs hold0 hsize hhash hother0 hcoll0 hok
      refine ⟨h1, h2, ?_⟩
      apply ih ch _ (old ++ call.p) (fun x hx => hroot x (List.mem_cons_of_mem _ hx)) h5 h6
      · rw [h7, h1]; exact hrefs
      · rw [h1, ← hr0]; exact h4
      · rw [h2, hsize]; simp
      · exact h3
      · intro r hr hrid pre hpre hne
        rw [h1] at hrid
        have := hother r (h8 r hr hrid) hrid (call.p :: pre)
          (by rw [hpay]; exact (List.prefix_cons_inj _).2 hpre) (by simp)
        simpa [List.append_assoc] using this
      · intro pre q hpre hh
        apply hcoll (call.p :: pre) q
        · rw [hpay]
          exact (List.prefix_cons_inj _).2 hpre
        · simpa [List.append_assoc] using hh
    constructor
    · intro c' s' hrun
      simp only [appendAll] at hrun
      cases hout : (c.AppendBytes H call.e call.e2 call.p rp s).out with
      | error x => rw [hout] at hrun; cases hrun
      | panic x => rw [hout] at hrun; cases hrun
      | ok r =>
        obtain ⟨ch, n⟩ := r
        rw [hout] at hrun
        obtain ⟨h1, h2, hA, _⟩ := hnext ch n hout
        obtain ⟨g1, g2, g3, g4⟩ := hA c' s' hrun
        refine ⟨g1.trans h1, ?_, ?_, ?_⟩
        · rw [g2, h2, htot]
          push_cast
          omega
        · rw [g3, hpay]; simp [List.append_assoc]
        · rw [← h1, g4, hpay]; simp [List.append_assoc]
    · intro hcalm hid hfit
      have hfit0 : old.length + call.p.length ≤ ChunkSize := by rw [htot] at hfit; omega
      obtain ⟨ch, n, hout⟩ := @append_runs H call.e call.e2 c call.p old rp s
        (hcalm call (List.mem_cons_self _ _)) hid hrefs hold0 hsize hfit0 hother0
      obtain ⟨h1, _, _, hB⟩ := hnext ch n hout
      obtain ⟨c', s', hrun⟩ := hB (fun x hx => hcalm x (List.mem_cons_of_mem _ hx))
        (by rw [h1]; exact hid) (by rw [List.length_append]; rw [htot] at hfit; omega)
      refine ⟨c', s', ?_⟩
      simp only [appendAll, hout]
      exact hrun

/-! ### The digest of the examples -/

set_option maxRecDepth 100000 in
theorem charOfNat_toNat : ∀ x : Fin 256, (Char.ofNat x.val).toNat = x.val := by decide

theorem plainDigest_injective : Function.Injective plainDigest := by
  unfold plainDigest
  apply List.map_injective_iff.2
  intro x y h
  have h1 := congrArg Char.toNat h
  simp only [] at h1
  have hx := charOfNat_toNat x.val
  have hy := charOfNat_toNat y.val
  have : x.toNat = y.toNat := by
    show x.val.val = y.val.val
    rw [← hx, ← hy]; exact h1
  cases x; cases y
  congr
  exact BitVec.eq_of_toNat_eq this

theorem plainDigest_noCollision (s : Store) (x : Bytes) : NoCollision plainDigest s x :=
  fun _ _ _ h => plainDigest_injective h

theorem AppendBytes_returns_appended_witness :
    Consistent plainDigest exRoot (exStore 1) ∧
      (1 = [(3 : UInt8)].length ∧
        (exChunk.AppendBytes plainDigest exEnv exEnv [3] (some exRoot) (exStore 1)).store.files
            (chunkPath exRoot 10000) = some ([1, 2] ++ [3])) :=
  ⟨by decide, AppendBytes_returns_appended plainDigest exEnv exEnv exChunk [3] [1, 2]
    (some exRoot) (exStore 1) ⟨10000, 3, plainDigest [1, 2, 3], 7, 7⟩ 1 (by decide)
    (plainDigest_noCollision _ _) (by decide) (by decide)⟩

/-! ### The three paths of `AppendBytes` -/

/-- C2: append in place. For a chunk whose file holds `old` with `c.Size` the
length of `old`, referenced by at most one object, when no row carrying the
digest of `old ++ data` has its file on disk, a successful `AppendBytes` returns
a chunk with the id of `c`, the old size plus `len(data)` as size and the digest
of `old ++ data` as hash; the file holds `old ++ data`, and the index row of
that id is the returned chunk. -/
theorem AppendBytes_in_place (H : Bytes → Str) (e e2 : Env) (c : Chunk) (p old : Bytes)
    (rp : Option Str) (s : Store) (ch : Chunk) (n : Nat)
    (hold : s.files (chunkPath (rootOf e rp) c.ID) = some old)
    (hsize : c.Size = (old.length : Nat))
    (hrefs : s.refs c.ID ≤ 1)
    (hfresh : ∀ r ∈ s.rows, r.Hash = H (old ++ p) →
      IsFile s (chunkPath (rootOf e rp) r.ID) = false)
    (hok : (c.AppendBytes H e e2 p rp s).out = .ok (ch, n)) :
    ch.ID = c.ID ∧ ch.Size = c.Size + (p.length : Nat) ∧ ch.Hash = H (old ++ p) ∧
      (c.AppendBytes H e e2 p rp s).store.files (chunkPath (rootOf e rp) c.ID)
        = some (old ++ p) ∧
      (c.AppendBytes H e e2 p rp s).record = ch ∧
      ch ∈ (c.AppendBytes H e e2 p rp s).store.rows ∧
      ∀ r ∈ (c.AppendBytes H e e2 p rp s).store.rows, r.ID = c.ID → r = ch := by
  obtain ⟨_, hid, _, old', hold', hpath⟩ := AppendBytes_ok hok
  rw [hold] at hold'
  cases hold'
  rcases hpath with ⟨s1, hsd, hf, _⟩ | ⟨s2, _, hgt, _, _⟩ | ⟨s2, hsd, _, hsave, hrec⟩
  · exact absurd hf (lookup_fresh hfresh hsd)
  · omega
  · have hne : (grown H c old p).ID ≠ 0 := by show c.ID ≠ 0; omega
    obtain ⟨hc2, hfiles, _, _, _, _, hmem, hrows, _⟩ := dbSave_ok hne hsave
    refine ⟨?_, ?_, ?_, ?_, hrec, hmem, ?_⟩
    · rw [hc2]; rfl
    · rw [hc2, hsize]; simp [grown]
    · rw [hc2]; rfl
    · rw [hfiles]; simp [putFile]
    · intro r hr hrid
      rcases hrows r hr with h | ⟨_, h⟩
      · exact h
      · exact absurd hrid h

theorem AppendBytes_in_place_witness :
    (exStore 1).refs exChunk.ID ≤ 1 ∧
      ((⟨10000, 3, plainDigest [1, 2, 3], 7, 7⟩ : Chunk).ID = exChunk.ID ∧
        (⟨10000, 3, plainDigest [1, 2, 3], 7, 7⟩ : Chunk).Size
          = exChunk.Size + ([(3 : UInt8)].length : Nat) ∧
        (⟨10000, 3, plainDigest [1, 2, 3], 7, 7⟩ : Chunk).Hash = plainDigest ([1, 2] ++ [3]) ∧
        (exChunk.AppendBytes plainDigest exEnv exEnv [3] (some exRoot) (exStore 1)).store.files
          (chunkPath exRoot exChunk.ID) = some ([1, 2] ++ [3]) ∧
        (exChunk.AppendBytes plainDigest exEnv exEnv [3] (some exRoot) (exStore 1)).record
          = ⟨10000, 3, plainDigest [1, 2, 3], 7, 7⟩ ∧
        (⟨10000, 3, plainDigest [1, 2, 3], 7, 7⟩ : Chunk)
          ∈ (exChunk.AppendBytes plainDigest exEnv exEnv [3] (some exRoot) (exStore 1)).store.rows ∧
        ∀ r ∈ (exChunk.AppendBytes plainDigest exEnv exEnv [3] (some exRoot) (exStore 1)).store.rows,
          r.ID = exChunk.ID → r = ⟨10000, 3, plainDigest [1, 2, 3], 7, 7⟩) :=
  ⟨by decide, AppendBytes_in_place plainDigest exEnv exEnv exChunk [3] [1, 2] (some exRoot)
    (exStore 1) ⟨10000, 3, plainDigest [1, 2, 3], 7, 7⟩ 1 (by decide) (by decide) (by decide)
    (by decide) (by decide)⟩

/-- C3: fork on write. For a chunk of the index whose file holds `old`,
referenced by two or more objects, when no row carrying the digest of
`old ++ data` has its file on disk, a successful `AppendBytes` returns a chunk
with another id whose file holds `old ++ data`; the file of `c` still holds
`old`, the caller's record is unchanged, and the index keeps every row it had
(the new chunk is the only row added). -/
theorem AppendBytes_fork (H : Bytes → Str) (e e2 : Env) (c : Chunk) (p old : Bytes)
    (rp : Option Str) (s : Store) (ch : Chunk) (n : Nat)
    (hmem : c ∈ s.rows) (hids : IdsFresh s)
    (hold : s.files (chunkPath (rootOf e rp) c.ID) = some old)
    (hrefs : 1 < s.refs c.ID)
    (hfresh : ∀ r ∈ s.rows, r.Hash = H (old ++ p) →
      IsFile s (chunkPath (rootOf e rp) r.ID) = false)
    (hok : (c.AppendBytes H e e2 p rp s).out = .ok (ch, n)) :
    ch.ID ≠ c.ID ∧
      (c.AppendBytes H e e2 p rp s).store.files (chunkPath (rootOf e rp) ch.ID)
        = some (old ++ p) ∧
      (c.AppendBytes H e e2 p rp s).store.files (chunkPath (rootOf e rp) c.ID) = some old ∧
      (c.AppendBytes H e e2 p rp s).record = c ∧
      (c.AppendBytes H e e2 p rp s).store.rows = s.rows ++ [ch] := by
  obtain ⟨_, hid, _, old', hold', hpath⟩ := AppendBytes_ok hok
  rw [hold] at hold'
  cases hold'
  rcases hpath with ⟨s1, hsd, hf, _⟩ | ⟨s2, hsd, _, hcr, hrec⟩ | ⟨s2, _, hle, _, _⟩
  · exact absurd hf (lookup_fresh hfresh hsd)
  · obtain ⟨_, hded | hnew⟩ := Create_ok hcr
    · obtain ⟨_, _, _, hch, hh, _, hfile, _⟩ := hded
      rw [hsd.1] at hch
      have := hfresh ch hch hh
      rw [rootOf_nested] at hfile
      simp [IsFile, hsd.2.2.2.1] at hfile this
      rw [this] at hfile
      cases hfile
    · obtain ⟨hch, _, _, hrows, _, _, hfiles, _⟩ := hnew
      rw [rootOf_nested] at hfiles
      have hlt := hids c hmem
      have hchid : ch.ID = s.nextID := by rw [hch, hsd.2.1]
      have hne : ch.ID ≠ c.ID := by omega
      refine ⟨hne, ?_, ?_, hrec, ?_⟩
      · rw [hfiles, hchid, hsd.2.1]; simp
      · rw [hfiles, hsd.2.1, ← hchid]
        have : chunkPath (rootOf e rp) c.ID ≠ chunkPath (rootOf e rp) ch.ID :=
          fun h => hne (chunkPath_injective _ h).symm
        simp [this, hsd.2.2.2.1, hold]
      · rw [hrows, hsd.1]
  · omega

theorem AppendBytes_fork_witness :
    IdsFresh (exStore 2) ∧ 1 < (exStore 2).refs exChunk.ID ∧
      ((⟨10001, 3, plainDigest [1, 2, 3], 7, 7⟩ : Chunk).ID ≠ exChunk.ID ∧
        (exChunk.AppendBytes plainDigest exEnv exEnv [3] (some exRoot) (exStore 2)).store.files
          (chunkPath exRoot 10001) = some ([1, 2] ++ [3]) ∧
        (exChunk.AppendBytes plainDigest exEnv exEnv [3] (some exRoot) (exStore 2)).store.files
          (chunkPath exRoot exChunk.ID) = some [1, 2] ∧
        (exChunk.AppendBytes plainDigest exEnv exEnv [3] (some exRoot) (exStore 2)).record
          = exChunk ∧
        (exChunk.AppendBytes plainDigest exEnv exEnv [3] (some exRoot) (exStore 2)).store.rows
          = (exStore 2).rows ++ [⟨10001, 3, plainDigest [1, 2, 3], 7, 7⟩]) :=
  ⟨by decide, by decide, AppendBytes_fork plainDigest exEnv exEnv exChunk [3] [1, 2]
    (some exRoot) (exStore 2) ⟨10001, 3, plainDigest [1, 2, 3], 7, 7⟩ 1 (by decide) (by decide)
    (by decide) (by decide) (by decide) (by decide)⟩

/-- C4: append dedup. When the index lookup and the read of the chunk file do
not fail, and a row `Y` of the index (the only one with its hash, which is the
digest of `old ++ data`, with a valid id) has its file on disk, `AppendBytes`
returns `Y` and `len(data)` whatever the reference count of `c` is, and leaves
the caller's record and the whole store as they were. -/
theorem AppendBytes_dedup (H : Bytes → Str) (e e2 : Env) (c : Chunk) (p old : Bytes)
    (rp : Option Str) (s : Store) (Y : Chunk)
    (hfe : e.findErr = false) (hre : e.readErr = false)
    (hsz : 0 ≤ c.Size) (hcap : (p.length : Int) ≤ (ChunkSize : Int) - c.Size)
    (hcid : 10000 ≤ c.ID) (hcdir : s.dirs (chunkDir (rootOf e rp) c.ID) = true)
    (hold : s.files (chunkPath (rootOf e rp) c.ID) = some old)
    (hY : Y ∈ s.rows) (huniq : ∀ r ∈ s.rows, r.Hash = Y.Hash → r = Y)
    (hYid : 10000 ≤ Y.ID) (hYdir : s.dirs (chunkDir (rootOf e rp) Y.ID) = true)
    (hYfile : IsFile s (chunkPath (rootOf e rp) Y.ID) = true)
    (hYhash : Y.Hash = H (old ++ p)) :
    c.AppendBytes H e e2 p rp s = ⟨.ok (Y, p.length), c, s⟩ := by
  have hw : wrapInt ((ChunkSize : Int) - c.Size) = (ChunkSize : Int) - c.Size := by
    apply wrapInt_of_range
    · have : (0 : Int) ≤ (p.length : Int) := Int.natCast_nonneg _
      omega
    · have : ((ChunkSize : Nat) : Int) = 1048576 := by decide
      omega
  have hcap' : ¬ (p.length : Int) > wrapInt ((ChunkSize : Int) - c.Size) := by
    rw [hw]; omega
  have hfs : findStored e rp (H (old ++ p)) s = (.ok (some Y), s) := by
    apply findStored_found hfe _ hYid hYdir hYfile
    rw [← hYhash]
    exact find_unique hY huniq
  unfold Chunk.AppendBytes
  simp only [hcap', if_false, Path_of_dir hcid hcdir, ReadFile, hre, Bool.false_eq_true, hold, hfs]

theorem AppendBytes_dedup_witness :
    exChunk2 ∈ (exStore2 5).rows ∧
      exChunk.AppendBytes plainDigest exEnv exEnv [3] (some exRoot) (exStore2 5)
        = ⟨.ok (exChunk2, [(3 : UInt8)].length), exChunk, exStore2 5⟩ :=
  ⟨by decide, AppendBytes_dedup plainDigest exEnv exEnv exChunk [3] [1, 2] (some exRoot)
    (exStore2 5) exChunk2 rfl rfl (by decide) (by decide) (by decide) (by decide) (by decide)
    (by decide) (by decide) (by decide) (by decide) (by decide) (by decide)⟩

/-! ### Invariant I1 -/

/-- C5: invariant I1 is preserved. From a store in which every row of the index
agrees with the disk (and the id counter lies above the ids in use), every
successful `CreateChunkFromBytes`, `CreateEmptyContentChunk` and `AppendBytes`
leaves a store with the same two properties, and the chunk it returns is a row
of that index. -/
theorem I1_preserved (H : Bytes → Str) (e e2 : Env) (rp : Option Str) (s : Store)
    (hcons : Consistent H (rootOf e rp) s) (hids : IdsFresh s) :
    (∀ p ch s1, CreateChunkFromBytes H e p rp s = (.ok ch, s1) →
      Consistent H (rootOf e rp) s1 ∧ IdsFresh s1 ∧ ch ∈ s1.rows) ∧
    (∀ ch s1, CreateEmptyContentChunk H e rp s = (.ok ch, s1) →
      Consistent H (rootOf e rp) s1 ∧ IdsFresh s1 ∧ ch ∈ s1.rows) ∧
    (∀ (c : Chunk) p ch n, (c.AppendBytes H e e2 p rp s).out = .ok (ch, n) →
      Consistent H (rootOf e rp) (c.AppendBytes H e e2 p rp s).store ∧
      IdsFresh (c.AppendBytes H e e2 p rp s).store ∧
      ch ∈ (c.AppendBytes H e e2 p rp s).store.rows) := by
  refine ⟨fun p ch s1 h => Create_preserves hcons hids h, ?_, ?_⟩
  · intro ch s1 h
    rw [CreateEmpty_eq_Create] at h
    exact Create_preserves hcons hids h
  · intro c p ch n hok
    obtain ⟨_, hid, _, old, hold, hpath⟩ := AppendBytes_ok hok
    have hfresh_of : ∀ {t : Store}, SameData s t → IdsFresh t := by
      intro t hsd r hr
      rw [hsd.1] at hr
      rw [hsd.2.1]
      exact hids r hr
    rcases hpath with ⟨s1, hsd, hf, _⟩ | ⟨s2, hsd, _, hcr, _⟩ | ⟨s2, hsd, _, hsave, _⟩
    · obtain ⟨hsd1, _, _, hmem, _⟩ := findStored_some hf
      have hsd2 := sameData_trans hsd hsd1
      exact ⟨consistent_of_sameData hcons hsd2, hfresh_of hsd2, by rw [hsd2.1, ← hsd.1]; exact hmem⟩
    · have := @Create_preserves H (e.nested e2) (old ++ p) rp s2 _ ch
        (by rw [rootOf_nested]; exact consistent_of_sameData hcons hsd) (hfresh_of hsd) hcr
      rw [rootOf_nested] at this
      exact this
    · exact inPlace_preserves hcons hids hsd hid hsave

theorem I1_preserved_witness :
    Consistent plainDigest exRoot (exStore 1) ∧ IdsFresh (exStore 1) ∧
      Consistent plainDigest exRoot
        (exChunk.AppendBytes plainDigest exEnv exEnv [3] (some exRoot) (exStore 1)).store :=
  ⟨by decide, by decide,
    ((I1_preserved plainDigest exEnv exEnv (some exRoot) (exStore 1) (by decide)
      (by decide)).2.2 exChunk [3] ⟨10000, 3, plainDigest [1, 2, 3], 7, 7⟩ 1 (by decide)).1⟩

/-! ### The path of a chunk -/

/-- C6, as stated, fails: for id 10000 (shard groups 10 and 000) under the root
`root`, `Path` returns `root/10/10000`, not the root followed by all shard
groups and the id, `root/10/000/10000`; for id 123456789 it returns
`root/123/456/123456789`. -/
theorem Path_skips_last_group :
    shardGroups 10000 = ["10".toList, "000".toList] ∧
    (exChunk.Path exEnv (some exRoot) emptyStore).1 = .ok "root/10/10000".toList ∧
    (exChunk.Path exEnv (some exRoot) emptyStore).1
      ≠ .ok (exRoot ++ '/' :: List.intercalate ['/'] (shardGroups 10000)
          ++ '/' :: FormatUint 10000) ∧
    ((⟨123456789, 0, [], 0, 0⟩ : Chunk).Path exEnv (some exRoot) emptyStore).1
      = .ok "root/123/456/123456789".toList := by
  decide

/-- C6 amended: for every id of 10000 or more, when the shard directory exists or
can be created, `Path` returns the root (without one trailing separator), then
the shard groups of the id except the least-significant one as nested
directories, most-significant first, then the full decimal id as file name. -/
theorem Path_shards (e : Env) (rp : Option Str) (c : Chunk) (s : Store) (hid : 10000 ≤ c.ID)
    (hmk : e.mkdirErr = false ∨ s.dirs (chunkDir (rootOf e rp) c.ID) = true) :
    (c.Path e rp s).1
      = .ok (TrimSuffix (rootOf e rp) ++ '/' :: List.intercalate ['/'] (shardGroups c.ID).dropLast
          ++ '/' :: FormatUint c.ID) := by
  have hpath : (c.Path e rp s).1 = .ok (chunkPath (rootOf e rp) c.ID) := by
    rcases Path_cases e rp c s with ⟨hlt, _⟩ | ⟨_, hm, hd, _⟩ | ⟨_, s1, hp, _⟩
    · omega
    · rcases hmk with hmk | hmk
      · rw [hmk] at hm; cases hm
      · rw [hmk] at hd; cases hd
    · rw [hp]
  rw [hpath, chunkPath, chunkDir, Join_pathParts]

theorem Path_shards_witness :
    10000 ≤ (123456789 : Nat) ∧
      ((⟨123456789, 0, [], 0, 0⟩ : Chunk).Path exEnv (some exRoot) emptyStore).1
        = .ok (TrimSuffix exRoot ++ '/' :: List.intercalate ['/'] ["123".toList, "456".toList]
            ++ '/' :: "123456789".toList) :=
  ⟨by decide, Path_shards exEnv (some exRoot) ⟨123456789, 0, [], 0, 0⟩ emptyStore (by decide)
    (Or.inl rfl)⟩

/-! ### Creation -/

/-- C7: dedup idempotence. For a content whose digest no row of the index
carries, two consecutive successful `CreateChunkFromBytes` calls (under the same
configured root) return the same chunk; the first call writes the one file, and
the second leaves the store exactly as the first left it. -/
theorem Create_twice (H : Bytes → Str) (e1 e2 : Env) (X : Bytes) (rp : Option Str)
    (s s1 s2 : Store) (c1 c2 : Chunk)
    (hcfg : e2.cfgRoot = e1.cfgRoot)
    (hnew : ∀ r ∈ s.rows, r.Hash ≠ H X)
    (h1 : CreateChunkFromBytes H e1 X rp s = (.ok c1, s1))
    (h2 : CreateChunkFromBytes H e2 X rp s1 = (.ok c2, s2)) :
    c2 = c1 ∧ s2 = s1 ∧ X.length ≤ ChunkSize ∧
      s1.files = (fun q => if q = chunkPath (rootOf e1 rp) c1.ID then some X else s.files q) := by
  have hroot : rootOf e2 rp = rootOf e1 rp := by
    cases rp with
    | none => exact hcfg
    | some r => rfl
  obtain ⟨hlen, hded | hnew1⟩ := Create_ok h1
  · obtain ⟨_, _, _, hch, hh, _⟩ := hded
    exact absurd hh (hnew c1 hch)
  · obtain ⟨hc1, _, _, hrows, _, _, hfiles, _, hdir⟩ := hnew1
    have hc1id : c1.ID = s.nextID := by rw [hc1]
    have hc1h : c1.Hash = H X := by rw [hc1]
    obtain ⟨_, hded | hnew2⟩ := Create_ok h2
    · obtain ⟨_, _, hfind, _, _, _, _, hsame⟩ := hded
      have hfind1 : s1.rows.find? (fun r => decide (r.Hash = H X)) = some c1 := by
        rw [hrows, List.find?_append]
        have : s.rows.find? (fun r => decide (r.Hash = H X)) = none := by
          rw [List.find?_eq_none]
          intro r hr
          simpa using hnew r hr
        rw [this]
        simp [hc1h]
      rw [hfind1] at hfind
      cases hfind
      refine ⟨rfl, ?_, hlen, ?_⟩
      · apply hsame
        rw [hroot, hc1id]
        exact hdir
      · rw [hfiles, hc1id]
    · obtain ⟨_, _, hnd, _⟩ := hnew2
      exact absurd hc1h (hnd c1 (by rw [hrows]; simp))

theorem Create_twice_witness :
    (∀ r ∈ emptyStore.rows, r.Hash ≠ plainDigest [1, 2]) ∧
      (exChunk = exChunk ∧
        (CreateChunkFromBytes plainDigest exEnv [1, 2] (some exRoot) emptyStore).2
          = (CreateChunkFromBytes plainDigest exEnv [1, 2] (some exRoot) emptyStore).2 ∧
        [(1 : UInt8), 2].length ≤ ChunkSize ∧
        (CreateChunkFromBytes plainDigest exEnv [1, 2] (some exRoot) emptyStore).2.files
          = (fun q => if q = chunkPath exRoot exChunk.ID then some [1, 2]
              else emptyStore.files q)) :=
  ⟨by decide, Create_twice plainDigest exEnv exEnv [1, 2] (some exRoot) emptyStore
    (CreateChunkFromBytes plainDigest exEnv [1, 2] (some exRoot) emptyStore).2
    (CreateChunkFromBytes plainDigest exEnv [1, 2] (some exRoot) emptyStore).2
    exChunk exChunk rfl (by decide) (Prod.ext (by decide) rfl) (Prod.ext (by decide) rfl)⟩

/-! ### The capacity checks -/

/-- C8: `AppendBytes` panics with `ErrChunkExceedLimit` exactly when
`len(data) > ChunkSize - c.Size` (in the arithmetic of the Go type `int`, which
is the plain difference for every size from 0 on); the store and the caller's
record are then untouched, and data of length exactly `ChunkSize - c.Size` is
not rejected. -/
theorem AppendBytes_capacity (H : Bytes → Str) (e e2 : Env) (c : Chunk) (p : Bytes)
    (rp : Option Str) (s : Store) :
    ((c.AppendBytes H e e2 p rp s).out = .panic .ChunkExceedLimit ↔
        (p.length : Int) > wrapInt ((ChunkSize : Int) - c.Size)) ∧
    ((p.length : Int) > wrapInt ((ChunkSize : Int) - c.Size) →
        c.AppendBytes H e e2 p rp s = ⟨.panic .ChunkExceedLimit, c, s⟩) ∧
    ((p.length : Int) = wrapInt ((ChunkSize : Int) - c.Size) →
        (c.AppendBytes H e e2 p rp s).out ≠ .panic .ChunkExceedLimit) ∧
    (0 ≤ c.Size → c.Size < 2 ^ 63 →
        wrapInt ((ChunkSize : Int) - c.Size) = (ChunkSize : Int) - c.Size) := by
  have hiff : (c.AppendBytes H e e2 p rp s).out = .panic .ChunkExceedLimit ↔
      (p.length : Int) > wrapInt ((ChunkSize : Int) - c.Size) := by
    constructor
    · intro hout
      by_contra hcap
      rcases AppendBytes_cases H e e2 c p rp s with ⟨h, _⟩ | ⟨_, ⟨x, hx, h⟩ | ⟨_, s1, _, _, _, hrest⟩⟩
      · exact hcap h
      · rw [h] at hout; cases hout; exact hx rfl
      · rcases hrest with ⟨x, _, h⟩ | ⟨old, _, _, hrun⟩
        · rw [h] at hout; cases hout
        · rcases hrun with ⟨x, hx, _, h⟩ | ⟨ch', s2, _, h⟩ | ⟨s2, _, _, hrun⟩
          · rw [h] at hout; cases hout; exact hx rfl
          · rw [h] at hout; cases hout
          · rcases hrun with ⟨_, h⟩ | ⟨_, _, hfork⟩ | ⟨_, _, hin⟩
            · rw [h] at hout; cases hout
            · rcases hfork with ⟨x, s3, _, h⟩ | ⟨x, s3, hcr, h⟩ | ⟨m, s3, _, h⟩
              · rw [h] at hout; cases hout
              · rw [h] at hout; cases hout
                exact Create_panic_ne hcr rfl
              · rw [h] at hout; cases hout
            · rcases hin with ⟨_, h⟩ | ⟨_, k, _, h⟩ | ⟨_, _, ⟨x, _, h⟩ | ⟨c2, s5, _, h⟩⟩
              · rw [h] at hout; cases hout
              · rw [h] at hout; cases hout
              · rw [h] at hout; cases hout
              · rw [h] at hout; cases hout
    · intro hcap
      unfold Chunk.AppendBytes
      simp only [hcap, if_true]
  refine ⟨hiff, ?_, ?_, ?_⟩
  · intro hcap
    unfold Chunk.AppendBytes
    simp only [hcap, if_true]
  · intro heq hout
    have := hiff.1 hout
    omega
  · intro h0 h1
    apply wrapInt_of_range
    · have : ((ChunkSize : Nat) : Int) = 1048576 := by decide
      omega
    · have : ((ChunkSize : Nat) : Int) = 1048576 := by decide
      omega

theorem AppendBytes_capacity_witness :
    ((exChunk.AppendBytes plainDigest exEnv exEnv (List.replicate 1048575 0) (some exRoot)
          (exStore 1)).out = .panic .ChunkExceedLimit ↔
        ((List.replicate 1048575 (0 : UInt8)).length : Int)
          > wrapInt ((ChunkSize : Int) - exChunk.Size)) ∧
      ((List.replicate 1048575 (0 : UInt8)).length : Int)
        > wrapInt ((ChunkSize : Int) - exChunk.Size) ∧
      exChunk.AppendBytes plainDigest exEnv exEnv (List.replicate 1048575 0) (some exRoot)
        (exStore 1) = ⟨.panic .ChunkExceedLimit, exChunk, exStore 1⟩ ∧
      wrapInt ((ChunkSize : Int) - exChunk.Size) = (ChunkSize : Int) - exChunk.Size :=
  have hcap : ((List.replicate 1048575 (0 : UInt8)).length : Int)
      > wrapInt ((ChunkSize : Int) - exChunk.Size) := by
    rw [List.length_replicate]; decide
  ⟨(AppendBytes_capacity plainDigest exEnv exEnv exChunk (List.replicate 1048575 0)
      (some exRoot) (exStore 1)).1, hcap,
    (AppendBytes_capacity plainDigest exEnv exEnv exChunk (List.replicate 1048575 0)
      (some exRoot) (exStore 1)).2.1 hcap,
    (AppendBytes_capacity plainDigest exEnv exEnv exChunk (List.replicate 1048575 0)
      (some exRoot) (exStore 1)).2.2.2 (by decide) (by decide)⟩

/-- C9: the capacity boundary of creation. Content longer than `ChunkSize` is
refused with an error, no chunk and an untouched store. Content of at most
`ChunkSize` bytes is stored whenever the index and the filesystem do not fail
(the lookup, the insert, the creation of the directory and the write), the
index hands out ids from 10000 on, and every row carrying the digest of the
content is a stored chunk of that length (as in a consistent store without
digest collisions): the chunk returned has `Size = len(content)` and
`Hash = digest(content)`. -/
theorem Create_capacity (H : Bytes → Str) (e : Env) (p : Bytes) (rp : Option Str) (s : Store) :
    (p.length > ChunkSize → CreateChunkFromBytes H e p rp s = (.error .SizeTooLarge, s)) ∧
    (p.length ≤ ChunkSize → e.findErr = false → e.createErr = false → e.mkdirErr = false →
      e.writeFileErr = none → 10000 ≤ s.nextID →
      (∀ r ∈ s.rows, r.Hash = H p → r.Size = (p.length : Nat) ∧ 10000 ≤ r.ID ∧
        IsFile s (chunkPath (rootOf e rp) r.ID) = true) →
      ∃ ch s1, CreateChunkFromBytes H e p rp s = (.ok ch, s1) ∧ ch.Size = (p.length : Nat) ∧
        ch.Hash = H p) := by
  constructor
  · intro hlen
    unfold CreateChunkFromBytes
    simp only [hlen, if_true]
  · intro hlen hfe hce hmk hwf hnext hrows
    have hnlen : ¬ p.length > ChunkSize := by omega
    rcases @findStored_calm e rp (H p) s hfe hmk
        (fun r hr hh => (hrows r hr hh).2.1) with
      ⟨hnone, hf⟩ | ⟨ch, s1, hfind, _, ⟨_, hf⟩ | ⟨hfile, _⟩⟩
    · have hnd : ∀ r ∈ s.rows, r.Hash ≠ H p := by
        intro r hr
        simpa using List.find?_eq_none.1 hnone r hr
      rcases createAndWrite_cases e rp { Chunk.zero with Size := (p.length : Nat), Hash := H p } p s with
        ⟨y, _, hc | ⟨r, hr, hh⟩⟩ | ⟨_, ⟨y, _, _, hlt | hm⟩ |
          ⟨_, t2, _, _, ⟨hw, _⟩ | ⟨k, hw, _⟩ | ⟨_, hy⟩⟩⟩
      · rw [hce] at hc; cases hc
      · exact absurd hh (hnd r hr)
      · omega
      · rw [hmk] at hm; cases hm
      · rw [hwf] at hw; cases hw
      · rw [hwf] at hw; cases hw
      · refine ⟨createdRow e { Chunk.zero with Size := (p.length : Nat), Hash := H p } s,
          putFile t2 (chunkPath (rootOf e rp) s.nextID) p, ?_, rfl, rfl⟩
        unfold CreateChunkFromBytes
        simp only [hnlen, if_false, hf]
        exact hy
    · have hmem := List.mem_of_find?_eq_some hfind
      have hh : ch.Hash = H p := by simpa using List.find?_some hfind
      refine ⟨ch, s1, ?_, (hrows ch hmem hh).1, hh⟩
      unfold CreateChunkFromBytes
      simp only [hnlen, if_false, hf]
    · have hmem := List.mem_of_find?_eq_some hfind
      have hh : ch.Hash = H p := by simpa using List.find?_some hfind
      rw [(hrows ch hmem hh).2.2] at hfile
      cases hfile

theorem Create_capacity_witness :
    ((List.replicate (ChunkSize + 1) (0 : UInt8)).length > ChunkSize ∧
      CreateChunkFromBytes plainDigest exEnv (List.replicate (ChunkSize + 1) 0) (some exRoot)
        emptyStore = (.error .SizeTooLarge, emptyStore)) ∧
    ((List.replicate ChunkSize (0 : UInt8)).length ≤ ChunkSize ∧
      ∃ ch s1, CreateChunkFromBytes plainDigest exEnv (List.replicate ChunkSize 0) (some exRoot)
          emptyStore = (.ok ch, s1) ∧
        ch.Size = ((List.replicate ChunkSize (0 : UInt8)).length : Nat) ∧
        ch.Hash = plainDigest (List.replicate ChunkSize 0)) :=
  ⟨⟨by rw [List.length_replicate]; omega,
    (Create_capacity plainDigest exEnv (List.replicate (ChunkSize + 1) 0) (some exRoot)
      emptyStore).1 (by rw [List.length_replicate]; omega)⟩,
   ⟨by rw [List.length_replicate],
    (Create_capacity plainDigest exEnv (List.replicate ChunkSize 0) (some exRoot)
      emptyStore).2 (by rw [List.length_replicate]) rfl rfl rfl rfl (by decide)
      (fun r hr => by cases hr)⟩⟩

/-! ### Errors of `AppendBytes` -/

/-- C10, as stated, fails: when `db.Save` fails on the in-place path,
`AppendBytes` returns the error although the data is already in the chunk file
and the caller's record already carries the new size and hash. -/
theorem AppendBytes_error_after_write :
    (exChunk.AppendBytes plainDigest exEnvSaveFails exEnv [3] (some exRoot) (exStore 1)).out
      = .error .Database ∧
    (exStore 1).files (chunkPath exRoot exChunk.ID) = some [1, 2] ∧
    (exChunk.AppendBytes plainDigest exEnvSaveFails exEnv [3] (some exRoot) (exStore 1)).store.files
      (chunkPath exRoot exChunk.ID) = some [1, 2, 3] ∧
    exChunk.Size = 2 ∧
    (exChunk.AppendBytes plainDigest exEnvSaveFails exEnv [3] (some exRoot) (exStore 1)).record.Size
      = 3 ∧
    (exChunk.AppendBytes plainDigest exEnvSaveFails exEnv [3] (some exRoot) (exStore 1)).record.Hash
      ≠ exChunk.Hash ∧
    (exChunk.AppendBytes plainDigest exEnvSaveFails exEnv [3] (some exRoot) (exStore 1)).store.rows
      = (exStore 1).rows := by
  decide

/-- C10 amended: when `AppendBytes` returns an error for a chunk whose id the
index has handed out, every row of the index is as before (a fork whose file
write failed leaves one new row behind), and either the file of `c` and the
caller's record are as before, or the error comes from the in-place path
(reference count at most 1): the record then carries the new size and hash and
the file of `c` holds its old bytes followed by a prefix of the data. -/
theorem AppendBytes_error (H : Bytes → Str) (e e2 : Env) (c : Chunk) (p : Bytes)
    (rp : Option Str) (s : Store) (x : Err) (hc : c.ID < s.nextID)
    (herr : (c.AppendBytes H e e2 p rp s).out = .error x) :
    ((c.AppendBytes H e e2 p rp s).store.rows = s.rows ∨
      ∃ r, (c.AppendBytes H e e2 p rp s).store.rows = s.rows ++ [r]) ∧
    (((c.AppendBytes H e e2 p rp s).record = c ∧
        (c.AppendBytes H e e2 p rp s).store.files (chunkPath (rootOf e rp) c.ID)
          = s.files (chunkPath (rootOf e rp) c.ID)) ∨
      (s.refs c.ID ≤ 1 ∧ ∃ old k, s.files (chunkPath (rootOf e rp) c.ID) = some old ∧
        (c.AppendBytes H e e2 p rp s).record = grown H c old p ∧
        (c.AppendBytes H e e2 p rp s).store.files (chunkPath (rootOf e rp) c.ID)
          = some (old ++ p.take k))) := by
  rcases AppendBytes_cases H e e2 c p rp s with ⟨_, h⟩ | ⟨_, ⟨y, _, h⟩ | ⟨hid, s1, hsd, _, _, hrest⟩⟩
  · rw [h] at herr; cases herr
  · rw [h] at herr; cases herr
  · rcases hrest with ⟨y, _, h⟩ | ⟨old, _, hold, hrun⟩
    · rw [h]
      exact ⟨Or.inl hsd.1, Or.inl ⟨rfl, by rw [hsd.2.2.2.1]⟩⟩
    · rcases hrun with ⟨y, _, _, h⟩ | ⟨ch', s2, _, h⟩ | ⟨s2, _, hsd2, hrun⟩
      · rw [h] at herr; cases herr
      · rw [h] at herr; cases herr
      · have hsd12 := sameData_trans hsd hsd2
        rcases hrun with ⟨_, h⟩ | ⟨_, _, hfork⟩ | ⟨_, hle, hin⟩
        · rw [h]
          exact ⟨Or.inl hsd12.1, Or.inl ⟨rfl, by rw [hsd12.2.2.2.1]⟩⟩
        · rcases hfork with ⟨y, s3, hcr, h⟩ | ⟨y, s3, _, h⟩ | ⟨m, s3, _, h⟩
          · rw [h]
            obtain ⟨hrows, hfiles⟩ := Create_error hcr
            rw [rootOf_nested, hsd12.2.1] at hfiles
            have hne : chunkPath (rootOf e rp) c.ID ≠ chunkPath (rootOf e rp) s.nextID := by
              intro hq
              have := chunkPath_injective _ hq
              omega
            refine ⟨?_, Or.inl ⟨rfl, ?_⟩⟩
            · rw [hsd12.1] at hrows; exact hrows
            · show s3.files _ = _
              rw [hfiles _ hne, hsd12.2.2.2.1]
          · rw [h] at herr; cases herr
          · rw [h] at herr; cases herr
        · have hrefs : s.refs c.ID ≤ 1 := by rw [← hsd12.2.2.1]; exact hle
          rcases hin with ⟨_, h⟩ | ⟨_, k, _, h⟩ | ⟨_, _, ⟨y, _, h⟩ | ⟨c2, s5, _, h⟩⟩
          · rw [h]
            refine ⟨Or.inl hsd12.1, Or.inr ⟨hrefs, old, 0, hold, rfl, ?_⟩⟩
            show s2.files _ = _
            rw [hsd12.2.2.2.1, hold]; simp
          · rw [h]
            refine ⟨Or.inl hsd12.1, Or.inr ⟨hrefs, old, k, hold, rfl, ?_⟩⟩
            simp [putFile]
          · rw [h]
            refine ⟨Or.inl hsd12.1, Or.inr ⟨hrefs, old, p.length, hold, rfl, ?_⟩⟩
            simp [putFile]
          · rw [h] at herr; cases herr

theorem AppendBytes_error_witness :
    exChunk.ID < (exStore 1).nextID ∧
    (((exChunk.AppendBytes plainDigest exEnvSaveFails exEnv [3] (some exRoot)
          (exStore 1)).store.rows = (exStore 1).rows ∨
      ∃ r, (exChunk.AppendBytes plainDigest exEnvSaveFails exEnv [3] (some exRoot)
          (exStore 1)).store.rows = (exStore 1).rows ++ [r]) ∧
    (((exChunk.AppendBytes plainDigest exEnvSaveFails exEnv [3] (some exRoot)
          (exStore 1)).record = exChunk ∧
        (exChunk.AppendBytes plainDigest exEnvSaveFails exEnv [3] (some exRoot)
          (exStore 1)).store.files (chunkPath exRoot exChunk.ID)
          = (exStore 1).files (chunkPath exRoot exChunk.ID)) ∨
      ((exStore 1).refs exChunk.ID ≤ 1 ∧ ∃ old k,
        (exStore 1).files (chunkPath exRoot exChunk.ID) = some old ∧
        (exChunk.AppendBytes plainDigest exEnvSaveFails exEnv [3] (some exRoot)
          (exStore 1)).record = grown plainDigest exChunk old [3] ∧
        (exChunk.AppendBytes plainDigest exEnvSaveFails exEnv [3] (some exRoot)
          (exStore 1)).store.files (chunkPath exRoot exChunk.ID)
          = some (old ++ List.take k [3])))) :=
  ⟨by decide, AppendBytes_error plainDigest exEnvSaveFails exEnv exChunk [3] (some exRoot)
    (exStore 1) .Database (by decide) (by decide)⟩

/-! ### Reserved ids -/

/-- C11: `Path` panics with `ErrInvalidChunkID` exactly when the id of the chunk
is below 10000, for every root, environment and store; the store is then as it
was (no directory has been created), and ids from 10000 on never raise this
panic. -/
theorem Path_rejects_reserved (e : Env) (rp : Option Str) (c : Chunk) (s : Store) :
    ((c.Path e rp s).1 = .panic .InvalidChunkID ↔ c.ID < 10000) ∧
    (c.ID < 10000 → c.Path e rp s = (.panic .InvalidChunkID, s)) ∧
    (10000 ≤ c.ID → (c.Path e rp s).1 ≠ .panic .InvalidChunkID) := by
  rcases Path_cases e rp c s with ⟨hlt, hp⟩ | ⟨hid, _, _, hp⟩ | ⟨hid, s1, hp, _⟩
  · refine ⟨⟨fun _ => hlt, fun _ => by rw [hp]⟩, fun _ => hp, fun h => by omega⟩
  · refine ⟨⟨fun h => ?_, fun h => by omega⟩, fun h => by omega, fun _ h => ?_⟩
    · rw [hp] at h; cases h
    · rw [hp] at h; cases h
  · refine ⟨⟨fun h => ?_, fun h => by omega⟩, fun h => by omega, fun _ h => ?_⟩
    · rw [hp] at h; cases h
    · rw [hp] at h; cases h

theorem Path_rejects_reserved_witness :
    (9999 : Nat) < 10000 ∧
      (⟨9999, 0, [], 0, 0⟩ : Chunk).Path exEnv (some exRoot) emptyStore
        = (.panic .InvalidChunkID, emptyStore) :=
  ⟨by decide, (Path_rejects_reserved exEnv (some exRoot) ⟨9999, 0, [], 0, 0⟩ emptyStore).2.1
    (by decide)⟩

/-! ### The empty chunk -/

/-- C12: `CreateEmptyContentChunk` is `CreateChunkFromBytes` on the empty
content: from every store, in every environment and for every root, the two
calls give the same outcome and leave the same store. A chunk they return
carries the digest of the empty content, and its size is 0 when every row with
that digest has size 0. -/
theorem CreateEmpty_is_Create_nil (H : Bytes → Str) (e : Env) (rp : Option Str) (s : Store) :
    CreateEmptyContentChunk H e rp s = CreateChunkFromBytes H e [] rp s ∧
    (∀ ch s1, CreateEmptyContentChunk H e rp s = (.ok ch, s1) →
      ch.Hash = H [] ∧ ((∀ r ∈ s.rows, r.Hash = H [] → r.Size = 0) → ch.Size = 0)) := by
  refine ⟨CreateEmpty_eq_Create H e rp s, ?_⟩
  intro ch s1 h
  rw [CreateEmpty_eq_Create] at h
  obtain ⟨_, hded | hnew⟩ := Create_ok h
  · obtain ⟨_, _, _, hmem, hh, _⟩ := hded
    exact ⟨hh, fun hz => hz ch hmem hh⟩
  · obtain ⟨hch, _⟩ := hnew
    rw [hch]
    exact ⟨rfl, fun _ => rfl⟩

theorem CreateEmpty_is_Create_nil_witness :
    CreateEmptyContentChunk plainDigest exEnv (some exRoot) emptyStore
        = CreateChunkFromBytes plainDigest exEnv [] (some exRoot) emptyStore ∧
      (⟨10000, 0, plainDigest [], 7, 7⟩ : Chunk).Hash = plainDigest [] ∧
      (⟨10000, 0, plainDigest [], 7, 7⟩ : Chunk).Size = 0 :=
  ⟨(CreateEmpty_is_Create_nil plainDigest exEnv (some exRoot) emptyStore).1,
    ((CreateEmpty_is_Create_nil plainDigest exEnv (some exRoot) emptyStore).2
      ⟨10000, 0, plainDigest [], 7, 7⟩
      (CreateEmptyContentChunk plainDigest exEnv (some exRoot) emptyStore).2
      (Prod.ext (by decide) rfl)).1,
    ((CreateEmpty_is_Create_nil plainDigest exEnv (some exRoot) emptyStore).2
      ⟨10000, 0, plainDigest [], 7, 7⟩
      (CreateEmptyContentChunk plainDigest exEnv (some exRoot) emptyStore).2
      (Prod.ext (by decide) rfl)).2 (fun r hr => by cases hr)⟩

/-! ### A failed write -/

/-- C17: the dangling row. For content within capacity whose digest no row of
the index carries, when `db.Create` does not fail, the id it hands out is valid
and the directory can be created, a failing `ioutil.WriteFile` makes
`CreateChunkFromBytes` return an error and no chunk, while the index keeps the
new row (the id at the counter, `Size = len(content)`, `Hash = digest(content)`)
after all its former rows. -/
theorem Create_leaves_row (H : Bytes → Str) (e : Env) (p : Bytes) (rp : Option Str) (s : Store)
    (f : WriteFileFault)
    (hlen : p.length ≤ ChunkSize) (hnd : ∀ r ∈ s.rows, r.Hash ≠ H p)
    (hce : e.createErr = false) (hnext : 10000 ≤ s.nextID) (hmk : e.mkdirErr = false)
    (hwf : e.writeFileErr = some f) :
    ∃ s1, CreateChunkFromBytes H e p rp s = (.error .IOFailure, s1) ∧
      s1.rows = s.rows ++ [⟨s.nextID, (p.length : Nat), H p, e.now, e.now⟩] ∧
      s1.nextID = s.nextID + 1 := by
  have hfs : findStored e rp (H p) s = (.ok none, s) := by
    have hnone : s.rows.find? (fun r => decide (r.Hash = H p)) = none := by
      rw [List.find?_eq_none]
      intro r hr
      simpa using hnd r hr
    unfold findStored FindChunkByHash
    by_cases hfe : e.findErr = true
    · simp [hfe]
    · simp [hfe, hnone]
  have hcr : CreateChunkFromBytes H e p rp s
      = createAndWrite e rp { Chunk.zero with Size := (p.length : Nat), Hash := H p } p s := by
    unfold CreateChunkFromBytes
    have hnlen : ¬ p.length > ChunkSize := by omega
    simp only [hnlen, if_false, hfs]
  rw [hcr]
  rcases createAndWrite_cases e rp { Chunk.zero with Size := (p.length : Nat), Hash := H p } p s with
    ⟨y, _, hc | ⟨r, hr, hh⟩⟩ | ⟨_, ⟨y, _, _, hlt | hm⟩ |
      ⟨_, t2, hsd, _, ⟨_, hy⟩ | ⟨k, _, hy⟩ | ⟨hw, _⟩⟩⟩
  · rw [hce] at hc; cases hc
  · exact absurd hh (hnd r hr)
  · omega
  · rw [hmk] at hm; cases hm
  · exact ⟨t2, hy, by rw [hsd.1]; rfl, by rw [hsd.2.1]; rfl⟩
  · refine ⟨_, hy, ?_, ?_⟩
    · show t2.rows = _
      rw [hsd.1]; rfl
    · show t2.nextID = _
      rw [hsd.2.1]; rfl
  · rw [hwf] at hw; cases hw

theorem Create_leaves_row_witness :
    [(1 : UInt8), 2].length ≤ ChunkSize ∧
      ∃ s1, CreateChunkFromBytes plainDigest exEnvWriteFails [1, 2] (some exRoot) emptyStore
          = (.error .IOFailure, s1) ∧
        s1.rows = emptyStore.rows
          ++ [⟨emptyStore.nextID, ([(1 : UInt8), 2].length : Nat), plainDigest [1, 2],
                exEnvWriteFails.now, exEnvWriteFails.now⟩] ∧
        s1.nextID = emptyStore.nextID + 1 :=
  ⟨by decide, Create_leaves_row plainDigest exEnvWriteFails [1, 2] (some exRoot) emptyStore
    .openFails (by decide) (fun r hr => by cases hr) rfl (by decide) rfl rfl⟩

/-! ### Invariant I2 -/

/-- C19: invariant I2. `Path` depends on the id of the chunk only: two records
with the same id get the same outcome in the same store, whatever their size,
hash and timestamps. A successful in-place `AppendBytes` (reference count at
most 1, no stored chunk with the digest of the new content) returns a chunk with
the id of `c`, so with the same path. -/
theorem Path_fixed_by_id (H : Bytes → Str) (e e2 : Env) (rp : Option Str) (s : Store) :
    (∀ c1 c2 : Chunk, c1.ID = c2.ID → c1.Path e rp s = c2.Path e rp s) ∧
    (∀ (c : Chunk) (p old : Bytes) (ch : Chunk) (n : Nat),
      s.files (chunkPath (rootOf e rp) c.ID) = some old → s.refs c.ID ≤ 1 →
      (∀ r ∈ s.rows, r.Hash = H (old ++ p) → IsFile s (chunkPath (rootOf e rp) r.ID) = false) →
      (c.AppendBytes H e e2 p rp s).out = .ok (ch, n) →
      ch.ID = c.ID ∧ chunkPath (rootOf e rp) ch.ID = chunkPath (rootOf e rp) c.ID ∧
        ch.Path e rp (c.AppendBytes H e e2 p rp s).store
          = c.Path e rp (c.AppendBytes H e e2 p rp s).store) := by
  constructor
  · intro c1 c2 h
    unfold Chunk.Path
    rw [h]
  · intro c p old ch n hold hrefs hfresh hok
    obtain ⟨_, hid, _, old', hold', hpath⟩ := AppendBytes_ok hok
    rw [hold] at hold'
    cases hold'
    have hsame : ch.ID = c.ID := by
      rcases hpath with ⟨s1, hsd, hf, _⟩ | ⟨s2, _, hgt, _, _⟩ | ⟨s2, hsd, _, hsave, _⟩
      · exact absurd hf (lookup_fresh hfresh hsd)
      · omega
      · have hne : (grown H c old p).ID ≠ 0 := by show c.ID ≠ 0; omega
        obtain ⟨hc2, _⟩ := dbSave_ok hne hsave
        rw [hc2]; rfl
    refine ⟨hsame, by rw [hsame], ?_⟩
    unfold Chunk.Path
    rw [hsame]

theorem Path_fixed_by_id_witness :
    (exStore 1).refs exChunk.ID ≤ 1 ∧
      ((⟨10000, 3, plainDigest [1, 2, 3], 7, 7⟩ : Chunk).ID = exChunk.ID ∧
        chunkPath exRoot (⟨10000, 3, plainDigest [1, 2, 3], 7, 7⟩ : Chunk).ID
          = chunkPath exRoot exChunk.ID ∧
        (⟨10000, 3, plainDigest [1, 2, 3], 7, 7⟩ : Chunk).Path exEnv (some exRoot)
            (exChunk.AppendBytes plainDigest exEnv exEnv [3] (some exRoot) (exStore 1)).store
          = exChunk.Path exEnv (some exRoot)
            (exChunk.AppendBytes plainDigest exEnv exEnv [3] (some exRoot) (exStore 1)).store) :=
  ⟨by decide, (Path_fixed_by_id plainDigest exEnv exEnv (some exRoot) (exStore 1)).2
    exChunk [3] [1, 2] ⟨10000, 3, plainDigest [1, 2, 3], 7, 7⟩ 1 (by decide) (by decide)
    (by decide) (by decide)⟩

/-! ### The size bound -/

/-- A chunk that `CreateChunkFromBytes` returns keeps the size bound. -/
theorem Create_size {H : Bytes → Str} {e : Env} {p : Bytes} {rp : Option Str} {s s1 : Store}
    {ch : Chunk} (hs : SizesOK s) (hok : CreateChunkFromBytes H e p rp s = (.ok ch, s1)) :
    (0 ≤ ch.Size ∧ ch.Size ≤ (ChunkSize : Int)) ∧ SizesOK s1 := by
  obtain ⟨hlen, hded | hnew⟩ := Create_ok hok
  · obtain ⟨hsd, _, _, hmem, _⟩ := hded
    refine ⟨hs ch hmem, ?_⟩
    intro r hr
    rw [hsd.1] at hr
    exact hs r hr
  · obtain ⟨hch, _, _, hrows, _⟩ := hnew
    have hb : 0 ≤ ch.Size ∧ ch.Size ≤ (ChunkSize : Int) := by
      rw [hch]
      show (0 : Int) ≤ ((p.length : Nat) : Int) ∧ ((p.length : Nat) : Int) ≤ (ChunkSize : Int)
      omega
    refine ⟨hb, ?_⟩
    intro r hr
    rw [hrows] at hr
    rcases List.mem_append.1 hr with hr | hr
    · exact hs r hr
    · have : r = ch := by simpa using hr
      rw [this]; exact hb

/-- C15: the size bound. From a store whose rows all have a size from 0 to
`ChunkSize`, every chunk that a successful `CreateChunkFromBytes`,
`CreateEmptyContentChunk` or `AppendBytes` returns has a size from 0 to
`ChunkSize`, and so has every row of the index afterwards; for `AppendBytes`
the size of the record `c` (a Go `int`) is the length of its file. -/
theorem Size_bound (H : Bytes → Str) (e e2 : Env) (rp : Option Str) (s : Store)
    (hs : SizesOK s) :
    (∀ p ch s1, CreateChunkFromBytes H e p rp s = (.ok ch, s1) →
      (0 ≤ ch.Size ∧ ch.Size ≤ (ChunkSize : Int)) ∧ SizesOK s1) ∧
    (∀ ch s1, CreateEmptyContentChunk H e rp s = (.ok ch, s1) →
      (0 ≤ ch.Size ∧ ch.Size ≤ (ChunkSize : Int)) ∧ SizesOK s1) ∧
    (∀ (c : Chunk) p ch n, c.Size < 2 ^ 63 →
      (∀ old, s.files (chunkPath (rootOf e rp) c.ID) = some old → c.Size = (old.length : Nat)) →
      (c.AppendBytes H e e2 p rp s).out = .ok (ch, n) →
      (0 ≤ ch.Size ∧ ch.Size ≤ (ChunkSize : Int)) ∧ SizesOK (c.AppendBytes H e e2 p rp s).store) := by
  refine ⟨fun p ch s1 h => Create_size hs h, ?_, ?_⟩
  · intro ch s1 h
    rw [CreateEmpty_eq_Create] at h
    exact Create_size hs h
  · intro c p ch n hint hsize hok
    obtain ⟨_, hid, hcap, old, hold, hpath⟩ := AppendBytes_ok hok
    have hs_of : ∀ {t : Store}, SameData s t → SizesOK t := by
      intro t hsd r hr
      rw [hsd.1] at hr
      exact hs r hr
    rcases hpath with ⟨s1, hsd, hf, _⟩ | ⟨s2, hsd, _, hcr, _⟩ | ⟨s2, hsd, _, hsave, _⟩
    · obtain ⟨hsd1, _, _, hmem, _⟩ := findStored_some hf
      rw [hsd.1] at hmem
      exact ⟨hs ch hmem, hs_of (sameData_trans hsd hsd1)⟩
    · exact Create_size (hs_of hsd) hcr
    · have hne : (grown H c old p).ID ≠ 0 := by show c.ID ≠ 0; omega
      obtain ⟨hc2, _, _, _, _, _, _, hrows, _⟩ := dbSave_ok hne hsave
      have hcs := hsize old hold
      have hw : wrapInt ((ChunkSize : Int) - c.Size) = (ChunkSize : Int) - c.Size := by
        apply wrapInt_of_range
        · have : ((ChunkSize : Nat) : Int) = 1048576 := by decide
          omega
        · have : ((ChunkSize : Nat) : Int) = 1048576 := by decide
          omega
      rw [hw] at hcap
      have hb : 0 ≤ ch.Size ∧ ch.Size ≤ (ChunkSize : Int) := by
        rw [hc2]
        show (0 : Int) ≤ (((old ++ p).length : Nat) : Int) ∧
          (((old ++ p).length : Nat) : Int) ≤ (ChunkSize : Int)
        rw [List.length_append]
        push_cast
        omega
      refine ⟨hb, ?_⟩
      intro r hr
      rcases hrows r hr with h | ⟨hr0, _⟩
      · rw [h]; exact hb
      · have hr1 : r ∈ s.rows := by rw [← hsd.1]; exact hr0
        exact hs r hr1

theorem Size_bound_witness :
    SizesOK (exStore 1) ∧
      ((0 ≤ (⟨10000, 3, plainDigest [1, 2, 3], 7, 7⟩ : Chunk).Size ∧
        (⟨10000, 3, plainDigest [1, 2, 3], 7, 7⟩ : Chunk).Size ≤ (ChunkSize : Int)) ∧
        SizesOK (exChunk.AppendBytes plainDigest exEnv exEnv [3] (some exRoot) (exStore 1)).store) :=
  have hs : SizesOK (exStore 1) := by
    intro r hr
    have : r = exChunk := by simpa [exStore] using hr
    rw [this]
    decide
  ⟨hs, (Size_bound plainDigest exEnv exEnv (some exRoot) (exStore 1) hs).2.2 exChunk [3]
    ⟨10000, 3, plainDigest [1, 2, 3], 7, 7⟩ 1 (by decide)
    (fun old h => by
      have h2 : (exStore 1).files (chunkPath exRoot exChunk.ID) = some [1, 2] := by decide
      rw [show rootOf exEnv (some exRoot) = exRoot from rfl, h2] at h
      cases h
      rfl)
    (by decide)⟩

/-! ### The layout on disk -/

/-- C13: the filesystem layout. For every id of 10000 or more, when the shard
directory exists or can be created, `Path` returns the root (without one
trailing separator, so the root itself when it has none), then one or more
shard directories, then the file name. Every shard is a non-empty string of at
most three decimal digits and is one of the shard groups of the id, and the
file name is the decimal rendering of the id: digits only, no extension. -/
theorem Path_layout (e : Env) (rp : Option Str) (c : Chunk) (s : Store) (hid : 10000 ≤ c.ID)
    (hmk : e.mkdirErr = false ∨ s.dirs (chunkDir (rootOf e rp) c.ID) = true) :
    ∃ shards : List Str, shards ≠ [] ∧
      (∀ g ∈ shards, g ≠ [] ∧ g.length ≤ 3 ∧ (∀ ch ∈ g, ch.isDigit = true) ∧
        g ∈ shardGroups c.ID) ∧
      (c.Path e rp s).1
        = .ok (TrimSuffix (rootOf e rp) ++ '/' :: List.intercalate ['/'] shards
            ++ '/' :: FormatUint c.ID) ∧
      (∀ ch ∈ FormatUint c.ID, ch.isDigit = true) ∧
      ((rootOf e rp).getLast? ≠ some '/' → TrimSuffix (rootOf e rp) = rootOf e rp) := by
  have hbig : 1000 ≤ c.ID := by omega
  refine ⟨pathDirs c.ID, ?_, ?_, ?_, FormatUint_isDigit _, ?_⟩
  · rw [pathDirs_large hbig]
    obtain ⟨r0, rs, _, _, _, heq⟩ := shardGroups_shape (c.ID / 1000)
    rw [heq]
    simp
  · intro g hg
    rw [pathDirs_large hbig] at hg
    obtain ⟨h1, h2, h3⟩ := shardGroups_group _ g hg
    refine ⟨h1, h2, h3, ?_⟩
    rw [shardGroups_step hbig]
    exact List.mem_append.2 (Or.inl hg)
  · rw [Path_value hid hmk, chunkPath_dirs]
  · intro h
    unfold TrimSuffix
    simp [h]

theorem Path_layout_witness :
    10000 ≤ exChunk.ID ∧
      ∃ shards : List Str, shards ≠ [] ∧
        (∀ g ∈ shards, g ≠ [] ∧ g.length ≤ 3 ∧ (∀ ch ∈ g, ch.isDigit = true) ∧
          g ∈ shardGroups exChunk.ID) ∧
        (exChunk.Path exEnv (some exRoot) emptyStore).1
          = .ok (TrimSuffix (rootOf exEnv (some exRoot)) ++ '/' :: List.intercalate ['/'] shards
              ++ '/' :: FormatUint exChunk.ID) ∧
        (∀ ch ∈ FormatUint exChunk.ID, ch.isDigit = true) ∧
        ((rootOf exEnv (some exRoot)).getLast? ≠ some '/' →
          TrimSuffix (rootOf exEnv (some exRoot)) = rootOf exEnv (some exRoot)) :=
  ⟨by decide, Path_layout exEnv (some exRoot) exChunk emptyStore (by decide) (Or.inl rfl)⟩

/-! ### Directory fan-out -/

/-- C18, as stated, fails: the directory `10` below the root holds the 1000 chunk
files 10000 to 10999 and the 1000 shard directories 000 to 999 (of the ids
10000000 to 10999999): 2000 distinct names. -/
theorem fanout_exceeds_1000 :
    exNames.Nodup ∧ exNames.length = 2000 ∧ (∀ n ∈ exNames, EntryBelow [FormatUint 10] n) ∧
      FileBelow ["10".toList] "10000".toList ∧ DirBelow ["10".toList] "000".toList := by
  have hsg : shardGroups 10 = [FormatUint 10] := shardGroups_small (by decide)
  have hfile : ∀ i, i < 1000 → FileBelow [FormatUint 10] (FormatUint (10000 + i)) := by
    intro i hi
    refine ⟨10000 + i, by omega, ?_⟩
    unfold pathComponents
    rw [pathDirs_large (by omega), show (10000 + i) / 1000 = 10 by omega, hsg]
  have hdir : ∀ j, j < 1000 → DirBelow [FormatUint 10] (pad3 j) := by
    intro j hj
    refine ⟨10000000 + 1000 * j, by omega, ?_⟩
    rw [pathDirs_large (by omega), show (10000000 + 1000 * j) / 1000 = 10000 + j by omega,
      shardGroups_step (by omega), show (10000 + j) / 1000 = 10 by omega,
      show (10000 + j) % 1000 = j by omega, hsg]
  refine ⟨?_, by simp [exNames], ?_, hfile 0 (by decide), hdir 0 (by decide)⟩
  · unfold exNames
    rw [List.nodup_append]
    refine ⟨?_, ?_, ?_⟩
    · apply List.Nodup.map _ (List.nodup_range 1000)
      intro a b hab
      have := FormatUint_injective hab
      omega
    · apply List.Nodup.map_on _ (List.nodup_range 1000)
      intro x hx y hy hxy
      have := congrArg digitsVal hxy
      rwa [digitsVal_pad3 (List.mem_range.1 hx), digitsVal_pad3 (List.mem_range.1 hy)] at this
    · intro n h1 h2
      obtain ⟨i, _, rfl⟩ := List.mem_map.1 h1
      obtain ⟨j, hj, hij⟩ := List.mem_map.1 h2
      have := congrArg digitsVal hij
      rw [digitsVal_pad3 (List.mem_range.1 hj), digitsVal_FormatUint] at this
      have := List.mem_range.1 hj
      omega
  · intro n hn
    unfold exNames at hn
    rcases List.mem_append.1 hn with h | h
    · obtain ⟨i, hi, rfl⟩ := List.mem_map.1 h
      exact Or.inr (hfile i (List.mem_range.1 hi))
    · obtain ⟨j, hj, rfl⟩ := List.mem_map.1 h
      exact Or.inl (hdir j (List.mem_range.1 hj))

/-- C18 amended: under the layout of `Chunk.Path`, over the paths of all chunk
ids from 10000 on, every directory has at most 1000 distinct shard
sub-directories and at most 1000 distinct chunk files, so at most 2000 distinct
entries. -/
theorem fanout_bound (pre : List Str) (names : List Str) (hnd : names.Nodup) :
    ((∀ n ∈ names, DirBelow pre n) → names.length ≤ 1000) ∧
    ((∀ n ∈ names, FileBelow pre n) → names.length ≤ 1000) ∧
    ((∀ n ∈ names, EntryBelow pre n) → names.length ≤ 2000) := by
  refine ⟨dirs_below_bound hnd, files_below_bound hnd, ?_⟩
  intro h
  classical
  have hlen := List.length_eq_countP_add_countP (fun n => decide (DirBelow pre n)) names
  rw [List.countP_eq_length_filter, List.countP_eq_length_filter] at hlen
  have h1 : (names.filter (fun n => decide (DirBelow pre n))).length ≤ 1000 := by
    apply dirs_below_bound (hnd.filter _)
    intro n hn
    simpa using (List.mem_filter.1 hn).2
  have h2 : (names.filter (fun n => decide ¬(decide (DirBelow pre n)) = true)).length ≤ 1000 := by
    apply files_below_bound (hnd.filter _)
    intro n hn
    obtain ⟨hmem, hnot⟩ := List.mem_filter.1 hn
    have hnot' : ¬ DirBelow pre n := by simpa using hnot
    rcases h n hmem with hd | hf
    · exact absurd hd hnot'
    · exact hf
  omega

theorem fanout_bound_witness :
    ["000".toList, "10000".toList].Nodup ∧
      (∀ n ∈ ["000".toList, "10000".toList], EntryBelow ["10".toList] n) ∧
      ["000".toList, "10000".toList].length ≤ 2000 :=
  have hall : ∀ n ∈ ["000".toList, "10000".toList], EntryBelow ["10".toList] n := by
    intro n hn
    simp only [List.mem_cons, List.mem_singleton, List.not_mem_nil, or_false] at hn
    rcases hn with rfl | rfl
    · exact Or.inl ⟨10000000, by decide, by decide⟩
    · exact Or.inr ⟨10000, by decide, by decide⟩
  ⟨by decide, hall,
    (fanout_bound ["10".toList] ["000".toList, "10000".toList] (by decide)).2.2 hall⟩

/-! ### Chunks with the same bytes -/

/-- C14, as stated, fails: from the empty store, create a chunk from the bytes
1, 2; append the byte 3 in place while `db.Save` fails (the call returns the
error, the file already holds 1, 2, 3); create a chunk from the bytes 1, 2, 3.
The index then has the chunks 10000 and 10001, and their files hold the same
bytes. -/
theorem identical_files_after_error :
    Reachable plainDigest exRoot false exStoreDrift ∧
    exStoreDrift.rows = [exChunk, exChunk2] ∧ exChunk.ID ≠ exChunk2.ID ∧
    exStoreDrift.files (chunkPath exRoot exChunk.ID) = some [1, 2, 3] ∧
    exStoreDrift.files (chunkPath exRoot exChunk2.ID) = some [1, 2, 3] :=
  ⟨Reachable.create _ exEnv [1, 2, 3] (some exRoot)
      (Reachable.append _ exEnvSaveFails exEnv exChunk [3] (some exRoot)
        (Reachable.create _ exEnv [1, 2] (some exRoot)
          (Reachable.empty 10000 (fun _ => 0) (fun _ => false)) rfl (fun h => by cases h))
        rfl (fun h => by cases h))
      rfl (fun h => by cases h),
    by decide, by decide, by decide, by decide⟩

/-- C14 amended: in every store reachable from the empty store through any calls
of the three operations, successful or not, no two rows of the index carry the
same hash or the same id; and in every store reached through successful calls
only, two chunks of the index with distinct ids have their files on disk with
different content. -/
theorem distinct_chunks (H : Bytes → Str) (root : Str) (okOnly : Bool) (s : Store)
    (hr : Reachable H root okOnly s) :
    s.rows.Pairwise (fun a b => a.ID ≠ b.ID ∧ a.Hash ≠ b.Hash) ∧
    (okOnly = true → ∀ r1 ∈ s.rows, ∀ r2 ∈ s.rows, r1.ID ≠ r2.ID →
      s.files (chunkPath root r1.ID) ≠ none ∧
      s.files (chunkPath root r1.ID) ≠ s.files (chunkPath root r2.ID)) := by
  have hidx := reachable_indexOK hr
  refine ⟨hidx.1, ?_⟩
  intro hok r1 h1 r2 h2 hne
  subst hok
  have hcons := reachable_consistent hr
  obtain ⟨b1, hb1, _, hH1⟩ := rowOK_iff.1 (hcons r1 h1)
  obtain ⟨b2, hb2, _, hH2⟩ := rowOK_iff.1 (hcons r2 h2)
  refine ⟨by rw [hb1]; simp, ?_⟩
  intro hfiles
  rw [hb1, hb2] at hfiles
  have hb : b1 = b2 := by simpa using hfiles
  have hsym : Symmetric (fun a b : Chunk => a.ID ≠ b.ID ∧ a.Hash ≠ b.Hash) :=
    fun a b h => ⟨fun hh => h.1 hh.symm, fun hh => h.2 hh.symm⟩
  have hdiff := hidx.1.forall hsym h1 h2 (fun hh => hne (by rw [hh]))
  apply hdiff.2
  rw [← hH1, ← hH2, hb]

theorem distinct_chunks_witness :
    Reachable plainDigest exRoot true exStoreTwo ∧
      (exStoreTwo.rows.Pairwise (fun a b => a.ID ≠ b.ID ∧ a.Hash ≠ b.Hash) ∧
        (true = true → ∀ r1 ∈ exStoreTwo.rows, ∀ r2 ∈ exStoreTwo.rows, r1.ID ≠ r2.ID →
          exStoreTwo.files (chunkPath exRoot r1.ID) ≠ none ∧
          exStoreTwo.files (chunkPath exRoot r1.ID)
            ≠ exStoreTwo.files (chunkPath exRoot r2.ID))) :=
  have hr : Reachable plainDigest exRoot true exStoreTwo :=
    Reachable.create _ exEnv [1, 2, 3] (some exRoot)
      (Reachable.create _ exEnv [1, 2] (some exRoot)
        (Reachable.empty 10000 (fun _ => 0) (fun _ => false)) rfl
        (fun _ => ⟨exChunk, by decide⟩))
      rfl (fun _ => ⟨exChunk2, by decide⟩)
  ⟨hr, distinct_chunks plainDigest exRoot true exStoreTwo hr⟩

/-! ### The database connection -/

/-- C20 fails on the code: with a configuration whose `DSN()` fails, the first
`NewConnection` returns the error and no connection; every later call finds
`once` done, so `NewConnection` returns a nil connection with a nil error and
`MustNewConnection` returns the nil connection without a panic. -/
theorem MustNewConnection_nil_after_failure :
    NewConnection exOpen exBadConfig (some exBadConfig) connInit
      = ((none, some .DSNFailed), ⟨true, none⟩) ∧
    NewConnection exOpen exBadConfig (some exBadConfig) ⟨true, none⟩
      = ((none, none), ⟨true, none⟩) ∧
    MustNewConnection exOpen exBadConfig (some exBadConfig) ⟨true, none⟩
      = (.conn none, ⟨true, none⟩) ∧
    MustNewConnection exOpen exBadConfig (some exBadConfig) connInit
      = (.panic .DSNFailed, ⟨true, none⟩) := by
  decide

/-! ### Serialized appends to one chunk -/

/-- C16: serialized appends. Take a chunk of an index that keeps its constraints
(distinct ids and hashes, counter above the ids), referenced by at most one
object, whose record agrees with the disk (its file holds `old`, its size and
hash are those of `old`), and a list of calls under one root such that no other
row carries the digest of an intermediate content and the digest tells an
intermediate content from the next one unless the payload is empty. Then a run
of the `AppendBytes` calls, one at a time in this order, that returns leaves the
same chunk id, the initial size plus the lengths of all payloads, and as hash
and file content the initial content followed by the payloads in this order;
and the run does return when the environments are calm, the id is valid and the
total length fits the capacity. -/
theorem serialized_appends (H : Bytes → Str) (rp : Option Str) (root : Str)
    (calls : List AppendCall) (c : Chunk) (s : Store) (old : Bytes)
    (hroot : ∀ call ∈ calls, rootOf call.e rp = root)
    (hmem : c ∈ s.rows) (hidx : IndexOK s) (hrefs : s.refs c.ID ≤ 1)
    (hold : s.files (chunkPath root c.ID) = some old)
    (hsize : c.Size = (old.length : Nat)) (hhash : c.Hash = H old)
    (hother : ∀ r ∈ s.rows, r.ID ≠ c.ID → ∀ pre, pre <+: payloads calls → pre ≠ [] →
      r.Hash ≠ H (old ++ pre.flatten))
    (hcoll : ∀ pre q, (pre ++ [q]) <+: payloads calls →
      H (old ++ pre.flatten) = H (old ++ pre.flatten ++ q) → q = []) :
    (∀ c' s', appendAll H rp calls c s = some (c', s') →
      c'.ID = c.ID ∧ c'.Size = c.Size + (totalLength calls : Nat) ∧
      c'.Hash = H (old ++ (payloads calls).flatten) ∧
      s'.files (chunkPath root c.ID) = some (old ++ (payloads calls).flatten)) ∧
    ((∀ call ∈ calls, Calm call.e) → 10000 ≤ c.ID → old.length + totalLength calls ≤ ChunkSize →
      ∃ c' s', appendAll H rp calls c s = some (c', s')) :=
  appendAll_spec calls c s old hroot hmem hidx hrefs hold hsize hhash hother hcoll

theorem serialized_appends_witness :
    (exStore 1).refs exChunk.ID ≤ 1 ∧
      ∃ c' s', appendAll plainDigest (some exRoot) exCalls exChunk (exStore 1) = some (c', s') ∧
        c'.ID = exChunk.ID ∧ c'.Size = exChunk.Size + (totalLength exCalls : Nat) ∧
        c'.Hash = plainDigest ([1, 2] ++ (payloads exCalls).flatten) ∧
        s'.files (chunkPath exRoot exChunk.ID) = some ([1, 2] ++ (payloads exCalls).flatten) :=
  have hcalm : ∀ call ∈ exCalls, Calm call.e := by
    intro call hc
    simp only [exCalls, List.mem_cons, List.mem_singleton, List.not_mem_nil, or_false] at hc
    rcases hc with rfl | rfl <;> exact ⟨rfl, rfl, rfl, rfl, rfl, rfl, rfl, rfl, rfl⟩
  have hroot : ∀ call ∈ exCalls, rootOf call.e (some exRoot) = exRoot := fun _ _ => rfl
  have hT := serialized_appends plainDigest (some exRoot) exRoot exCalls exChunk (exStore 1)
    [1, 2] hroot (by decide) ⟨List.pairwise_singleton _ _, by decide⟩ (by decide) (by decide)
    (by decide) rfl
    (fun r hr hrid => by
      have : r = exChunk := by simpa [exStore] using hr
      exact absurd (by rw [this]) hrid)
    (fun pre q _ hh => by
      have := plainDigest_injective hh
      simpa using this)
  ⟨by decide,
    match hT.2 hcalm (by decide) (by decide) with
    | ⟨c', s', h⟩ => ⟨c', s', h, hT.1 c' s' h⟩⟩

/-! ### One file per chunk -/

/-- A path that `Path` returns is the path of the id under the root. -/
theorem Path_ok_eq {e : Env} {rp : Option Str} {c : Chunk} {s : Store} {p : Str}
    (h : (c.Path e rp s).1 = .ok p) : p = chunkPath (rootOf e rp) c.ID := by
  rcases Path_cases e rp c s with ⟨_, hp⟩ | ⟨_, _, _, hp⟩ | ⟨_, s1, hp, _⟩
  · rw [hp] at h; cases h
  · rw [hp] at h; cases h
  · rw [hp] at h; cases h; rfl

/-- C21: `Path` is injective in the id. For every root and two chunks with
distinct ids, both 10000 or more, the paths of the two ids differ; so any two
paths that `Path` returns for them differ, in whatever stores, and when the
directories can be created `Path` returns for both, with different outcomes. -/
theorem Path_injective (e : Env) (rp : Option Str) (c1 c2 : Chunk) (s1 s2 : Store)
    (h1 : 10000 ≤ c1.ID) (h2 : 10000 ≤ c2.ID) (hne : c1.ID ≠ c2.ID) :
    chunkPath (rootOf e rp) c1.ID ≠ chunkPath (rootOf e rp) c2.ID ∧
    (∀ p1 p2, (c1.Path e rp s1).1 = .ok p1 → (c2.Path e rp s2).1 = .ok p2 → p1 ≠ p2) ∧
    (e.mkdirErr = false →
      (c1.Path e rp s1).1 = .ok (chunkPath (rootOf e rp) c1.ID) ∧
      (c2.Path e rp s2).1 = .ok (chunkPath (rootOf e rp) c2.ID) ∧
      (c1.Path e rp s1).1 ≠ (c2.Path e rp s2).1) := by
  have hinj : chunkPath (rootOf e rp) c1.ID ≠ chunkPath (rootOf e rp) c2.ID :=
    fun h => hne (chunkPath_injective _ h)
  refine ⟨hinj, ?_, ?_⟩
  · intro p1 p2 hp1 hp2 h
    rw [Path_ok_eq hp1, Path_ok_eq hp2] at h
    exact hinj h
  · intro hmk
    have hv1 := @Path_value e rp c1 s1 h1 (Or.inl hmk)
    have hv2 := @Path_value e rp c2 s2 h2 (Or.inl hmk)
    refine ⟨hv1, hv2, ?_⟩
    rw [hv1, hv2]
    intro h
    exact hinj (Outcome.ok.inj h)

theorem Path_injective_witness :
    exChunk.ID ≠ exChunk2.ID ∧
      (exChunk.Path exEnv (some exRoot) emptyStore).1 = .ok "root/10/10000".toList ∧
      (exChunk2.Path exEnv (some exRoot) emptyStore).1 = .ok "root/10/10001".toList ∧
      (exChunk.Path exEnv (some exRoot) emptyStore).1
        ≠ (exChunk2.Path exEnv (some exRoot) emptyStore).1 :=
  ⟨by decide, (Path_injective exEnv (some exRoot) exChunk exChunk2 emptyStore emptyStore
    (by decide) (by decide) (by decide)).2.2 rfl⟩

/-! ### Appending nothing -/

/-- C22: appending nothing is the identity. For a chunk of the index whose hash
no other row carries, whose record agrees with the disk (the file holds `old`,
of at most `ChunkSize` bytes, the size and the hash are those of `old`) and
whose directory exists, when the read and the index lookup do not fail,
`AppendBytes` with empty data returns the chunk `c` itself and the byte count 0
without error, whatever the reference count is, and leaves the caller's record
and the whole store (every file, every row) as they were. -/
theorem AppendBytes_nil (H : Bytes → Str) (e e2 : Env) (c : Chunk) (old : Bytes)
    (rp : Option Str) (s : Store)
    (hfe : e.findErr = false) (hre : e.readErr = false)
    (hmem : c ∈ s.rows) (huniq : ∀ r ∈ s.rows, r.Hash = c.Hash → r = c)
    (hcid : 10000 ≤ c.ID) (hcdir : s.dirs (chunkDir (rootOf e rp) c.ID) = true)
    (hold : s.files (chunkPath (rootOf e rp) c.ID) = some old)
    (hsize : c.Size = (old.length : Nat)) (hfit : old.length ≤ ChunkSize)
    (hhash : c.Hash = H old) :
    c.AppendBytes H e e2 [] rp s = ⟨.ok (c, 0), c, s⟩ := by
  have hw : wrapInt ((ChunkSize : Int) - c.Size) = (ChunkSize : Int) - c.Size := by
    apply wrapInt_of_range
    · have : ((ChunkSize : Nat) : Int) = 1048576 := by decide
      omega
    · have : ((ChunkSize : Nat) : Int) = 1048576 := by decide
      omega
  have hcap : ¬ ((0 : Nat) : Int) > wrapInt ((ChunkSize : Int) - c.Size) := by
    rw [hw, hsize]
    omega
  have hfile : IsFile s (chunkPath (rootOf e rp) c.ID) = true := by
    simp [IsFile, hold]
  have hfs : findStored e rp (H (old ++ [])) s = (.ok (some c), s) := by
    apply findStored_found hfe _ hcid hcdir hfile
    rw [List.append_nil, ← hhash]
    exact find_unique hmem huniq
  unfold Chunk.AppendBytes
  simp only [List.length_nil, hcap, if_false, Path_of_dir hcid hcdir, ReadFile, hre,
    Bool.false_eq_true, hold, hfs]

theorem AppendBytes_nil_witness :
    exChunk ∈ (exStore 5).rows ∧
      exChunk.AppendBytes plainDigest exEnv exEnv [] (some exRoot) (exStore 5)
        = ⟨.ok (exChunk, 0), exChunk, exStore 5⟩ :=
  ⟨by decide, AppendBytes_nil plainDigest exEnv exEnv exChunk [1, 2] (some exRoot) (exStore 5)
    rfl rfl (by decide) (by decide) (by decide) (by decide) (by decide) (by decide) (by decide)
    rfl⟩

/-! ### The errors of a response -/

theorem mapFieldLoop_some (xs : List ValidateError) (m : ErrMap) :
    mapFieldLoop (xs.map some) m
      = .ret (xs.foldl (fun m x => m.set x.Field [x.Error]) m) := by
  induction xs generalizing m with
  | nil => rfl
  | cons x xs ih =>
    simp only [List.map_cons, mapFieldLoop, List.foldl_cons]
    exact ih _

theorem setAll_untouched (xs : List ValidateError) (m : ErrMap) (k : Str)
    (h : ∀ y ∈ xs, y.Field ≠ k) :
    xs.foldl (fun m x => m.set x.Field [x.Error]) m k = m k := by
  induction xs generalizing m with
  | nil => rfl
  | cons x xs ih =>
    rw [List.foldl_cons, ih _ (fun y hy => h y (List.mem_cons_of_mem _ hy))]
    have hx : k ≠ x.Field := fun hk => h x (List.mem_cons_self _ _) hk.symm
    simp only [ErrMap.set, hx, if_false]

theorem setAll_keys (xs : List ValidateError) (m : ErrMap) (k : Str) :
    (xs.foldl (fun m x => m.set x.Field [x.Error]) m k).isSome = true
      ↔ (m k).isSome = true ∨ ∃ x ∈ xs, x.Field = k := by
  induction xs generalizing m with
  | nil => simp
  | cons x xs ih =>
    rw [List.foldl_cons, ih]
    by_cases hk : k = x.Field
    · subst hk
      simp [ErrMap.set]
    · have hk2 : ¬ x.Field = k := fun h => hk h.symm
      simp [ErrMap.set, hk, hk2]

theorem setAll_single (xs : List ValidateError) (m : ErrMap)
    (hm : ∀ k l, m k = some l → l.length = 1) :
    ∀ k l, xs.foldl (fun m x => m.set x.Field [x.Error]) m k = some l → l.length = 1 := by
  induction xs generalizing m with
  | nil => exact hm
  | cons x xs ih =>
    rw [List.foldl_cons]
    apply ih
    intro k l h
    unfold ErrMap.set at h
    split at h
    · cases h
      rfl
    · exact hm k l h

theorem setAll_last (pre post : List ValidateError) (x : ValidateError) (m : ErrMap)
    (h : ∀ y ∈ post, y.Field ≠ x.Field) :
    (pre ++ x :: post).foldl (fun m x => m.set x.Field [x.Error]) m x.Field
      = some [x.Error] := by
  rw [List.foldl_append, List.foldl_cons, setAll_untouched post _ _ h]
  simp only [ErrMap.set, if_true]

/-- C23: `generateErrors` returns nil for the nil error; for a `ValidateErrors`
value it returns exactly what `MapFieldErrors` of that value returns, whatever
the key; for every other error it returns a map whose only key is the given
key, or `system` when the given key is empty, and whose value under that key is
the one-element list of the message of the error. -/
theorem generateErrors_spec :
    (∀ key, generateErrors none key = .ret none) ∧
    (∀ v key, generateErrors (some (.validateErrors v)) key
      = (ValidateErrors.MapFieldErrors v).bind (fun m => .ret (some m))) ∧
    (∀ (xs : List ValidateError) key m, ValidateErrors.MapFieldErrors (xs.map some) = .ret m →
      generateErrors (some (.validateErrors (xs.map some))) key = .ret (some m)) ∧
    (∀ msg key, ∃ m, generateErrors (some (.other msg)) key = .ret (some m) ∧
      (∀ k, m k = if k = (if key = [] then "system".toList else key) then some [msg] else none) ∧
      (∀ k, (m k).isSome = true ↔ k = (if key = [] then "system".toList else key))) ∧
    (∃ m, generateErrors (some (.other "record not found".toList)) [] = .ret (some m) ∧
      m "system".toList = some ["record not found".toList]) := by
  refine ⟨fun _ => rfl, fun _ _ => rfl, ?_, ?_, ⟨_, rfl, by decide⟩⟩
  · intro xs key m h
    simp only [generateErrors, h, Run.bind]
  · intro msg key
    refine ⟨_, rfl, fun k => rfl, fun k => ?_⟩
    simp only [ErrMap.set, ErrMap.empty]
    split <;> simp_all

theorem generateErrors_spec_witness :
    ∃ m, ValidateErrors.MapFieldErrors (exDistinct.map some) = .ret m ∧
      generateErrors (some (.validateErrors (exDistinct.map some))) "file".toList
        = .ret (some m) :=
  ⟨_, rfl, generateErrors_spec.2.2.1 exDistinct _ _ rfl⟩

/-- C24, as stated, fails: a request whose token check and access check both
fail makes `FileUpdate.Validate` return two errors of the field
`FileUpdate.Token`; `MapFieldErrors` stores under that field the message of the
second only, so the message of the first is in no list of the map. -/
theorem MapFieldErrors_keeps_last :
    (∀ opMsg, FileUpdate.Validate opMsg exUpdate = .ret (exErrors.map some)) ∧
    exErrors.map ValidateError.Error
      = ["token is expired".toList, "file can not be accessed by the token".toList] ∧
    exErrors.map (fun x => x.Field) = ["FileUpdate.Token".toList, "FileUpdate.Token".toList] ∧
    (∃ m, ValidateErrors.MapFieldErrors (exErrors.map some) = .ret m ∧
      m "FileUpdate.Token".toList = some ["file can not be accessed by the token".toList] ∧
      ¬ (∀ x ∈ exErrors, ∃ l, m x.Field = some l ∧ x.Error ∈ l)) := by
  refine ⟨fun _ => rfl, by decide, by decide, ⟨_, rfl, by decide, ?_⟩⟩
  intro h
  obtain ⟨l, hl, hmem⟩ := h ⟨[], "FileUpdate.Token".toList, 10025, some "token is expired".toList⟩
    (by decide)
  have hm : ErrMap.set (ErrMap.set ErrMap.empty "FileUpdate.Token".toList ["token is expired".toList])
      "FileUpdate.Token".toList ["file can not be accessed by the token".toList]
      "FileUpdate.Token".toList
      = some ["file can not be accessed by the token".toList] := by decide
  have hl2 : some ["file can not be accessed by the token".toList] = some l := hm.symm.trans hl
  cases hl2
  revert hmem
  decide

/-- C24 amended: for every list of errors without a nil element,
`MapFieldErrors` returns a map whose keys are exactly the fields of the list
and whose values are one-element lists; under the field of an element that no
later element shares the field with, the map holds the message of that element.
So every message is in the map when the fields are pairwise distinct. -/
theorem MapFieldErrors_last_wins (xs : List ValidateError) :
    ∃ m, ValidateErrors.MapFieldErrors (xs.map some) = .ret m ∧
      (∀ k, (m k).isSome = true ↔ ∃ x ∈ xs, x.Field = k) ∧
      (∀ k l, m k = some l → l.length = 1) ∧
      (∀ pre x post, xs = pre ++ x :: post → (∀ y ∈ post, y.Field ≠ x.Field) →
        m x.Field = some [x.Error]) ∧
      (xs.Pairwise (fun a b => a.Field ≠ b.Field) → ∀ x ∈ xs, m x.Field = some [x.Error]) := by
  have hlast : ∀ pre x post, xs = pre ++ x :: post → (∀ y ∈ post, y.Field ≠ x.Field) →
      xs.foldl (fun m x => m.set x.Field [x.Error]) ErrMap.empty x.Field = some [x.Error] := by
    intro pre x post hxs hpost
    rw [hxs]
    exact setAll_last pre post x _ hpost
  refine ⟨_, mapFieldLoop_some xs ErrMap.empty, ?_, ?_, hlast, ?_⟩
  · intro k
    rw [setAll_keys]
    simp [ErrMap.empty]
  · exact setAll_single xs _ (fun k l h => by cases h)
  · intro hpw x hx
    obtain ⟨pre, post, hxs⟩ := List.append_of_mem hx
    refine hlast pre x post hxs ?_
    rw [hxs, List.pairwise_append] at hpw
    intro y hy hyx
    exact (List.pairwise_cons.1 hpw.2.1).1 y hy hyx.symm

theorem MapFieldErrors_last_wins_witness :
    exDistinct.Pairwise (fun a b => a.Field ≠ b.Field) ∧
    ∃ m, ValidateErrors.MapFieldErrors (exDistinct.map some) = .ret m ∧
      m "FileUpdate.Token".toList = some ["token is expired".toList] ∧
      m "FileUpdate.Path".toList
        = some ["code: 10028, field: FileUpdate.Path, validate error: file is required".toList] := by
  obtain ⟨m, hm, _, _, _, hd⟩ := MapFieldErrors_last_wins exDistinct
  have hpw : exDistinct.Pairwise (fun a b => a.Field ≠ b.Field) := by
    simp [exDistinct]
  exact ⟨hpw, m, hm,
    hd hpw ⟨[], "FileUpdate.Token".toList, 10025, some "token is expired".toList⟩ (by decide),
    hd hpw ⟨"file is required".toList, "FileUpdate.Path".toList, 10028, none⟩ (by decide)⟩

/-! ### The predefined errors of `FileUpdate` -/

theorem preDefined_Token (opMsg : Str) :
    preDefined opMsg "FileUpdate.Token".toList
      = some ⟨"token is required".toList, "FileUpdate.Token".toList, 10025, none⟩ := rfl

theorem preDefined_File (opMsg : Str) :
    preDefined opMsg "FileUpdate.File".toList
      = some ⟨"file is required".toList, "FileUpdate.Token".toList, 10026, none⟩ := rfl

theorem preDefined_Hidden (opMsg : Str) :
    preDefined opMsg "FileUpdate.Hidden".toList
      = some ⟨"file is required".toList, "FileUpdate.Hidden".toList, 10027, none⟩ := rfl

theorem preDefined_Path (opMsg : Str) :
    preDefined opMsg "FileUpdate.Path".toList
      = some ⟨"file is required".toList, "FileUpdate.Path".toList, 10028, none⟩ := rfl

theorem appendGenerated_found (opMsg : Str) (v : ValidateErrors) (field err : Str)
    (entry : ValidateError) (h : preDefined opMsg field = some entry) :
    appendGenerated opMsg v field err
      = .ret (v ++ [some ⟨[], field, entry.Code, some err⟩]) := by
  simp only [appendGenerated, generateErrorByField, h, Run.bind]

/-- C25: the table of predefined errors has an entry for each of the keys
`FileUpdate.Token`, `FileUpdate.File`, `FileUpdate.Hidden` and
`FileUpdate.Path`; for a key that has an entry `generateErrorByField` returns
the error with the code of the entry, the given field and the given wrapped
error, so it does for the three keys `FileUpdate.Validate` passes, and
`FileUpdate.Validate` returns without a nil-pointer panic for every request. -/
theorem FileUpdate_lookups (opMsg : Str) :
    (preDefined opMsg "FileUpdate.Token".toList
        = some ⟨"token is required".toList, "FileUpdate.Token".toList, 10025, none⟩ ∧
      preDefined opMsg "FileUpdate.File".toList
        = some ⟨"file is required".toList, "FileUpdate.Token".toList, 10026, none⟩ ∧
      preDefined opMsg "FileUpdate.Hidden".toList
        = some ⟨"file is required".toList, "FileUpdate.Hidden".toList, 10027, none⟩ ∧
      preDefined opMsg "FileUpdate.Path".toList
        = some ⟨"file is required".toList, "FileUpdate.Path".toList, 10028, none⟩) ∧
    (∀ field entry err, preDefined opMsg field = some entry →
      generateErrorByField opMsg field err = .ret ⟨[], field, entry.Code, err⟩) ∧
    (∀ err,
      generateErrorByField opMsg "FileUpdate.Token".toList err
        = .ret ⟨[], "FileUpdate.Token".toList, 10025, err⟩ ∧
      generateErrorByField opMsg "FileUpdate.File".toList err
        = .ret ⟨[], "FileUpdate.File".toList, 10026, err⟩ ∧
      generateErrorByField opMsg "FileUpdate.Hidden".toList err
        = .ret ⟨[], "FileUpdate.Hidden".toList, 10027, err⟩ ∧
      generateErrorByField opMsg "FileUpdate.Path".toList err
        = .ret ⟨[], "FileUpdate.Path".toList, 10028, err⟩) ∧
    (∀ fu, ∃ v, FileUpdate.Validate opMsg fu = .ret v) := by
  refine ⟨⟨rfl, rfl, rfl, rfl⟩, ?_, fun err => ⟨rfl, rfl, rfl, rfl⟩, ?_⟩
  · intro field entry err h
    simp only [generateErrorByField, h]
  · intro fu
    have hT := fun v err => appendGenerated_found opMsg v _ err _ (preDefined_Token opMsg)
    have hF := fun v err => appendGenerated_found opMsg v _ err _ (preDefined_File opMsg)
    have hP := fun v err => appendGenerated_found opMsg v _ err _ (preDefined_Path opMsg)
    obtain ⟨se, te, fe, ae, p, vp⟩ := fu
    unfold FileUpdate.Validate
    cases te <;> cases fe <;> cases ae <;> cases p <;>
      simp only [hT, hF, hP, Run.bind] <;>
      first
        | exact ⟨_, rfl⟩
        | (split <;> exact ⟨_, rfl⟩)

theorem FileUpdate_lookups_witness :
    preDefined [] "FileUpdate.Path".toList
      = some ⟨"file is required".toList, "FileUpdate.Path".toList, 10028, none⟩ ∧
    generateErrorByField [] "FileUpdate.Path".toList (some ErrInvalidPath)
      = .ret ⟨[], "FileUpdate.Path".toList, 10028, some ErrInvalidPath⟩ :=
  ⟨rfl, (FileUpdate_lookups []).2.1 "FileUpdate.Path".toList
    ⟨"file is required".toList, "FileUpdate.Path".toList, 10028, none⟩ (some ErrInvalidPath) rfl⟩

end Bigfile
